import Mathlib

/-! Sudoku solver and generator (main.go): shallow embedding and verification.

The Go program keeps a puzzle as `[][]int` and mutates it in place.  Here a grid is a
list of rows, every function that mutates the grid returns the new grid, and the loops
of the source are written as list traversals (bounded `for` loops) or as recursion on a
fuel argument (the recursive solver and the `for changed` loop).  Go's `int` is embedded
as `Int` for cell values and as `Nat` for sizes and indices, which the source only ever
produces from loop counters starting at 0.  Inside the solver the machine width plays
no role: cell values are only copied and compared, and the only arithmetic is on indices
bounded by the grid size.  The width matters where values enter the program:
`argsToGrid` reads every element of the JS array with `.Int()`, which converts the number
to the 64-bit `int` (`jsInt` below).

An index outside a slice makes the Go program stop with a run-time error.  The accessors
below return 0 on such a read and ignore such a write; every statement proved here is
about `n`-by-`n` grids (`WF`) with `n = k * k`, on which no access of the source leaves
the grid.
-/

namespace Sudoku

/-- A grid as the source holds it: a slice of rows. -/
abbrev Grid := List (List Int)

/-- Read of `grid[i][j]`. -/
def cell (grid : Grid) (i j : Nat) : Int := (grid.getD i []).getD j 0

/-- Write `grid[i][j] = v`. -/
def setCell (grid : Grid) (i j : Nat) (v : Int) : Grid :=
  grid.set i ((grid.getD i []).set j v)

/-- An `n`-by-`n` grid: `n` rows of `n` cells. -/
def WF (n : Nat) (grid : Grid) : Prop :=
  grid.length = n ∧ ∀ row ∈ grid, row.length = n

instance (n : Nat) (grid : Grid) : Decidable (WF n grid) := by
  unfold WF; infer_instance

/-- Loop of `intSqrt`: `for i*i <= n { i++ }`, on a fuel argument. -/
def intSqrtLoop (n : Nat) : Nat → Nat → Nat
  | 0, i => i
  | fuel + 1, i => if i * i ≤ n then intSqrtLoop n fuel (i + 1) else i

/-- Source `intSqrt`: `i := 1; for i*i <= n { i++ }; return i - 1`.  The loop leaves
after at most `n` rounds, so `n + 1` rounds of fuel are never used up. -/
def intSqrt (n : Nat) : Nat := intSqrtLoop n (n + 1) 1 - 1

/-- Source `isSafe`: the row/column scan, then the scan of the sub-box. -/
def isSafe (grid : Grid) (row col : Nat) (num : Int) (n : Nat) : Bool :=
  if (List.range n).any (fun x => cell grid row x == num || cell grid x col == num) then
    false
  else
    let subSize := intSqrt n
    let startRow := row - row % subSize
    let startCol := col - col % subSize
    if (List.range subSize).any (fun i =>
        (List.range subSize).any (fun j => cell grid (startRow + i) (startCol + j) == num))
    then false
    else true

/-- The candidate values `1, 2, ..., n` in the order of `for num := 1; num <= n; num++`. -/
def nums (n : Nat) : List Int := (List.range n).map (fun (x : Nat) => (x : Int) + 1)

/-- First part of `solve`: the first cell holding 0 in row-major order, if any. -/
def findEmpty (grid : Grid) (n : Nat) : Option (Nat × Nat) :=
  (List.range n).findSome? (fun i =>
    (List.range n).findSome? (fun j => if cell grid i j = 0 then some (i, j) else none))

/-- An event handed to the step callback of the visual mode. -/
structure StepEvent where
  row : Nat
  col : Nat
  value : Int
  action : String
deriving DecidableEq, Repr

/-- What a call of `solve` leaves behind: the returned flag, the grid after the call and
the events emitted so far. -/
abbrev Outcome := Bool × Grid × List StepEvent

/-- The candidate loop of `solve` at the empty cell `(row, col)`; `rec` is the recursive
call.  `vis` stands for the test `visualSolve && stepCallback.Truthy()`. -/
def tryNums (vis : Bool) (n row col : Nat) (rec : Grid × List StepEvent → Option Outcome) :
    List Int → Grid → List StepEvent → Option Outcome
  | [], grid, ev => some (false, grid, ev)
  | num :: rest, grid, ev =>
    if isSafe grid row col num n then
      let g1 := setCell grid row col num
      let ev1 := if vis then ev ++ [⟨row, col, num, "try"⟩] else ev
      match rec (g1, ev1) with
      | none => none
      | some (true, g2, ev2) => some (true, g2, ev2)
      | some (false, g2, ev2) =>
        let g3 := setCell g2 row col 0
        let ev3 := if vis then ev2 ++ [⟨row, col, 0, "backtrack"⟩] else ev2
        tryNums vis n row col rec rest g3 ev3
    else tryNums vis n row col rec rest grid ev

/-- Source `solve`, by recursion on fuel; `none` means the fuel ran out. -/
def solveAux (vis : Bool) (n : Nat) : Nat → Grid × List StepEvent → Option Outcome
  | 0, _ => none
  | fuel + 1, (grid, ev) =>
    match findEmpty grid n with
    | none => some (true, grid, ev)
    | some (row, col) => tryNums vis n row col (solveAux vis n fuel) (nums n) grid ev

/-- A run of `solve(grid, n)` from the outside: every level of the recursion fills one
cell, so `n * n + 1` levels of fuel suffice on an `n`-by-`n` grid. -/
def solveRun (vis : Bool) (grid : Grid) (n : Nat) : Option Outcome :=
  solveAux vis n (n * n + 1) (grid, [])

/-- Source `solve` as `solveSudoku` and `generateSudoku` call it (no step callback). -/
def solve (grid : Grid) (n : Nat) : Option Outcome := solveRun false grid n

/-- Source `solve` as `solveSudokuVisual` calls it (step callback set). -/
def solveVisual (grid : Grid) (n : Nat) : Option Outcome := solveRun true grid n

/-- The candidate list built by `findNakedSingle` at cell `(r, c)`. -/
def candidates (grid : Grid) (r c n : Nat) : List Int :=
  (nums n).filter (fun num => isSafe grid r c num n)

/-- The scan of `findNakedSingle`, without the packing of the result. -/
def nakedScan (grid : Grid) (n : Nat) : Option (Nat × Nat × Int) :=
  (List.range n).findSome? (fun r =>
    (List.range n).findSome? (fun c =>
      if cell grid r c = 0 then
        match candidates grid r c n with
        | [v] => some (r, c, v)
        | _ => none
      else none))

/-- Source `findNakedSingle`: row, column, value and the found flag. -/
def findNakedSingle (grid : Grid) (n : Nat) : Int × Int × Int × Bool :=
  match nakedScan grid n with
  | some (r, c, v) => ((r : Int), (c : Int), v, true)
  | none => (-1, -1, -1, false)

/-- The innermost loops of `findHiddenSingle`: `count` and `pos` after scanning the
positions `0 .. n-1`, where `test` is the condition `grid[..][..] == 0 && isSafe(..)`. -/
def countPos (test : Nat → Bool) (n : Nat) : Nat × Int :=
  (List.range n).foldl
    (fun (s : Nat × Int) p => if test p then (s.1 + 1, (p : Int)) else s) (0, -1)

/-- Row pass of `findHiddenSingle`. -/
def hiddenRows (grid : Grid) (n : Nat) : Option (Int × Int × Int) :=
  (List.range n).findSome? (fun r =>
    (nums n).findSome? (fun num =>
      let s := countPos (fun c => cell grid r c == 0 && isSafe grid r c num n) n
      if s.1 = 1 then some ((r : Int), s.2, num) else none))

/-- Column pass of `findHiddenSingle`. -/
def hiddenCols (grid : Grid) (n : Nat) : Option (Int × Int × Int) :=
  (List.range n).findSome? (fun c =>
    (nums n).findSome? (fun num =>
      let s := countPos (fun r => cell grid r c == 0 && isSafe grid r c num n) n
      if s.1 = 1 then some (s.2, (c : Int), num) else none))

/-- The values of a loop `for b := start; b < n; b += step`, on a fuel argument. -/
def stepRange (n step : Nat) : Nat → Nat → List Nat
  | 0, _ => []
  | fuel + 1, b => if b < n then b :: stepRange n step fuel (b + step) else []

/-- The box origins `0, subSize, 2*subSize, ...` below `n`.  With `subSize >= 1` the loop
makes at most `n` rounds. -/
def boxStarts (n subSize : Nat) : List Nat := stepRange n subSize n 0

/-- The two inner loops of the box pass: `count`, `posR`, `posC` for one box and value. -/
def countBox (grid : Grid) (n subSize boxRow boxCol : Nat) (num : Int) : Nat × Int × Int :=
  (List.range subSize).foldl (fun (s : Nat × Int × Int) r =>
    (List.range subSize).foldl (fun (s : Nat × Int × Int) c =>
      if cell grid (boxRow + r) (boxCol + c) == 0
          && isSafe grid (boxRow + r) (boxCol + c) num n then
        (s.1 + 1, ((boxRow + r : Nat) : Int), ((boxCol + c : Nat) : Int))
      else s) s) (0, -1, -1)

/-- Box pass of `findHiddenSingle`. -/
def hiddenBoxes (grid : Grid) (n : Nat) : Option (Int × Int × Int) :=
  let subSize := intSqrt n
  (boxStarts n subSize).findSome? (fun boxRow =>
    (boxStarts n subSize).findSome? (fun boxCol =>
      (nums n).findSome? (fun num =>
        let s := countBox grid n subSize boxRow boxCol num
        if s.1 = 1 then some (s.2.1, s.2.2, num) else none)))

/-- Source `findHiddenSingle`: rows, then columns, then boxes. -/
def findHiddenSingle (grid : Grid) (n : Nat) : Int × Int × Int × Bool :=
  match hiddenRows grid n with
  | some (r, c, v) => (r, c, v, true)
  | none =>
    match hiddenCols grid n with
    | some (r, c, v) => (r, c, v, true)
    | none =>
      match hiddenBoxes grid n with
      | some (r, c, v) => (r, c, v, true)
      | none => (-1, -1, -1, false)

/-- A step recorded by `humanSolve`. -/
structure HumanStep where
  row : Int
  col : Int
  val : Int
  strategy : String
deriving DecidableEq, Repr

/-- The loop `for changed { ... }` of `humanSolve`, by recursion on fuel; `none` means
the fuel ran out.  The result is the grid the loop stops on and the recorded steps. -/
def humanLoop (n : Nat) : Nat → Grid → List HumanStep → Option (Grid × List HumanStep)
  | 0, _, _ => none
  | fuel + 1, grid, steps =>
    match findNakedSingle grid n with
    | (r, c, val, true) =>
      humanLoop n fuel (setCell grid r.toNat c.toNat val)
        (steps ++ [⟨r, c, val, "Naked Single"⟩])
    | (_, _, _, false) =>
      match findHiddenSingle grid n with
      | (r, c, val, true) =>
        humanLoop n fuel (setCell grid r.toNat c.toNat val)
          (steps ++ [⟨r, c, val, "Hidden Single"⟩])
      | (_, _, _, false) => some (grid, steps)

/-- The human-style loop of `humanSolve(size, grid)`: every round but the last fills one
cell, so `n * n + 1` rounds of fuel suffice on an `n`-by-`n` grid. -/
def humanSolve (grid : Grid) (n : Nat) : Option (Grid × List HumanStep) :=
  humanLoop n (n * n + 1) grid []

/-- Applying recorded steps in order to a grid. -/
def applySteps (grid : Grid) (steps : List HumanStep) : Grid :=
  steps.foldl (fun g s => setCell g s.row.toNat s.col.toNat s.val) grid

/-- Replay of the visual events: a "try" writes the value, a "backtrack" resets the
cell to 0. -/
def replay (grid : Grid) (events : List StepEvent) : Grid :=
  events.foldl (fun g e =>
    if e.action = "try" then setCell g e.row e.col e.value
    else if e.action = "backtrack" then setCell g e.row e.col 0
    else g) grid

/-- Source `fillBox`; `perm` is the result of `rand.Perm(n)`, a permutation of
`0 .. n-1`, and the counter `idx` runs along with the two loops. -/
def fillBox (grid : Grid) (row col subSize : Nat) (perm : List Int) : Grid :=
  ((List.range subSize).foldl (fun (s : Grid × Nat) i =>
    (List.range subSize).foldl (fun (s : Grid × Nat) j =>
      (setCell s.1 (row + i) (col + j) (perm.getD s.2 0 + 1), s.2 + 1)) s) (grid, 0)).1

/-- Source `fillDiagonalBoxes`; `perms` holds the results of the successive calls of
`rand.Perm`, one for each diagonal box. -/
def fillDiagonalBoxes (grid : Grid) (n : Nat) (perms : List (List Int)) : Grid :=
  let subSize := intSqrt n
  ((boxStarts n subSize).zip perms).foldl (fun g kp => fillBox g kp.1 kp.1 subSize kp.2) grid

/-- Source `removeCells`; `picks` holds the successive pairs `(rand.Intn(n), rand.Intn(n))`.
The result is `none` when the picks run out before `count` cells are cleared. -/
def removeCells (grid : Grid) (n : Nat) (count : Int) : List (Nat × Nat) → Option Grid
  | [] => if count > 0 then none else some grid
  | (i, j) :: rest =>
    if count > 0 then
      if cell grid i j ≠ 0 then removeCells (setCell grid i j 0) n (count - 1) rest
      else removeCells grid n count rest
    else some grid

/-- The empty `n`-by-`n` grid, as `make` allocates it. -/
def emptyGrid (n : Nat) : Grid := List.replicate n (List.replicate n 0)

/-- All cell positions of an `n`-by-`n` grid in row-major order. -/
def cells (n : Nat) : List (Nat × Nat) :=
  (List.range n).flatMap (fun i => (List.range n).map (fun j => (i, j)))

/-- Number of cells holding 0. -/
def numEmpty (grid : Grid) (n : Nat) : Nat :=
  (cells n).countP (fun p => cell grid p.1 p.2 == 0)

/-- Number of cells not holding 0. -/
def numFilled (grid : Grid) (n : Nat) : Nat :=
  (cells n).countP (fun p => cell grid p.1 p.2 != 0)

/-- Cells `(i, j)` that share the row, the column or the sub-box of side `k` with the
cell `(r, c)`. -/
def peer (k r c i j : Nat) : Prop := i = r ∨ j = c ∨ (i / k = r / k ∧ j / k = c / k)

instance (k r c i j : Nat) : Decidable (peer k r c i j) := by
  unfold peer; infer_instance

/-- The value of `S` at `(i, j)` lies in `1..n` and occurs nowhere else in the row, the
column and the sub-box of `(i, j)`. -/
def FilledOk (k : Nat) (S : Grid) (i j : Nat) : Prop :=
  1 ≤ cell S i j ∧ cell S i j ≤ ((k * k : Nat) : Int) ∧
    ∀ i', i' < k * k → ∀ j', j' < k * k → peer k i j i' j' → (i', j') ≠ (i, j) →
      cell S i' j' ≠ cell S i j

instance (k : Nat) (S : Grid) (i j : Nat) : Decidable (FilledOk k S i j) := by
  unfold FilledOk; infer_instance

/-- A completion of the puzzle `g`: an `n`-by-`n` grid that keeps the non-zero cells of
`g` and holds in every empty cell of `g` a value in `1..n` that occurs nowhere else in
the row, the column and the sub-box of that cell. -/
def Completion (k : Nat) (g S : Grid) : Prop :=
  WF (k * k) S ∧
  ∀ i, i < k * k → ∀ j, j < k * k →
    (cell g i j ≠ 0 → cell S i j = cell g i j) ∧ (cell g i j = 0 → FilledOk k S i j)

instance (k : Nat) (g S : Grid) : Decidable (Completion k g S) := by
  unfold Completion; infer_instance

/-- What an outcome of `solve` on the grid `g` means: with `true` the grid left behind
is a completion of `g`; with `false` the grid is `g` again and `g` has no completion. -/
def SolveSpec (k : Nat) (g : Grid) (out : Outcome) : Prop :=
  (out.1 = true → Completion k g out.2.1) ∧
  (out.1 = false → out.2.1 = g ∧ ∀ S, ¬ Completion k g S)

/-- Every cell holds a value in `0..n`. -/
def InRange (n : Nat) (g : Grid) : Prop :=
  ∀ i, i < n → ∀ j, j < n → 0 ≤ cell g i j ∧ cell g i j ≤ (n : Int)

instance (n : Nat) (g : Grid) : Decidable (InRange n g) := by
  unfold InRange; infer_instance

/-- The value of `g` at `(i, j)` occurs nowhere else in the row, the column and the
sub-box of `(i, j)`. -/
def UniqueAt (k : Nat) (g : Grid) (i j : Nat) : Prop :=
  ∀ i', i' < k * k → ∀ j', j' < k * k → peer k i j i' j' → (i', j') ≠ (i, j) →
    cell g i' j' ≠ cell g i j

instance (k : Nat) (g : Grid) (i j : Nat) : Decidable (UniqueAt k g i j) := by
  unfold UniqueAt; infer_instance

/-- No non-zero value occurs twice in a row, a column or a sub-box of side `k`. -/
def NoDup (k : Nat) (g : Grid) : Prop :=
  ∀ i, i < k * k → ∀ j, j < k * k → cell g i j ≠ 0 → UniqueAt k g i j

instance (k : Nat) (g : Grid) : Decidable (NoDup k g) := by
  unfold NoDup; infer_instance

/-- No cell holds 0. -/
def Full (n : Nat) (g : Grid) : Prop := ∀ i, i < n → ∀ j, j < n → cell g i j ≠ 0

instance (n : Nat) (g : Grid) : Decidable (Full n g) := by
  unfold Full; infer_instance

/-- The cells of the sub-box with origin `(bi * k, bj * k)`, row by row. -/
def boxCells (k bi bj : Nat) : List (Nat × Nat) :=
  (List.range k).flatMap (fun a => (List.range k).map (fun b => (bi * k + a, bj * k + b)))

/-- Every row, every column and every sub-box holds each of `1..n` exactly once. -/
def EachOnce (k : Nat) (g : Grid) : Prop :=
  (∀ i, i < k * k → ∀ v ∈ nums (k * k),
    (List.range (k * k)).countP (fun j => cell g i j == v) = 1) ∧
  (∀ j, j < k * k → ∀ v ∈ nums (k * k),
    (List.range (k * k)).countP (fun i => cell g i j == v) = 1) ∧
  (∀ bi, bi < k → ∀ bj, bj < k → ∀ v ∈ nums (k * k),
    (boxCells k bi bj).countP (fun p => cell g p.1 p.2 == v) = 1)

instance (k : Nat) (g : Grid) : Decidable (EachOnce k g) := by
  unfold EachOnce; infer_instance

/-- A solved grid: no empty cell, and every row, column and sub-box holds each of
`1..n` exactly once. -/
def Solved (k : Nat) (g : Grid) : Prop := Full (k * k) g ∧ EachOnce k g

instance (k : Nat) (g : Grid) : Decidable (Solved k g) := by
  unfold Solved; infer_instance

/-- Every cell holds a value in `1..n` that occurs nowhere else in its row, column and
sub-box. -/
def AllOk (k : Nat) (g : Grid) : Prop :=
  ∀ i, i < k * k → ∀ j, j < k * k → FilledOk k g i j

/-- A solved 9x9 grid, used as a concrete input. -/
def sampleFull : Grid :=
  [[1, 2, 3, 4, 5, 6, 7, 8, 9],
   [4, 5, 6, 7, 8, 9, 1, 2, 3],
   [7, 8, 9, 1, 2, 3, 4, 5, 6],
   [2, 3, 4, 5, 6, 7, 8, 9, 1],
   [5, 6, 7, 8, 9, 1, 2, 3, 4],
   [8, 9, 1, 2, 3, 4, 5, 6, 7],
   [3, 4, 5, 6, 7, 8, 9, 1, 2],
   [6, 7, 8, 9, 1, 2, 3, 4, 5],
   [9, 1, 2, 3, 4, 5, 6, 7, 8]]

/-- A sequence of picks `(rand.Intn(9), rand.Intn(9))`, used as a concrete input; some
picks hit a cell that is already cleared. -/
def samplePicks : List (Nat × Nat) :=
  [(5, 2), (6, 0), (1, 8), (1, 5), (0, 8), (3, 0), (1, 6), (6, 1), (3, 1), (8, 6),
   (0, 1), (3, 0), (6, 0), (3, 0), (8, 2), (4, 6), (2, 8), (1, 4), (8, 2), (1, 3),
   (5, 1), (8, 1), (0, 3), (7, 8), (6, 5), (7, 7), (5, 4), (3, 2), (3, 1), (4, 8),
   (7, 5), (7, 4), (1, 1), (8, 6), (2, 5), (2, 7), (6, 0), (1, 8), (5, 5), (5, 7),
   (7, 1), (1, 4), (7, 1), (0, 4), (7, 4), (6, 5), (0, 7), (5, 2), (1, 7), (0, 3),
   (4, 2), (3, 6), (6, 7), (1, 2), (7, 6), (8, 4), (2, 6), (8, 4), (6, 5), (6, 3),
   (2, 1), (2, 2)]

/-- The puzzle `removeCells` leaves on `sampleFull` with `samplePicks` and 46 cells to
clear. -/
def samplePuzzle : Grid :=
  [[1, 0, 3, 0, 0, 6, 7, 0, 0],
   [4, 0, 0, 0, 0, 0, 0, 0, 0],
   [7, 0, 0, 1, 2, 0, 0, 0, 0],
   [0, 0, 0, 5, 6, 7, 0, 9, 1],
   [5, 6, 0, 8, 9, 1, 0, 3, 0],
   [8, 0, 0, 2, 0, 0, 5, 0, 7],
   [0, 0, 5, 0, 7, 0, 9, 0, 2],
   [6, 0, 8, 9, 0, 0, 0, 0, 0],
   [9, 0, 0, 3, 0, 5, 0, 7, 8]]

/-- The value at `(i, j)` of a standard solved grid of box side `k`: the rows are cyclic
shifts of `1..n`, row `i` shifted by `k * (i mod k) + i / k`. -/
def shiftValue (k i j : Nat) : Int := (((k * (i % k) + i / k + j) % (k * k) : Nat) : Int) + 1

/-- A standard solved grid of box side `k`. -/
def shiftGrid (k : Nat) : Grid :=
  (List.range (k * k)).map (fun i => (List.range (k * k)).map (fun j => shiftValue k i j))

/-- A deduction of the human-style loop on the grid `g`: the cell `(r, c)` is empty, the
value `v` in `1..n` is safe there, and either `v` is the only candidate of the cell
(naked single) or the cell is the only empty cell of its row, of its column or of its
sub-box where `v` is safe (hidden single). -/
def HumanMove (k : Nat) (g : Grid) (r c : Nat) (v : Int) : Prop :=
  r < k * k ∧ c < k * k ∧ cell g r c = 0 ∧ v ∈ nums (k * k) ∧
    isSafe g r c v (k * k) = true ∧
    (candidates g r c (k * k) = [v] ∨
      (∀ q, q < k * k → cell g r q = 0 → isSafe g r q v (k * k) = true → q = c) ∨
      (∀ q, q < k * k → cell g q c = 0 → isSafe g q c v (k * k) = true → q = r) ∨
      (∀ i, i < k * k → ∀ j, j < k * k → i / k = r / k → j / k = c / k →
        cell g i j = 0 → isSafe g i j v (k * k) = true → i = r ∧ j = c))

/-- A sequence of steps, each a deduction on the grid left by the steps before it. -/
def MoveChain (k : Nat) : Grid → List HumanStep → Prop
  | _, [] => True
  | g, s :: rest =>
    ∃ r c : Nat, s.row = (r : Int) ∧ s.col = (c : Int) ∧ HumanMove k g r c s.val ∧
      MoveChain k (setCell g r c s.val) rest

/-- Each step of the list writes a value in `1..n` into a cell of the grid that holds 0
at that moment, that is after the steps before it. -/
def StepsFillEmpty (n : Nat) : Grid → List HumanStep → Prop
  | _, [] => True
  | g, s :: rest =>
    0 ≤ s.row ∧ s.row < (n : Int) ∧ 0 ≤ s.col ∧ s.col < (n : Int) ∧
      1 ≤ s.val ∧ s.val ≤ (n : Int) ∧ cell g s.row.toNat s.col.toNat = 0 ∧
      StepsFillEmpty n (setCell g s.row.toNat s.col.toNat s.val) rest

/-- Go's `string(rune(v))` for an `int` value: the conversion to `rune` keeps the low 32
bits as a signed number, and a value that is no Unicode code point gives U+FFFD. -/
def runeString (v : Int) : String :=
  let r := (v + 2147483648) % 4294967296 - 2147483648
  if (0 ≤ r ∧ r < 55296) ∨ (57343 < r ∧ r < 1114112) then
    String.singleton (Char.ofNat r.toNat)
  else String.singleton (Char.ofNat 65533)

/-- Source `decodeDomain`: the characters of the codes, appended one by one. -/
def decodeDomain (arr : List Int) : String :=
  arr.foldl (fun s v => s ++ runeString v) ""

/-- The string `sub` starts the string `s` (both as lists of characters). -/
def startsWith : List Char → List Char → Bool
  | _, [] => true
  | [], _ :: _ => false
  | c :: s, d :: sub => c == d && startsWith s sub

/-- Go's library function `strings.Contains` on lists of characters: `sub` occurs in `s`
as a contiguous run, found by trying every start position in turn. -/
def containsList : List Char → List Char → Bool
  | [], sub => startsWith [] sub
  | c :: s, sub => startsWith (c :: s) sub || containsList s sub

/-- The allow-list of `checkAllowedHost`, as arrays of character codes. -/
def allowedCodes : List (List Int) :=
  [[100, 105, 120, 111, 110, 46, 114, 115],
   [97, 110, 100, 121, 100, 105, 120, 111, 110, 46, 99, 111, 109]]

/-- Source `checkAllowedHost`, with the hostname of the page as input; the result is the
returned flag (the toast and the redirect of the failing branch are not modelled).
`len` is the length in bytes. -/
def checkAllowedHost (host : String) : Bool :=
  allowedCodes.any (fun arr =>
    decide (host.utf8ByteSize ≥ (decodeDomain arr).utf8ByteSize) &&
      containsList host.data (decodeDomain arr).data)

/-- The difficulty label of `generateSudoku` for a clue count. -/
def difficulty (clues : Int) : String :=
  if clues ≥ 35 then "Easy" else if clues ≥ 28 then "Medium" else "Hard"

/-- The loop of `generateSudoku` that flattens the puzzle, row by row. -/
def flatPuzzle (grid : Grid) (size : Nat) : List Int :=
  (List.range size).foldl (fun acc i =>
    (List.range size).foldl (fun acc j => acc ++ [cell grid i j]) acc) []

/-- Source `generateSudoku`, with the hostname, the visual-mode flag and the random
draws as inputs: `perms` for `rand.Perm`, `d` for `rand.Intn(14)`, `picks` for the pairs
drawn by `removeCells`.  The outer `none` means that the call does not return (the picks
run out), `some none` is the `null` result of a host that is not allowed. -/
def generateSudoku (host : String) (vis : Bool) (perms : List (List Int)) (d : Nat)
    (picks : List (Nat × Nat)) : Option (Option (List Int × String)) :=
  if checkAllowedHost host = false then some none
  else
    let size := 9
    let grid := fillDiagonalBoxes (emptyGrid size) size perms
    match solveRun vis grid size with
    | none => none
    | some (_, grid, _) =>
      let clues : Int := (d : Int) + 22
      match removeCells grid size (81 - clues) picks with
      | none => none
      | some grid => some (some (flatPuzzle grid size, difficulty clues))

/-- Reduction of an integer to the range of Go's 64-bit `int`, two's complement. -/
def toInt64 (v : Int) : Int :=
  (v + 9223372036854775808) % 18446744073709551616 - 9223372036854775808

/-- Go's library method `Value.Int()` of `syscall/js` on a JS number that is the whole
number `v`: the number converted to Go's 64-bit `int`.  A value in
`-2^63 <= v < 2^63` is kept.  For a value outside that range Go leaves the result of the
conversion to the implementation: `ovf v` stands for it, reduced to 64 bits, so that the
result is a 64-bit value whatever the implementation does. -/
def jsInt (ovf : Int → Int) (v : Int) : Int :=
  if -9223372036854775808 ≤ v ∧ v < 9223372036854775808 then v else toInt64 (ovf v)

/-- Source `argsToGrid`, with the flat array `args[1]` as a list of whole numbers: the
grid is allocated row by row and filled cell by cell while the counter `idx` runs through
the array; every element is read with `.Int()` into a cell of type `int`. -/
def argsToGrid (ovf : Int → Int) (flat : List Int) (size : Nat) : Grid :=
  ((List.range size).foldl (fun (s : Grid × Nat) i =>
    (List.range size).foldl (fun (s : Grid × Nat) j =>
      (setCell s.1 i j (jsInt ovf (flat.getD s.2 0)), s.2 + 1))
      (s.1.set i (List.replicate size 0), s.2))
    (List.replicate size [], 0)).1

/-- Source `gridToFlat`: the cells appended row by row. -/
def gridToFlat (grid : Grid) : List Int :=
  (List.range grid.length).foldl (fun flat i =>
    (List.range (grid.getD i []).length).foldl (fun flat j => flat ++ [cell grid i j]) flat) []

/-- Row `i` of the grid that holds `flat[i*size + j]`, read with `.Int()`, in cell
`(i, j)`. -/
def flatRow (ovf : Int → Int) (flat : List Int) (size i : Nat) : List Int :=
  (List.range size).map (fun j => jsInt ovf (flat.getD (i * size + j) 0))

/-- The cell `(r, c)` is empty and `v` is the one value in `1..n` that `isSafe` accepts
there. -/
def NakedAt (g : Grid) (n r c : Nat) (v : Int) : Prop :=
  cell g r c = 0 ∧ v ∈ nums n ∧ isSafe g r c v n = true ∧
    ∀ w ∈ nums n, isSafe g r c w n = true → w = v

/-- The cell `(i, j)` comes before the cell `(r, c)` in row-major order. -/
def Before (i j r c : Nat) : Prop := i < r ∨ (i = r ∧ j < c)

instance (i j r c : Nat) : Decidable (Before i j r c) := by
  unfold Before; infer_instance

/-- The cells of row `r`, left to right. -/
def rowCells (n r : Nat) : List (Nat × Nat) := (List.range n).map (fun c => (r, c))

/-- The cells of column `c`, top to bottom. -/
def colCells (n c : Nat) : List (Nat × Nat) := (List.range n).map (fun r => (r, c))

/-- The cell `p` is the only empty cell of the house (a row, a column or a sub-box, given
by its cells) where `isSafe` accepts the value `v`. -/
def HiddenIn (g : Grid) (n : Nat) (v : Int) (house : List (Nat × Nat)) (p : Nat × Nat) :
    Prop :=
  p ∈ house ∧ cell g p.1 p.2 = 0 ∧ isSafe g p.1 p.2 v n = true ∧
    ∀ q ∈ house, cell g q.1 q.2 = 0 → isSafe g q.1 q.2 v n = true → q = p

/-- The house has exactly one empty cell where `isSafe` accepts `v`. -/
def HasHidden (g : Grid) (n : Nat) (v : Int) (house : List (Nat × Nat)) : Prop :=
  ∃ p, HiddenIn g n v house p

/-- The pair (row `r`, value `v`) is the first, rows ascending and then values ascending,
whose row has a hidden single, and that single is at column `c`. -/
def FirstRowSingle (g : Grid) (n r c : Nat) (v : Int) : Prop :=
  r < n ∧ c < n ∧ v ∈ nums n ∧ HiddenIn g n v (rowCells n r) (r, c) ∧
    ∀ r2, r2 < n → ∀ v2 ∈ nums n, (r2 < r ∨ (r2 = r ∧ v2 < v)) →
      ¬ HasHidden g n v2 (rowCells n r2)

/-- The pair (column `c`, value `v`) is the first, columns ascending and then values
ascending, whose column has a hidden single, and that single is at row `r`. -/
def FirstColSingle (g : Grid) (n r c : Nat) (v : Int) : Prop :=
  r < n ∧ c < n ∧ v ∈ nums n ∧ HiddenIn g n v (colCells n c) (r, c) ∧
    ∀ c2, c2 < n → ∀ v2 ∈ nums n, (c2 < c ∨ (c2 = c ∧ v2 < v)) →
      ¬ HasHidden g n v2 (colCells n c2)

/-- The pair (sub-box, value `v`) is the first, boxes in row-major order of their origins
and then values ascending, whose box has a hidden single, and that single is at `(r, c)`. -/
def FirstBoxSingle (g : Grid) (k r c : Nat) (v : Int) : Prop :=
  ∃ bi, bi < k ∧ ∃ bj, bj < k ∧ v ∈ nums (k * k) ∧
    HiddenIn g (k * k) v (boxCells k bi bj) (r, c) ∧
    ∀ bi2, bi2 < k → ∀ bj2, bj2 < k → ∀ v2 ∈ nums (k * k),
      (bi2 < bi ∨ (bi2 = bi ∧ (bj2 < bj ∨ (bj2 = bj ∧ v2 < v)))) →
        ¬ HasHidden g (k * k) v2 (boxCells k bi2 bj2)

/-- Some row has a hidden single of some value in `1..n`. -/
def HasRowSingle (g : Grid) (n : Nat) : Prop :=
  ∃ r, r < n ∧ ∃ v ∈ nums n, HasHidden g n v (rowCells n r)

/-- Some column has a hidden single of some value in `1..n`. -/
def HasColSingle (g : Grid) (n : Nat) : Prop :=
  ∃ c, c < n ∧ ∃ v ∈ nums n, HasHidden g n v (colCells n c)

/-- Some sub-box has a hidden single of some value in `1..n`. -/
def HasBoxSingle (g : Grid) (k : Nat) : Prop :=
  ∃ bi, bi < k ∧ ∃ bj, bj < k ∧ ∃ v ∈ nums (k * k), HasHidden g (k * k) v (boxCells k bi bj)

instance (g : Grid) (n : Nat) (v : Int) (house : List (Nat × Nat)) (p : Nat × Nat) :
    Decidable (HiddenIn g n v house p) := by
  unfold HiddenIn; infer_instance

/-- Lexicographic comparison `a <= b` of two sequences of cell values. -/
def lexLE : List Int → List Int → Bool
  | [], _ => true
  | _ :: _, [] => false
  | a :: as, b :: bs => decide (a < b) || (a == b && lexLE as bs)

/-- The grid `A` comes no later than the grid `B` in the lexicographic order of the
row-major reading: either the two agree in every cell, or at the first cell where they
differ `A` holds the smaller value. -/
def CellLE (n : Nat) (A B : Grid) : Prop :=
  (∀ i, i < n → ∀ j, j < n → cell A i j = cell B i j) ∨
  ∃ r, r < n ∧ ∃ c, c < n ∧ cell A r c < cell B r c ∧
    ∀ i, i < n → ∀ j, j < n → Before i j r c → cell A i j = cell B i j

/-! ## Properties of the embedding -/

theorem WF_setCell {n : Nat} {g : Grid} (h : WF n g) (r c : Nat) (v : Int) :
    WF n (setCell g r c v) := by
  obtain ⟨h1, h2⟩ := h
  refine ⟨by simp [setCell, h1], ?_⟩
  intro row hrow
  unfold setCell at hrow
  by_cases hr : r < g.length
  · rcases List.mem_or_eq_of_mem_set hrow with hm | he
    · exact h2 row hm
    · subst he
      rw [List.length_set, List.getD_eq_getElem _ _ hr]
      exact h2 _ (List.getElem_mem _)
  · rw [List.set_eq_of_length_le (by omega)] at hrow
    exact h2 row hrow

theorem cell_setCell {n : Nat} {g : Grid} (h : WF n g) {r c : Nat} (hr : r < n) (hc : c < n)
    (v : Int) (i j : Nat) :
    cell (setCell g r c v) i j = if i = r ∧ j = c then v else cell g i j := by
  obtain ⟨h1, h2⟩ := h
  have hrl : r < g.length := by omega
  have hlen : (g[r]).length = n := h2 _ (List.getElem_mem _)
  unfold cell setCell
  by_cases hi : i = r
  · subst hi
    simp only [List.getD_eq_getElem?_getD, List.getElem?_set_self hrl, Option.getD_some, true_and]
    rw [List.getElem?_set]
    by_cases hj : c = j
    · subst hj
      simp [hrl, hlen, hc]
    · have : ¬ j = c := fun h => hj h.symm
      simp [hj, this, hrl]
  · have : ¬ r = i := fun h => hi h.symm
    simp [List.getD_eq_getElem?_getD, List.getElem?_set, this, hi]

theorem grid_ext {n : Nat} {g g' : Grid} (h : WF n g) (h' : WF n g')
    (hc : ∀ i, i < n → ∀ j, j < n → cell g i j = cell g' i j) : g = g' := by
  obtain ⟨h1, h2⟩ := h
  obtain ⟨h1', h2'⟩ := h'
  apply List.ext_getElem (by omega)
  intro i hi hi'
  have l1 : (g[i]).length = n := h2 _ (List.getElem_mem _)
  have l2 : (g'[i]).length = n := h2' _ (List.getElem_mem _)
  apply List.ext_getElem (by omega)
  intro j hj hj'
  have := hc i (by omega) j (by omega)
  unfold cell at this
  simpa [List.getD_eq_getElem?_getD, hi, hi', hj, hj'] using this

theorem intSqrtLoop_spec (n : Nat) : ∀ fuel i, 1 ≤ i → (i - 1) * (i - 1) ≤ n →
    n + 2 ≤ fuel + i →
    (intSqrtLoop n fuel i - 1) * (intSqrtLoop n fuel i - 1) ≤ n ∧
      n < intSqrtLoop n fuel i * intSqrtLoop n fuel i := by
  intro fuel
  induction fuel with
  | zero =>
    intro i h1 h2 h3
    exfalso
    have : i - 1 ≤ (i - 1) * (i - 1) := Nat.le_mul_self _
    omega
  | succ f ih =>
    intro i h1 h2 h3
    unfold intSqrtLoop
    by_cases h : i * i ≤ n
    · rw [if_pos h]
      exact ih (i + 1) (by omega) (by simpa using h) (by omega)
    · rw [if_neg h]
      exact ⟨h2, by omega⟩

theorem intSqrt_spec (n : Nat) :
    intSqrt n * intSqrt n ≤ n ∧ n < (intSqrt n + 1) * (intSqrt n + 1) := by
  have h := intSqrtLoop_spec n (n + 1) 1 (le_refl _) (by simp) (by omega)
  unfold intSqrt
  have hpos : 1 ≤ intSqrtLoop n (n + 1) 1 := by
    by_contra hc
    have : intSqrtLoop n (n + 1) 1 = 0 := by omega
    rw [this] at h
    omega
  have e : intSqrtLoop n (n + 1) 1 - 1 + 1 = intSqrtLoop n (n + 1) 1 := by omega
  rw [e]
  exact h

theorem intSqrt_sq (k : Nat) : intSqrt (k * k) = k := by
  obtain ⟨h1, h2⟩ := intSqrt_spec (k * k)
  have a : intSqrt (k * k) ≤ k := by
    by_contra hc
    have : (k + 1) * (k + 1) ≤ intSqrt (k * k) * intSqrt (k * k) :=
      Nat.mul_le_mul (by omega) (by omega)
    nlinarith
  have b : k ≤ intSqrt (k * k) := by
    by_contra hc
    have : (intSqrt (k * k) + 1) * (intSqrt (k * k) + 1) ≤ k * k :=
      Nat.mul_le_mul (by omega) (by omega)
    omega
  omega

theorem isSafe_eq_false_iff (g : Grid) (row col : Nat) (num : Int) (k : Nat) :
    isSafe g row col num (k * k) = false ↔
      ((∃ x, x < k * k ∧ cell g row x = num) ∨ (∃ x, x < k * k ∧ cell g x col = num) ∨
        (∃ i, i < k ∧ ∃ j, j < k ∧ cell g (row - row % k + i) (col - col % k + j) = num)) := by
  unfold isSafe
  rw [intSqrt_sq]
  simp only [List.any_eq_true, List.mem_range, Bool.or_eq_true, beq_iff_eq]
  constructor
  · intro h
    split at h
    · rename_i h1
      obtain ⟨x, hx, hx2⟩ := h1
      rcases hx2 with e | e
      · exact Or.inl ⟨x, hx, e⟩
      · exact Or.inr (Or.inl ⟨x, hx, e⟩)
    · split at h
      · rename_i h2
        obtain ⟨i, hi, j, hj, e⟩ := h2
        exact Or.inr (Or.inr ⟨i, hi, j, hj, e⟩)
      · exact absurd h (by simp)
  · intro h
    rcases h with ⟨x, hx, e⟩ | ⟨x, hx, e⟩ | ⟨i, hi, j, hj, e⟩
    · rw [if_pos ⟨x, hx, Or.inl e⟩]
    · rw [if_pos ⟨x, hx, Or.inr e⟩]
    · split
      · rfl
      · rw [if_pos ⟨i, hi, j, hj, e⟩]

theorem box_origin (k i : Nat) : i - i % k = k * (i / k) := by
  have := Nat.div_add_mod i k
  omega

theorem div_lt_of_lt_sq {k i : Nat} (h : i < k * k) : i / k < k :=
  Nat.div_lt_of_lt_mul h

theorem isSafe_iff_peer (g : Grid) {k row col : Nat} (hk : 1 ≤ k) (hr : row < k * k)
    (hc : col < k * k) (num : Int) :
    isSafe g row col num (k * k) = true ↔
      ∀ i, i < k * k → ∀ j, j < k * k → peer k row col i j → cell g i j ≠ num := by
  rw [← Bool.not_eq_false, isSafe_eq_false_iff, box_origin, box_origin]
  constructor
  · intro h i hi j hj hp e
    apply h
    rcases hp with rfl | rfl | ⟨h1, h2⟩
    · exact Or.inl ⟨j, hj, e⟩
    · exact Or.inr (Or.inl ⟨i, hi, e⟩)
    · refine Or.inr (Or.inr ⟨i % k, Nat.mod_lt _ (by omega), j % k, Nat.mod_lt _ (by omega), ?_⟩)
      rw [← h1, ← h2, Nat.div_add_mod, Nat.div_add_mod]
      exact e
  · intro h hex
    rcases hex with ⟨x, hx, e⟩ | ⟨x, hx, e⟩ | ⟨i, hi, j, hj, e⟩
    · exact h row hr x hx (Or.inl rfl) e
    · exact h x hx col hc (Or.inr (Or.inl rfl)) e
    · have hrk := div_lt_of_lt_sq hr
      have hck := div_lt_of_lt_sq hc
      have b1 : k * (row / k) + i < k * k := by
        have : k * (row / k) + k ≤ k * k := by
          calc k * (row / k) + k = k * (row / k + 1) := by ring
            _ ≤ k * k := Nat.mul_le_mul_left _ (by omega)
        omega
      have b2 : k * (col / k) + j < k * k := by
        have : k * (col / k) + k ≤ k * k := by
          calc k * (col / k) + k = k * (col / k + 1) := by ring
            _ ≤ k * k := Nat.mul_le_mul_left _ (by omega)
        omega
      refine h _ b1 _ b2 (Or.inr (Or.inr ⟨?_, ?_⟩)) e
      · rw [Nat.mul_add_div (by omega), Nat.div_eq_of_lt hi]; simp
      · rw [Nat.mul_add_div (by omega), Nat.div_eq_of_lt hj]; simp

theorem peer_symm {k r c i j : Nat} (h : peer k r c i j) : peer k i j r c := by
  rcases h with h | h | ⟨h1, h2⟩
  · exact Or.inl h.symm
  · exact Or.inr (Or.inl h.symm)
  · exact Or.inr (Or.inr ⟨h1.symm, h2.symm⟩)

theorem peer_refl (k r c : Nat) : peer k r c r c := Or.inl rfl

theorem findSome_range_none {β : Type} (f : Nat → Option β) (n : Nat) :
    (List.range n).findSome? f = none ↔ ∀ i, i < n → f i = none := by
  simp [List.findSome?_eq_none_iff]

theorem findSome_range_some {β : Type} (f : Nat → Option β) (n : Nat) (b : β) :
    (List.range n).findSome? f = some b ↔
      ∃ i, i < n ∧ f i = some b ∧ ∀ i', i' < i → f i' = none := by
  induction n with
  | zero => simp
  | succ m ih =>
    rw [List.range_succ, List.findSome?_append]
    constructor
    · intro h
      cases hm : (List.range m).findSome? f with
      | some b' =>
        rw [hm] at h
        simp at h
        subst h
        obtain ⟨i, hi, h1, h2⟩ := ih.mp hm
        exact ⟨i, by omega, h1, h2⟩
      | none =>
        rw [hm] at h
        simp [List.findSome?] at h
        refine ⟨m, by omega, ?_, (findSome_range_none f m).mp hm⟩
        cases hfm : f m with
        | none => rw [hfm] at h; exact absurd h (by simp)
        | some b' => rw [hfm] at h; simpa using h
    · rintro ⟨i, hi, h1, h2⟩
      by_cases him : i < m
      · rw [ih.mpr ⟨i, him, h1, h2⟩]; simp
      · have : i = m := by omega
        subst this
        rw [(findSome_range_none f i).mpr h2]
        simp [List.findSome?, h1]

theorem findEmpty_none {g : Grid} {n : Nat} (h : findEmpty g n = none) :
    ∀ i, i < n → ∀ j, j < n → cell g i j ≠ 0 := by
  intro i hi j hj e
  unfold findEmpty at h
  have h1 := (findSome_range_none _ n).mp h i hi
  have h2 := (findSome_range_none _ n).mp h1 j hj
  simp [e] at h2

theorem findEmpty_some {g : Grid} {n r c : Nat} (h : findEmpty g n = some (r, c)) :
    r < n ∧ c < n ∧ cell g r c = 0 ∧
      ∀ i, i < n → ∀ j, j < n → (i < r ∨ (i = r ∧ j < c)) → cell g i j ≠ 0 := by
  unfold findEmpty at h
  obtain ⟨i, hi, h1, h2⟩ := (findSome_range_some _ n _).mp h
  obtain ⟨j, hj, h3, h4⟩ := (findSome_range_some _ n _).mp h1
  by_cases e : cell g i j = 0
  · rw [if_pos e] at h3
    simp only [Option.some.injEq, Prod.mk.injEq] at h3
    obtain ⟨rfl, rfl⟩ := h3
    refine ⟨hi, hj, e, ?_⟩
    intro i' hi' j' hj' hlt e'
    rcases hlt with hlt | ⟨rfl, hlt⟩
    · have := (findSome_range_none _ n).mp (h2 i' hlt) j' hj'
      simp [e'] at this
    · have := h4 j' hlt
      simp [e'] at this
  · rw [if_neg e] at h3
    exact absurd h3 (by simp)

theorem mem_nums {n : Nat} {v : Int} : v ∈ nums n ↔ 1 ≤ v ∧ v ≤ (n : Int) := by
  unfold nums
  simp only [List.mem_map, List.mem_range]
  constructor
  · rintro ⟨x, hx, rfl⟩
    omega
  · rintro ⟨h1, h2⟩
    exact ⟨(v - 1).toNat, by omega, by omega⟩

/-- A completion puts at an empty cell a value that `isSafe` accepts there. -/
theorem completion_safe {k : Nat} (hk : 1 ≤ k) {g S : Grid} (hS : Completion k g S)
    {r c : Nat} (hr : r < k * k) (hc : c < k * k) (h0 : cell g r c = 0) :
    isSafe g r c (cell S r c) (k * k) = true := by
  rw [isSafe_iff_peer g hk hr hc]
  intro i hi j hj hp e
  obtain ⟨h1, h2, h3⟩ : FilledOk k S r c := (hS.2 r hr c hc).2 h0
  by_cases hz : cell g i j = 0
  · rw [hz] at e; omega
  · have hs := (hS.2 i hi j hj).1 hz
    by_cases hij : (i, j) = (r, c)
    · simp only [Prod.mk.injEq] at hij
      obtain ⟨rfl, rfl⟩ := hij
      exact hz h0
    · exact h3 i hi j hj hp hij (by rw [hs, e])

/-- A completion of `g` is a completion of `g` with one of its values filled in. -/
theorem completion_setCell {k : Nat} {g S : Grid} (hg : WF (k * k) g)
    (hS : Completion k g S) {r c : Nat} (hr : r < k * k) (hc : c < k * k) :
    Completion k (setCell g r c (cell S r c)) S := by
  refine ⟨hS.1, ?_⟩
  intro i hi j hj
  rw [cell_setCell hg hr hc]
  by_cases hij : i = r ∧ j = c
  · obtain ⟨rfl, rfl⟩ := hij
    simp only [and_self, if_true]
    refine ⟨fun _ => trivial, fun h => ?_⟩
    by_cases h0 : cell g i j = 0
    · exact (hS.2 i hi j hj).2 h0
    · have := (hS.2 i hi j hj).1 h0
      rw [this] at h
      exact absurd h h0
  · rw [if_neg hij]
    exact hS.2 i hi j hj

/-- A completion of the grid after a safe placement at an empty cell is a completion
of the grid before it. -/
theorem completion_of_setCell {k : Nat} (hk : 1 ≤ k) {g S : Grid} (hg : WF (k * k) g)
    {r c : Nat} (hr : r < k * k) (hc : c < k * k) (h0 : cell g r c = 0) {v : Int}
    (hv : v ∈ nums (k * k)) (hsafe : isSafe g r c v (k * k) = true)
    (hS : Completion k (setCell g r c v) S) : Completion k g S := by
  have hv' := mem_nums.mp hv
  rw [isSafe_iff_peer g hk hr hc] at hsafe
  have key : ∀ i, i < k * k → ∀ j, j < k * k →
      (cell (setCell g r c v) i j ≠ 0 → cell S i j = cell (setCell g r c v) i j) ∧
      (cell (setCell g r c v) i j = 0 → FilledOk k S i j) := hS.2
  have hrc : cell S r c = v := by
    have := (key r hr c hc).1
    rw [cell_setCell hg hr hc] at this
    simp only [and_self, if_true] at this
    exact this (by omega)
  refine ⟨hS.1, ?_⟩
  intro i hi j hj
  have hcur := key i hi j hj
  rw [cell_setCell hg hr hc] at hcur
  by_cases hij : i = r ∧ j = c
  · obtain ⟨rfl, rfl⟩ := hij
    refine ⟨fun h => absurd h0 h, fun _ => ?_⟩
    refine ⟨by omega, by omega, ?_⟩
    intro i' hi' j' hj' hp hne
    have hcur' := key i' hi' j' hj'
    rw [cell_setCell hg hi hj] at hcur'
    have hne' : ¬ (i' = i ∧ j' = j) := fun h => hne (by rw [h.1, h.2])
    rw [if_neg hne'] at hcur'
    by_cases hz : cell g i' j' = 0
    · have hf := hcur'.2 hz
      have := hf.2.2 i hi j hj (peer_symm hp) (fun h => hne h.symm)
      exact fun e => this e.symm
    · rw [hcur'.1 hz, hrc]
      exact hsafe i' hi' j' hj' hp
  · rw [if_neg hij] at hcur
    exact hcur

theorem setCell_restore {n : Nat} {g : Grid} (hg : WF n g) {r c : Nat} (hr : r < n)
    (hc : c < n) (h0 : cell g r c = 0) (v : Int) :
    setCell (setCell g r c v) r c 0 = g := by
  apply grid_ext (WF_setCell (WF_setCell hg r c v) r c 0) hg
  intro i _ j _
  rw [cell_setCell (WF_setCell hg r c v) hr hc, cell_setCell hg hr hc]
  by_cases hij : i = r ∧ j = c
  · rw [if_pos hij, hij.1, hij.2, h0]
  · rw [if_neg hij, if_neg hij]

theorem completion_self {k : Nat} {g : Grid} (hg : WF (k * k) g)
    (hfull : ∀ i, i < k * k → ∀ j, j < k * k → cell g i j ≠ 0) : Completion k g g :=
  ⟨hg, fun i hi j hj => ⟨fun _ => rfl, fun h => absurd h (hfull i hi j hj)⟩⟩

theorem tryNums_spec {k : Nat} (hk : 1 ≤ k) (vis : Bool)
    (rec : Grid × List StepEvent → Option Outcome)
    (hrec : ∀ g ev out, WF (k * k) g → rec (g, ev) = some out → SolveSpec k g out)
    {g : Grid} (hg : WF (k * k) g) {r c : Nat} (hr : r < k * k) (hc : c < k * k)
    (h0 : cell g r c = 0) :
    ∀ l : List Int, (∀ v ∈ l, v ∈ nums (k * k)) → ∀ ev out,
      tryNums vis (k * k) r c rec l g ev = some out →
      (out.1 = true → Completion k g out.2.1) ∧
      (out.1 = false → out.2.1 = g ∧
        ∀ v ∈ l, ∀ S, Completion k g S → cell S r c ≠ v) := by
  intro l
  induction l with
  | nil =>
    intro _ ev out h
    simp only [tryNums, Option.some.injEq] at h
    subst h
    exact ⟨fun h => absurd h (by simp), fun _ => ⟨rfl, fun v hv => absurd hv (by simp)⟩⟩
  | cons num rest ih =>
    intro hl ev out h
    have hnum : num ∈ nums (k * k) := hl num (List.mem_cons_self _ _)
    have hrest : ∀ v ∈ rest, v ∈ nums (k * k) := fun v hv => hl v (List.mem_cons_of_mem _ hv)
    unfold tryNums at h
    by_cases hs : isSafe g r c num (k * k) = true
    · rw [if_pos hs] at h
      simp only at h
      have hg1 : WF (k * k) (setCell g r c num) := WF_setCell hg r c num
      cases hr1 : rec (setCell g r c num,
          if vis = true then ev ++ [⟨r, c, num, "try"⟩] else ev) with
      | none => rw [hr1] at h; exact absurd h (by simp)
      | some o =>
        obtain ⟨b, g2, ev2⟩ := o
        have hsp := hrec _ _ _ hg1 hr1
        rw [hr1] at h
        cases b with
        | true =>
          simp only [Option.some.injEq] at h
          subst h
          refine ⟨fun _ => ?_, fun h => absurd h (by simp)⟩
          exact completion_of_setCell hk hg hr hc h0 hnum hs (hsp.1 rfl)
        | false =>
          simp only at h
          obtain ⟨hg2, hno⟩ := hsp.2 rfl
          simp only at hg2
          subst hg2
          rw [setCell_restore hg hr hc h0] at h
          obtain ⟨ih1, ih2⟩ := ih hrest _ _ h
          refine ⟨ih1, fun hf => ⟨(ih2 hf).1, ?_⟩⟩
          intro v hv S hS e
          rcases List.mem_cons.mp hv with rfl | hv'
          · apply hno S
            have := completion_setCell hg hS hr hc
            rwa [e] at this
          · exact (ih2 hf).2 v hv' S hS e
    · rw [if_neg hs] at h
      obtain ⟨ih1, ih2⟩ := ih hrest _ _ h
      refine ⟨ih1, fun hf => ⟨(ih2 hf).1, ?_⟩⟩
      intro v hv S hS e
      rcases List.mem_cons.mp hv with rfl | hv'
      · apply hs
        have := completion_safe hk hS hr hc h0
        rwa [e] at this
      · exact (ih2 hf).2 v hv' S hS e

theorem solveAux_spec {k : Nat} (hk : 1 ≤ k) (vis : Bool) :
    ∀ fuel g ev out, WF (k * k) g → solveAux vis (k * k) fuel (g, ev) = some out →
      SolveSpec k g out := by
  intro fuel
  induction fuel with
  | zero =>
    intro g ev out _ h
    simp [solveAux] at h
  | succ f ih =>
    intro g ev out hg h
    unfold solveAux at h
    cases he : findEmpty g (k * k) with
    | none =>
      rw [he] at h
      simp only [Option.some.injEq] at h
      subst h
      exact ⟨fun _ => completion_self hg (findEmpty_none he), fun h => absurd h (by simp)⟩
    | some p =>
      obtain ⟨r, c⟩ := p
      rw [he] at h
      simp only at h
      obtain ⟨hr, hc, h0, _⟩ := findEmpty_some he
      obtain ⟨h1, h2⟩ := tryNums_spec hk vis _ ih hg hr hc h0 (nums (k * k))
        (fun v hv => hv) ev out h
      refine ⟨h1, fun hf => ⟨(h2 hf).1, ?_⟩⟩
      intro S hS
      have hfo : FilledOk k S r c := (hS.2 r hr c hc).2 h0
      exact (h2 hf).2 (cell S r c) (mem_nums.mpr ⟨hfo.1, hfo.2.1⟩) S hS rfl

theorem countP_flip {α : Type} [DecidableEq α] (p q : α → Bool) (x : α) :
    ∀ l : List α, l.Nodup → x ∈ l → p x = true → q x = false →
      (∀ y ∈ l, y ≠ x → p y = q y) → l.countP p = l.countP q + 1 := by
  intro l
  induction l with
  | nil => intro _ h; exact absurd h (by simp)
  | cons a t ih =>
    intro hnd hx hp hq hrest
    rw [List.nodup_cons] at hnd
    by_cases hax : a = x
    · subst hax
      have e : t.countP p = t.countP q := by
        apply List.countP_congr
        intro y hy
        have : y ≠ a := fun h => hnd.1 (h ▸ hy)
        rw [hrest y (List.mem_cons_of_mem _ hy) this]
      rw [List.countP_cons_of_pos _ _ hp, List.countP_cons_of_neg _ _ (by simp [hq]), e]
    · have hxt : x ∈ t := by
        rcases List.mem_cons.mp hx with h | h
        · exact absurd h.symm hax
        · exact h
      have := ih hnd.2 hxt hp hq (fun y hy hne => hrest y (List.mem_cons_of_mem _ hy) hne)
      have hpa := hrest a (List.mem_cons_self _ _) hax
      by_cases hpa' : p a = true
      · rw [List.countP_cons_of_pos _ _ hpa', List.countP_cons_of_pos _ _ (hpa ▸ hpa'), this]
      · rw [List.countP_cons_of_neg _ _ hpa', List.countP_cons_of_neg _ _ (hpa ▸ hpa'), this]

theorem mem_cells {n : Nat} {p : Nat × Nat} : p ∈ cells n ↔ p.1 < n ∧ p.2 < n := by
  obtain ⟨i, j⟩ := p
  unfold cells
  simp only [List.mem_flatMap, List.mem_map, List.mem_range, Prod.mk.injEq]
  constructor
  · rintro ⟨a, ha, b, hb, rfl, rfl⟩
    exact ⟨ha, hb⟩
  · rintro ⟨h1, h2⟩
    exact ⟨i, h1, j, h2, rfl, rfl⟩

theorem nodup_cells (n : Nat) : (cells n).Nodup := by
  unfold cells
  rw [List.nodup_flatMap]
  refine ⟨fun i _ => ?_, ?_⟩
  · exact (List.nodup_range n).map (fun a b h => by simpa using h)
  · apply List.Pairwise.imp _ (List.nodup_range n)
    intro a b hab
    simp only [Function.onFun, List.disjoint_left, List.mem_map, List.mem_range]
    rintro ⟨x, y⟩ ⟨j, _, hj⟩ ⟨j', _, hj'⟩
    simp only [Prod.mk.injEq] at hj hj'
    exact hab (hj.1.trans hj'.1.symm)

theorem numEmpty_setCell {n : Nat} {g : Grid} (hg : WF n g) {r c : Nat} (hr : r < n)
    (hc : c < n) (h0 : cell g r c = 0) {v : Int} (hv : v ≠ 0) :
    numEmpty g n = numEmpty (setCell g r c v) n + 1 := by
  unfold numEmpty
  apply countP_flip _ _ (r, c) _ (nodup_cells n) (mem_cells.mpr ⟨hr, hc⟩)
  · simpa using h0
  · rw [cell_setCell hg hr hc]; simpa using hv
  · intro y _ hy
    rw [cell_setCell hg hr hc]
    have : ¬ (y.1 = r ∧ y.2 = c) := fun h => hy (Prod.ext h.1 h.2)
    rw [if_neg this]

theorem numFilled_setCell {n : Nat} {g : Grid} (hg : WF n g) {r c : Nat} (hr : r < n)
    (hc : c < n) (h0 : cell g r c ≠ 0) :
    numFilled g n = numFilled (setCell g r c 0) n + 1 := by
  unfold numFilled
  apply countP_flip _ _ (r, c) _ (nodup_cells n) (mem_cells.mpr ⟨hr, hc⟩)
  · simpa using h0
  · rw [cell_setCell hg hr hc]; simp
  · intro y _ hy
    rw [cell_setCell hg hr hc]
    have : ¬ (y.1 = r ∧ y.2 = c) := fun h => hy (Prod.ext h.1 h.2)
    rw [if_neg this]

theorem length_cells (n : Nat) : (cells n).length = n * n := by
  unfold cells
  have e : (List.length ∘ fun (i : Nat) => List.map (fun j => (i, j)) (List.range n)) =
      fun _ => n := by
    funext i; simp
  rw [List.length_flatMap, e]
  simp

theorem numEmpty_le (g : Grid) (n : Nat) : numEmpty g n ≤ n * n := by
  unfold numEmpty
  rw [← length_cells n]
  exact List.countP_le_length _

theorem numEmpty_eq_zero {g : Grid} {n : Nat} :
    numEmpty g n = 0 ↔ ∀ i, i < n → ∀ j, j < n → cell g i j ≠ 0 := by
  unfold numEmpty
  rw [List.countP_eq_zero]
  constructor
  · intro h i hi j hj
    simpa using h (i, j) (mem_cells.mpr ⟨hi, hj⟩)
  · intro h p hp
    have := mem_cells.mp hp
    simpa using h p.1 this.1 p.2 this.2

theorem tryNums_total {k : Nat} (vis : Bool)
    (rec : Grid × List StepEvent → Option Outcome) (f : Nat)
    (hrec : ∀ g ev out, WF (k * k) g → rec (g, ev) = some out → SolveSpec k g out)
    (htot : ∀ g ev, WF (k * k) g → numEmpty g (k * k) < f → ∃ out, rec (g, ev) = some out)
    {g : Grid} (hg : WF (k * k) g) {r c : Nat} (hr : r < k * k) (hc : c < k * k)
    (h0 : cell g r c = 0) (hf : numEmpty g (k * k) ≤ f) :
    ∀ l : List Int, (∀ v ∈ l, v ∈ nums (k * k)) → ∀ ev,
      ∃ out, tryNums vis (k * k) r c rec l g ev = some out := by
  intro l
  induction l with
  | nil => intro _ ev; exact ⟨_, rfl⟩
  | cons num rest ih =>
    intro hl ev
    have hnum : num ∈ nums (k * k) := hl num (List.mem_cons_self _ _)
    have hrest : ∀ v ∈ rest, v ∈ nums (k * k) := fun v hv => hl v (List.mem_cons_of_mem _ hv)
    unfold tryNums
    by_cases hs : isSafe g r c num (k * k) = true
    · rw [if_pos hs]
      simp only
      have hg1 : WF (k * k) (setCell g r c num) := WF_setCell hg r c num
      have hne : num ≠ 0 := by have := (mem_nums.mp hnum).1; omega
      have hcount := numEmpty_setCell hg hr hc h0 hne
      obtain ⟨o, ho⟩ := htot (setCell g r c num)
        (if vis = true then ev ++ [⟨r, c, num, "try"⟩] else ev) hg1 (by omega)
      have hsp := hrec _ _ _ hg1 ho
      rw [ho]
      obtain ⟨b, g2, ev2⟩ := o
      cases b with
      | true => exact ⟨_, rfl⟩
      | false =>
        simp only
        obtain ⟨hg2, _⟩ := hsp.2 rfl
        simp only at hg2
        subst hg2
        rw [setCell_restore hg hr hc h0]
        exact ih hrest _
    · rw [if_neg hs]
      exact ih hrest _

theorem solveAux_total {k : Nat} (hk : 1 ≤ k) (vis : Bool) :
    ∀ fuel g ev, WF (k * k) g → numEmpty g (k * k) < fuel →
      ∃ out, solveAux vis (k * k) fuel (g, ev) = some out := by
  intro fuel
  induction fuel with
  | zero => intro g ev _ h; omega
  | succ f ih =>
    intro g ev hg hlt
    unfold solveAux
    cases he : findEmpty g (k * k) with
    | none => exact ⟨_, rfl⟩
    | some p =>
      obtain ⟨r, c⟩ := p
      simp only
      obtain ⟨hr, hc, h0, _⟩ := findEmpty_some he
      exact tryNums_total vis _ f (solveAux_spec hk vis f) ih hg hr hc h0 (by omega)
        (nums (k * k)) (fun v hv => hv) ev

/-- On an `n`-by-`n` grid the fuel of `solveRun` is never used up. -/
theorem solveRun_total {k : Nat} (hk : 1 ≤ k) (vis : Bool) {g : Grid} (hg : WF (k * k) g) :
    ∃ out, solveRun vis g (k * k) = some out :=
  solveAux_total hk vis _ g [] hg (Nat.lt_succ_of_le (numEmpty_le g (k * k)))

theorem solveRun_spec {k : Nat} (hk : 1 ≤ k) (vis : Bool) {g : Grid} (hg : WF (k * k) g)
    {out : Outcome} (h : solveRun vis g (k * k) = some out) : SolveSpec k g out :=
  solveAux_spec hk vis _ g [] out hg h

theorem replay_append (g : Grid) (a b : List StepEvent) :
    replay g (a ++ b) = replay (replay g a) b := by
  unfold replay
  rw [List.foldl_append]

theorem replay_try (g : Grid) (r c : Nat) (v : Int) :
    replay g [⟨r, c, v, "try"⟩] = setCell g r c v := by
  simp [replay]

theorem replay_backtrack (g : Grid) (r c : Nat) :
    replay g [⟨r, c, 0, "backtrack"⟩] = setCell g r c 0 := by
  simp [replay]

theorem tryNums_events (n r c : Nat) (rec : Grid × List StepEvent → Option Outcome)
    (hrec : ∀ g ev out, rec (g, ev) = some out →
      ∃ evs, out.2.2 = ev ++ evs ∧ replay g evs = out.2.1) :
    ∀ (l : List Int) g ev out, tryNums true n r c rec l g ev = some out →
      ∃ evs, out.2.2 = ev ++ evs ∧ replay g evs = out.2.1 := by
  intro l
  induction l with
  | nil =>
    intro g ev out h
    simp only [tryNums, Option.some.injEq] at h
    subst h
    exact ⟨[], by simp, rfl⟩
  | cons num rest ih =>
    intro g ev out h
    unfold tryNums at h
    by_cases hs : isSafe g r c num n = true
    · rw [if_pos hs] at h
      simp only [if_true] at h
      cases hr1 : rec (setCell g r c num, ev ++ [⟨r, c, num, "try"⟩]) with
      | none => rw [hr1] at h; exact absurd h (by simp)
      | some o =>
        obtain ⟨b, g2, ev2⟩ := o
        obtain ⟨evs, he, hrep⟩ := hrec _ _ _ hr1
        simp only at he hrep
        rw [hr1] at h
        cases b with
        | true =>
          simp only [Option.some.injEq] at h
          subst h
          refine ⟨[⟨r, c, num, "try"⟩] ++ evs, ?_, ?_⟩
          · simp [he]
          · rw [replay_append, replay_try]; exact hrep
        | false =>
          simp only at h
          obtain ⟨evs', he', hrep'⟩ := ih _ _ _ h
          refine ⟨[⟨r, c, num, "try"⟩] ++ evs ++ [⟨r, c, 0, "backtrack"⟩] ++ evs', ?_, ?_⟩
          · rw [he', he]; simp
          · rw [replay_append, replay_append, replay_append, replay_try, hrep,
              replay_backtrack]
            exact hrep'
    · rw [if_neg hs] at h
      exact ih _ _ _ h

theorem solveAux_events (n : Nat) : ∀ fuel g ev out,
    solveAux true n fuel (g, ev) = some out →
      ∃ evs, out.2.2 = ev ++ evs ∧ replay g evs = out.2.1 := by
  intro fuel
  induction fuel with
  | zero => intro g ev out h; simp [solveAux] at h
  | succ f ih =>
    intro g ev out h
    unfold solveAux at h
    cases he : findEmpty g n with
    | none =>
      rw [he] at h
      simp only [Option.some.injEq] at h
      subst h
      exact ⟨[], by simp, rfl⟩
    | some p =>
      obtain ⟨r, c⟩ := p
      rw [he] at h
      exact tryNums_events n r c _ ih _ _ _ _ h

theorem nodup_nums (n : Nat) : (nums n).Nodup := by
  unfold nums
  exact (List.nodup_range n).map (fun a b h => by simpa using h)

theorem length_nums (n : Nat) : (nums n).length = n := by
  simp [nums]

theorem countP_eq_one {α : Type} [DecidableEq α] (p : α → Bool) (x : α) (l : List α)
    (hnd : l.Nodup) (hx : x ∈ l) (hp : p x = true) (hu : ∀ y ∈ l, p y = true → y = x) :
    l.countP p = 1 := by
  have h := countP_flip p (fun y => p y && decide (y ≠ x)) x l hnd hx hp (by simp)
    (fun y _ hy => by simp [hy])
  have hz : l.countP (fun y => p y && decide (y ≠ x)) = 0 := by
    rw [List.countP_eq_zero]
    intro y hy
    simp only [Bool.and_eq_true, decide_eq_true_eq, not_and, not_not]
    exact hu y hy
  omega

/-- Pigeonhole, list form: an injective map from `n` positions into `1..n` takes every
value exactly once. -/
theorem countP_one_of_inj {α : Type} [DecidableEq α] (l : List α) (n : Nat) (f : α → Int)
    (hnd : l.Nodup) (hlen : l.length = n) (hf : ∀ x ∈ l, f x ∈ nums n)
    (hinj : ∀ x ∈ l, ∀ y ∈ l, f x = f y → x = y) :
    ∀ v ∈ nums n, l.countP (fun x => f x == v) = 1 := by
  have hT : l.toFinset.card = n := by rw [List.toFinset_card_of_nodup hnd, hlen]
  have hN : (nums n).toFinset.card = n := by
    rw [List.toFinset_card_of_nodup (nodup_nums n), length_nums]
  have hsub : l.toFinset.image f ⊆ (nums n).toFinset := by
    intro v hv
    obtain ⟨x, hx, rfl⟩ := Finset.mem_image.mp hv
    exact List.mem_toFinset.mpr (hf x (List.mem_toFinset.mp hx))
  have hcard : (l.toFinset.image f).card = n := by
    rw [Finset.card_image_of_injOn, hT]
    intro x hx y hy h
    exact hinj x (List.mem_toFinset.mp hx) y (List.mem_toFinset.mp hy) h
  have heq : l.toFinset.image f = (nums n).toFinset :=
    Finset.eq_of_subset_of_card_le hsub (by omega)
  intro v hv
  have : v ∈ l.toFinset.image f := by rw [heq]; exact List.mem_toFinset.mpr hv
  obtain ⟨x, hx, rfl⟩ := Finset.mem_image.mp this
  have hx' := List.mem_toFinset.mp hx
  apply countP_eq_one _ x l hnd hx' (by simp)
  intro y hy hfy
  exact hinj y hy x hx' (by simpa using hfy)

/-- Pigeonhole, converse: if every value of `1..n` is taken exactly once on `n`
positions, the map is injective and takes no other value. -/
theorem inj_of_countP_one {α : Type} [DecidableEq α] (l : List α) (n : Nat) (f : α → Int)
    (hnd : l.Nodup) (hlen : l.length = n)
    (hone : ∀ v ∈ nums n, l.countP (fun x => f x == v) = 1) :
    (∀ x ∈ l, f x ∈ nums n) ∧ (∀ x ∈ l, ∀ y ∈ l, f x = f y → x = y) := by
  have hT : l.toFinset.card = n := by rw [List.toFinset_card_of_nodup hnd, hlen]
  have hN : (nums n).toFinset.card = n := by
    rw [List.toFinset_card_of_nodup (nodup_nums n), length_nums]
  have hsub : (nums n).toFinset ⊆ l.toFinset.image f := by
    intro v hv
    have h1 := hone v (List.mem_toFinset.mp hv)
    have hpos : 0 < l.countP (fun x => f x == v) := by omega
    obtain ⟨x, hx, hfx⟩ := List.countP_pos_iff.mp hpos
    exact Finset.mem_image.mpr ⟨x, List.mem_toFinset.mpr hx, by simpa using hfx⟩
  have hle : (l.toFinset.image f).card ≤ n := by
    rw [← hT]; exact Finset.card_image_le
  have heq : (nums n).toFinset = l.toFinset.image f :=
    Finset.eq_of_subset_of_card_le hsub (by omega)
  constructor
  · intro x hx
    have : f x ∈ l.toFinset.image f :=
      Finset.mem_image.mpr ⟨x, List.mem_toFinset.mpr hx, rfl⟩
    rw [← heq] at this
    exact List.mem_toFinset.mp this
  · have hc : (l.toFinset.image f).card = l.toFinset.card := by rw [← heq, hN, hT]
    have := Finset.card_image_iff.mp hc
    intro x hx y hy h
    exact this (List.mem_toFinset.mpr hx) (List.mem_toFinset.mpr hy) h

theorem mem_boxCells {k bi bj : Nat} {p : Nat × Nat} :
    p ∈ boxCells k bi bj ↔ ∃ a, a < k ∧ ∃ b, b < k ∧ p = (bi * k + a, bj * k + b) := by
  unfold boxCells
  simp only [List.mem_flatMap, List.mem_map, List.mem_range]
  constructor
  · rintro ⟨a, ha, b, hb, rfl⟩
    exact ⟨a, ha, b, hb, rfl⟩
  · rintro ⟨a, ha, b, hb, rfl⟩
    exact ⟨a, ha, b, hb, rfl⟩

theorem nodup_boxCells (k bi bj : Nat) : (boxCells k bi bj).Nodup := by
  unfold boxCells
  rw [List.nodup_flatMap]
  refine ⟨fun i _ => ?_, ?_⟩
  · exact (List.nodup_range k).map (fun a b h => by simpa using h)
  · apply List.Pairwise.imp _ (List.nodup_range k)
    intro a b hab
    simp only [Function.onFun, List.disjoint_left, List.mem_map, List.mem_range]
    rintro ⟨x, y⟩ ⟨j, _, hj⟩ ⟨j', _, hj'⟩
    simp only [Prod.mk.injEq] at hj hj'
    exact hab (by omega)

theorem length_boxCells (k bi bj : Nat) : (boxCells k bi bj).length = k * k := by
  unfold boxCells
  have e : (List.length ∘ fun (a : Nat) =>
      List.map (fun b => (bi * k + a, bj * k + b)) (List.range k)) = fun _ => k := by
    funext i; simp
  rw [List.length_flatMap, e]
  simp

theorem box_bound {k b a : Nat} (hb : b < k) (ha : a < k) : b * k + a < k * k := by
  have : (b + 1) * k ≤ k * k := Nat.mul_le_mul_right _ (by omega)
  have e : (b + 1) * k = b * k + k := by ring
  omega

theorem box_div {k b a : Nat} (ha : a < k) : (b * k + a) / k = b := by
  rw [Nat.mul_comm, Nat.mul_add_div (by omega), Nat.div_eq_of_lt ha]; simp

theorem box_decomp (k i : Nat) : i = (i / k) * k + i % k := by
  have := Nat.div_add_mod i k
  rw [Nat.mul_comm]; omega

/-- With the puzzle free of duplicates and in range, a completion is right in every
cell, not only in the cells it filled. -/
theorem allOk_of_completion {k : Nat} {g S : Grid} (hr : InRange (k * k) g)
    (hnd : NoDup k g) (hS : Completion k g S) : AllOk k S := by
  intro i hi j hj
  have key : ∀ i, i < k * k → ∀ j, j < k * k →
      (cell g i j ≠ 0 → cell S i j = cell g i j) ∧ (cell g i j = 0 → FilledOk k S i j) := hS.2
  by_cases h0 : cell g i j = 0
  · exact (key i hi j hj).2 h0
  · have e := (key i hi j hj).1 h0
    have hrg := hr i hi j hj
    refine ⟨by omega, by rw [e]; exact hrg.2, ?_⟩
    intro i' hi' j' hj' hp hne
    by_cases h0' : cell g i' j' = 0
    · have hf := (key i' hi' j' hj').2 h0'
      exact fun e' => hf.2.2 i hi j hj (peer_symm hp) (fun h => hne h.symm) e'.symm
    · rw [(key i' hi' j' hj').1 h0', e]
      exact hnd i hi j hj h0 i' hi' j' hj' hp hne

theorem eachOnce_of_allOk {k : Nat} {S : Grid} (h : AllOk k S) :
    EachOnce k S := by
  refine ⟨?_, ?_, ?_⟩
  · intro i hi
    apply countP_one_of_inj (List.range (k * k)) (k * k) (fun j => cell S i j)
      (List.nodup_range _) (List.length_range _)
    · intro j hj
      have := h i hi j (List.mem_range.mp hj)
      exact mem_nums.mpr ⟨this.1, this.2.1⟩
    · intro j hj j' hj' e
      by_contra hne
      exact (h i hi j (List.mem_range.mp hj)).2.2 i hi j' (List.mem_range.mp hj')
        (Or.inl rfl) (fun h' => hne (by simp only [Prod.mk.injEq] at h'; exact h'.2.symm))
        e.symm
  · intro j hj
    apply countP_one_of_inj (List.range (k * k)) (k * k) (fun i => cell S i j)
      (List.nodup_range _) (List.length_range _)
    · intro i hi
      have := h i (List.mem_range.mp hi) j hj
      exact mem_nums.mpr ⟨this.1, this.2.1⟩
    · intro i hi i' hi' e
      by_contra hne
      exact (h i (List.mem_range.mp hi) j hj).2.2 i' (List.mem_range.mp hi') j hj
        (Or.inr (Or.inl rfl))
        (fun h' => hne (by simp only [Prod.mk.injEq] at h'; exact h'.1.symm)) e.symm
  · intro bi hbi bj hbj
    apply countP_one_of_inj (boxCells k bi bj) (k * k) (fun p => cell S p.1 p.2)
      (nodup_boxCells _ _ _) (length_boxCells _ _ _)
    · intro p hp
      obtain ⟨a, ha, b, hb, rfl⟩ := mem_boxCells.mp hp
      have := h _ (box_bound hbi ha) _ (box_bound hbj hb)
      exact mem_nums.mpr ⟨this.1, this.2.1⟩
    · intro p hp q hq e
      obtain ⟨a, ha, b, hb, rfl⟩ := mem_boxCells.mp hp
      obtain ⟨a', ha', b', hb', rfl⟩ := mem_boxCells.mp hq
      by_contra hne
      refine (h _ (box_bound hbi ha) _ (box_bound hbj hb)).2.2 _ (box_bound hbi ha') _
        (box_bound hbj hb') (Or.inr (Or.inr ⟨?_, ?_⟩)) (fun h' => hne h'.symm) e.symm
      · rw [box_div ha, box_div ha']
      · rw [box_div hb, box_div hb']

theorem allOk_of_eachOnce {k : Nat} (hk : 1 ≤ k) {S : Grid} (h : EachOnce k S) :
    AllOk k S := by
  obtain ⟨hrow, hcol, hbox⟩ := h
  intro i hi j hj
  have hR := inj_of_countP_one (List.range (k * k)) (k * k) (fun j => cell S i j)
    (List.nodup_range _) (List.length_range _) (hrow i hi)
  have hv := mem_nums.mp (hR.1 j (List.mem_range.mpr hj))
  refine ⟨hv.1, hv.2, ?_⟩
  intro i' hi' j' hj' hp hne e
  rcases hp with rfl | rfl | ⟨h1, h2⟩
  · have := hR.2 j' (List.mem_range.mpr hj') j (List.mem_range.mpr hj) e
    exact hne (by rw [this])
  · have hC := inj_of_countP_one (List.range (k * k)) (k * k) (fun i => cell S i j')
      (List.nodup_range _) (List.length_range _) (hcol j' hj')
    have := hC.2 i' (List.mem_range.mpr hi') i (List.mem_range.mpr hi) e
    exact hne (by rw [this])
  · have hB := inj_of_countP_one (boxCells k (i / k) (j / k)) (k * k)
      (fun p => cell S p.1 p.2) (nodup_boxCells _ _ _) (length_boxCells _ _ _)
      (hbox _ (div_lt_of_lt_sq hi) _ (div_lt_of_lt_sq hj))
    have m1 : (i, j) ∈ boxCells k (i / k) (j / k) :=
      mem_boxCells.mpr ⟨i % k, Nat.mod_lt _ (by omega), j % k, Nat.mod_lt _ (by omega),
        by rw [← box_decomp, ← box_decomp]⟩
    have m2 : (i', j') ∈ boxCells k (i / k) (j / k) :=
      mem_boxCells.mpr ⟨i' % k, Nat.mod_lt _ (by omega), j' % k, Nat.mod_lt _ (by omega),
        by rw [← h1, ← h2, ← box_decomp, ← box_decomp]⟩
    exact hne (hB.2 _ m2 _ m1 e)

theorem full_of_allOk {k : Nat} {S : Grid} (h : AllOk k S) : Full (k * k) S := by
  intro i hi j hj e
  have := (h i hi j hj).1
  omega

/-- A grid that is right in every cell is a completion of every puzzle it extends. -/
theorem completion_of_allOk {k : Nat} {g S : Grid} (hS : WF (k * k) S) (h : AllOk k S)
    (hext : ∀ i, i < k * k → ∀ j, j < k * k → cell g i j ≠ 0 → cell S i j = cell g i j) :
    Completion k g S :=
  ⟨hS, fun i hi j hj => ⟨hext i hi j hj, fun _ => h i hi j hj⟩⟩

theorem removeCells_spec (n : Nat) : ∀ (picks : List (Nat × Nat)) (g : Grid) (count : Int)
    (g' : Grid), WF n g → (∀ p ∈ picks, p.1 < n ∧ p.2 < n) → 0 ≤ count →
    removeCells g n count picks = some g' →
      WF n g' ∧ (numFilled g' n : Int) = (numFilled g n : Int) - count ∧
      ∀ i j, cell g' i j = cell g i j ∨ cell g' i j = 0 := by
  intro picks
  induction picks with
  | nil =>
    intro g count g' hg _ hc h
    unfold removeCells at h
    by_cases hpos : count > 0
    · rw [if_pos hpos] at h; exact absurd h (by simp)
    · rw [if_neg hpos] at h
      simp only [Option.some.injEq] at h
      subst h
      exact ⟨hg, by omega, fun i j => Or.inl rfl⟩
  | cons p rest ih =>
    intro g count g' hg hp hc h
    obtain ⟨i, j⟩ := p
    have hij : i < n ∧ j < n := hp (i, j) (List.mem_cons_self _ _)
    have hrest : ∀ p ∈ rest, p.1 < n ∧ p.2 < n := fun p hp' => hp p (List.mem_cons_of_mem _ hp')
    unfold removeCells at h
    by_cases hpos : count > 0
    · rw [if_pos hpos] at h
      by_cases hz : cell g i j ≠ 0
      · rw [if_pos hz] at h
        obtain ⟨h1, h2, h3⟩ := ih _ _ _ (WF_setCell hg i j 0) hrest (by omega) h
        have hcount := numFilled_setCell hg hij.1 hij.2 hz
        refine ⟨h1, by omega, ?_⟩
        intro a b
        rcases h3 a b with e | e
        · rw [cell_setCell hg hij.1 hij.2] at e
          by_cases hab : a = i ∧ b = j
          · rw [if_pos hab] at e; exact Or.inr e
          · rw [if_neg hab] at e; exact Or.inl e
        · exact Or.inr e
      · rw [if_neg hz] at h
        exact ih _ _ _ hg hrest hc h
    · rw [if_neg hpos] at h
      simp only [Option.some.injEq] at h
      subst h
      exact ⟨hg, by omega, fun i j => Or.inl rfl⟩

theorem numFilled_full {n : Nat} {g : Grid} (h : Full n g) : numFilled g n = n * n := by
  unfold numFilled
  rw [← length_cells n, List.countP_eq_length]
  intro p hp
  have := mem_cells.mp hp
  simpa using h p.1 this.1 p.2 this.2

/-- A puzzle cut out of a solved grid is solved again by `solve`. -/
theorem solve_of_solved_extension {k : Nat} (hk : 1 ≤ k) {g p : Grid} (hg : WF (k * k) g)
    (hsol : EachOnce k g) (hp : WF (k * k) p)
    (hext : ∀ i, i < k * k → ∀ j, j < k * k → cell p i j ≠ 0 → cell g i j = cell p i j) :
    ∃ g' ev, solve p (k * k) = some (true, g', ev) := by
  have hc : Completion k p g := completion_of_allOk hg (allOk_of_eachOnce hk hsol) hext
  obtain ⟨out, ho⟩ := solveRun_total hk false hp
  have hsp := solveRun_spec hk false hp ho
  obtain ⟨b, g', ev⟩ := out
  cases b with
  | true => exact ⟨g', ev, ho⟩
  | false => exact absurd hc ((hsp.2 rfl).2 g)

theorem sample_removeCells :
    removeCells sampleFull 9 (81 - (22 + ((13 : Nat) : Int))) samplePicks =
      some samplePuzzle := by
  decide

theorem cell_emptyGrid (n i j : Nat) : cell (emptyGrid n) i j = 0 := by
  unfold cell emptyGrid
  by_cases hi : i < n
  · by_cases hj : j < n
    · simp [List.getD_eq_getElem?_getD, hi, hj]
    · simp [List.getD_eq_getElem?_getD, hi, hj]
  · have e : (List.replicate n (List.replicate n (0 : Int)))[i]? = none := by
      rw [List.getElem?_eq_none_iff]; simp; omega
    simp [List.getD_eq_getElem?_getD, e]

theorem WF_emptyGrid (n : Nat) : WF n (emptyGrid n) := by
  unfold WF emptyGrid
  refine ⟨by simp, ?_⟩
  intro row h
  rw [List.eq_of_mem_replicate h]
  simp

theorem WF_shiftGrid (k : Nat) : WF (k * k) (shiftGrid k) := by
  unfold WF shiftGrid
  refine ⟨by simp, ?_⟩
  intro row h
  obtain ⟨i, _, rfl⟩ := List.mem_map.mp h
  simp

theorem cell_shiftGrid {k i j : Nat} (hi : i < k * k) (hj : j < k * k) :
    cell (shiftGrid k) i j = shiftValue k i j := by
  unfold cell shiftGrid
  simp [List.getD_eq_getElem?_getD, hi, hj]

theorem digits_unique {k a b a' b' : Nat} (hb : b < k) (hb' : b' < k)
    (h : k * a + b = k * a' + b') : a = a' ∧ b = b' := by
  have hk : 0 < k := by omega
  have h1 : (k * a + b) / k = a := by
    rw [Nat.mul_add_div hk, Nat.div_eq_of_lt hb]; simp
  have h2 : (k * a' + b') / k = a' := by
    rw [Nat.mul_add_div hk, Nat.div_eq_of_lt hb']; simp
  have ha : a = a' := by rw [← h1, ← h2, h]
  subst ha
  exact ⟨rfl, by omega⟩

theorem mod_add_cancel {n x y z : Nat} (hy : y < n) (hz : z < n)
    (h : (x + y) % n = (x + z) % n) : y = z := by
  have h1 : (x + y) ≡ (x + z) [MOD n] := h
  have h2 : y ≡ z [MOD n] := Nat.ModEq.add_left_cancel' x h1
  have h3 : y % n = z % n := h2
  rwa [Nat.mod_eq_of_lt hy, Nat.mod_eq_of_lt hz] at h3

theorem shift_lt {k i : Nat} (hk : 1 ≤ k) (hi : i < k * k) : k * (i % k) + i / k < k * k := by
  have h1 : i % k < k := Nat.mod_lt _ (by omega)
  have h2 : i / k < k := div_lt_of_lt_sq hi
  have : k * (i % k + 1) ≤ k * k := Nat.mul_le_mul_left _ (by omega)
  have e : k * (i % k + 1) = k * (i % k) + k := by ring
  omega

theorem allOk_shiftGrid {k : Nat} (hk : 1 ≤ k) : AllOk k (shiftGrid k) := by
  have hn : 0 < k * k := Nat.mul_pos (by omega) (by omega)
  intro i hi j hj
  refine ⟨?_, ?_, ?_⟩
  · rw [cell_shiftGrid hi hj]; unfold shiftValue; omega
  · rw [cell_shiftGrid hi hj]; unfold shiftValue
    have := Nat.mod_lt (k * (i % k) + i / k + j) hn
    omega
  · intro i' hi' j' hj' hp hne e
    rw [cell_shiftGrid hi hj, cell_shiftGrid hi' hj'] at e
    unfold shiftValue at e
    have e' : (k * (i' % k) + i' / k + j') % (k * k) = (k * (i % k) + i / k + j) % (k * k) := by
      omega
    apply hne
    rcases hp with rfl | rfl | ⟨h1, h2⟩
    · have := mod_add_cancel hj' hj e'
      rw [this]
    · have e2 : (j' + (k * (i' % k) + i' / k)) % (k * k) =
          (j' + (k * (i % k) + i / k)) % (k * k) := by
        rw [Nat.add_comm j', Nat.add_comm j']; exact e'
      have := mod_add_cancel (shift_lt hk hi') (shift_lt hk hi) e2
      have hd := digits_unique (div_lt_of_lt_sq hi') (div_lt_of_lt_sq hi) this
      have : i' = i := by
        rw [box_decomp k i', box_decomp k i, hd.1, hd.2]
      rw [this]
    · -- same box: i' / k = i / k and j' / k = j / k
      have dj : j = k * (j / k) + j % k := (Nat.div_add_mod j k).symm
      have dj' : j' = k * (j / k) + j' % k := by
        have := (Nat.div_add_mod j' k).symm
        rwa [h2] at this
      have e3 : (i / k + k * (j / k) + (k * (i' % k) + j' % k)) % (k * k) =
          (i / k + k * (j / k) + (k * (i % k) + j % k)) % (k * k) := by
        have a1 : i / k + k * (j / k) + (k * (i' % k) + j' % k) =
            k * (i' % k) + i' / k + j' := by rw [h1]; omega
        have a2 : i / k + k * (j / k) + (k * (i % k) + j % k) =
            k * (i % k) + i / k + j := by omega
        rw [a1, a2]; exact e'
      have b1 : ∀ x y, x < k → y < k → k * x + y < k * k := by
        intro x y hx hy
        have : k * (x + 1) ≤ k * k := Nat.mul_le_mul_left _ (by omega)
        have e : k * (x + 1) = k * x + k := by ring
        omega
      have hm : ∀ x, x % k < k := fun x => Nat.mod_lt _ (by omega)
      have := mod_add_cancel (b1 _ _ (hm i') (hm j')) (b1 _ _ (hm i) (hm j)) e3
      have hd := digits_unique (hm j') (hm j) this
      have ei : i' = i := by rw [box_decomp k i', box_decomp k i, h1, hd.1]
      have ej : j' = j := by rw [box_decomp k j', box_decomp k j, h2, hd.2]
      rw [ei, ej]

/-- On the empty grid `solve` returns true. -/
theorem solve_emptyGrid {k : Nat} (hk : 1 ≤ k) :
    ∃ g' ev, solve (emptyGrid (k * k)) (k * k) = some (true, g', ev) ∧
      Completion k (emptyGrid (k * k)) g' := by
  have hc : Completion k (emptyGrid (k * k)) (shiftGrid k) :=
    completion_of_allOk (WF_shiftGrid k) (allOk_shiftGrid hk)
      (fun i _ j _ h => absurd (cell_emptyGrid _ i j) h)
  obtain ⟨out, ho⟩ := solveRun_total hk false (WF_emptyGrid (k * k))
  have hsp := solveRun_spec hk false (WF_emptyGrid (k * k)) ho
  obtain ⟨b, g', ev⟩ := out
  cases b with
  | true => exact ⟨g', ev, ho, hsp.1 rfl⟩
  | false => exact absurd hc ((hsp.2 rfl).2 _)

/-- The counting loops of `findHiddenSingle` in general form: the counter counts the
positions that pass the test. -/
theorem scan_count {α β : Type} (test : α → Bool) (pay : α → β) :
    ∀ (l : List α) (s : Nat × β),
      (l.foldl (fun (s : Nat × β) x => if test x then (s.1 + 1, pay x) else s) s).1 =
        s.1 + l.countP test := by
  intro l
  induction l with
  | nil => intro s; simp
  | cons a t ih =>
    intro s
    rw [List.foldl_cons, ih]
    by_cases h : test a = true
    · rw [if_pos h, List.countP_cons_of_pos _ _ h]; simp only; omega
    · rw [if_neg h, List.countP_cons_of_neg _ _ h]

/-- The position kept by the counting loops is one that passes the test, when there is
one. -/
theorem scan_pos {α β : Type} (test : α → Bool) (pay : α → β) :
    ∀ (l : List α) (s : Nat × β), 0 < l.countP test →
      ∃ x ∈ l, test x = true ∧
        (l.foldl (fun (s : Nat × β) x => if test x then (s.1 + 1, pay x) else s) s).2 =
          pay x := by
  intro l
  induction l with
  | nil => intro s h; simp at h
  | cons a t ih =>
    intro s h
    rw [List.foldl_cons]
    by_cases ht : 0 < t.countP test
    · obtain ⟨x, hx, h1, h2⟩ := ih (if test a then (s.1 + 1, pay a) else s) ht
      exact ⟨x, List.mem_cons_of_mem _ hx, h1, h2⟩
    · have hz : t.countP test = 0 := by omega
      have ha : test a = true := by
        by_contra hc
        rw [List.countP_cons_of_neg _ _ hc] at h
        omega
      refine ⟨a, List.mem_cons_self _ _, ha, ?_⟩
      rw [if_pos ha]
      have hall : ∀ x ∈ t, ¬ test x = true := List.countP_eq_zero.mp hz
      clear ih h ht hz
      induction t generalizing s with
      | nil => rfl
      | cons b u ih2 =>
        rw [List.foldl_cons, if_neg (hall b (List.mem_cons_self _ _))]
        exact ih2 s (fun x hx => hall x (List.mem_cons_of_mem _ hx))

theorem countP_unique {α : Type} [DecidableEq α] (p : α → Bool) (l : List α)
    (hnd : l.Nodup) (h1 : l.countP p = 1) {x y : α} (hx : x ∈ l) (hy : y ∈ l)
    (px : p x = true) (py : p y = true) : y = x := by
  by_contra hne
  have h := countP_flip p (fun z => p z && decide (z ≠ x)) x l hnd hx px (by simp)
    (fun z _ hz => by simp [hz])
  have hpos : 0 < l.countP (fun z => p z && decide (z ≠ x)) :=
    List.countP_pos_iff.mpr ⟨y, hy, by simp [py, hne]⟩
  omega

/-- A counting loop that ends with count 1 has kept the only position passing the
test. -/
theorem scan_one {α β : Type} [DecidableEq α] (test : α → Bool) (pay : α → β) (l : List α)
    (hnd : l.Nodup) {b0 : β}
    (h : (l.foldl (fun (s : Nat × β) x => if test x then (s.1 + 1, pay x) else s)
      (0, b0)).1 = 1) :
    ∃ x ∈ l, test x = true ∧ (∀ y ∈ l, test y = true → y = x) ∧
      (l.foldl (fun (s : Nat × β) x => if test x then (s.1 + 1, pay x) else s)
        (0, b0)).2 = pay x := by
  rw [scan_count] at h
  simp only [Nat.zero_add] at h
  obtain ⟨x, hx, h1, h2⟩ := scan_pos test pay l (0, b0) (by omega)
  exact ⟨x, hx, h1, fun y hy hty => countP_unique test l hnd h hx hy h1 hty, h2⟩

theorem countPos_one {test : Nat → Bool} {n : Nat} (h : (countPos test n).1 = 1) :
    ∃ p, p < n ∧ test p = true ∧ (∀ q, q < n → test q = true → q = p) ∧
      (countPos test n).2 = (p : Int) := by
  unfold countPos at h ⊢
  obtain ⟨x, hx, h1, h2, h3⟩ := scan_one test (fun p => (p : Int)) (List.range n)
    (List.nodup_range n) h
  exact ⟨x, List.mem_range.mp hx, h1, fun q hq => h2 q (List.mem_range.mpr hq), h3⟩

theorem foldl_flatMap_eq {α β γ : Type} (f : γ → β → γ) (g : α → List β) :
    ∀ (l : List α) (s : γ),
      (l.flatMap g).foldl f s = l.foldl (fun s a => (g a).foldl f s) s := by
  intro l
  induction l with
  | nil => intro s; rfl
  | cons a t ih =>
    intro s
    rw [List.flatMap_cons, List.foldl_append, ih, List.foldl_cons]

theorem countBox_eq (g : Grid) (n k bi bj : Nat) (num : Int) :
    countBox g n k (bi * k) (bj * k) num =
      (boxCells k bi bj).foldl (fun (s : Nat × Int × Int) p =>
        if (cell g p.1 p.2 == 0 && isSafe g p.1 p.2 num n) then
          (s.1 + 1, ((p.1 : Int), (p.2 : Int))) else s) (0, -1, -1) := by
  unfold countBox boxCells
  rw [foldl_flatMap_eq]
  congr 1
  funext s r
  rw [List.foldl_map]

theorem countBox_one {g : Grid} {n k bi bj : Nat} {num : Int}
    (h : (countBox g n k (bi * k) (bj * k) num).1 = 1) :
    ∃ p ∈ boxCells k bi bj, (cell g p.1 p.2 = 0 ∧ isSafe g p.1 p.2 num n = true) ∧
      (∀ q ∈ boxCells k bi bj, cell g q.1 q.2 = 0 → isSafe g q.1 q.2 num n = true → q = p) ∧
      (countBox g n k (bi * k) (bj * k) num).2 = ((p.1 : Int), (p.2 : Int)) := by
  rw [countBox_eq] at h ⊢
  obtain ⟨x, hx, h1, h2, h3⟩ := scan_one
    (fun (p : Nat × Nat) => cell g p.1 p.2 == 0 && isSafe g p.1 p.2 num n)
    (fun p => ((p.1 : Int), (p.2 : Int))) (boxCells k bi bj) (nodup_boxCells _ _ _) h
  refine ⟨x, hx, by simpa using h1, ?_, h3⟩
  intro q hq hq0 hqs
  exact h2 q hq (by simp [hq0, hqs])

theorem stepRange_eq (k : Nat) : ∀ fuel q, q ≤ k → k - q ≤ fuel →
    stepRange (k * k) k fuel (q * k) = (List.range' q (k - q)).map (fun x => x * k) := by
  intro fuel
  induction fuel with
  | zero =>
    intro q h1 h2
    have : k - q = 0 := by omega
    rw [this]; rfl
  | succ f ih =>
    intro q h1 h2
    unfold stepRange
    by_cases hq : q < k
    · have hlt : q * k < k * k := Nat.mul_lt_mul_of_pos_right hq (by omega)
      rw [if_pos hlt]
      have e : q * k + k = (q + 1) * k := by ring
      rw [e, ih (q + 1) (by omega) (by omega)]
      have e2 : k - q = (k - (q + 1)) + 1 := by omega
      rw [e2, List.range'_succ]
      simp
    · have hqk : q = k := by omega
      subst hqk
      rw [if_neg (by omega)]
      simp

theorem boxStarts_eq (k : Nat) :
    boxStarts (k * k) k = (List.range k).map (fun x => x * k) := by
  unfold boxStarts
  have := stepRange_eq k (k * k) 0 (by omega) (by
    simp only [Nat.sub_zero]; exact Nat.le_mul_self k)
  rw [Nat.zero_mul] at this
  rw [this, List.range_eq_range']
  simp

theorem mem_boxStarts {k b : Nat} : b ∈ boxStarts (k * k) k ↔ ∃ q, q < k ∧ b = q * k := by
  rw [boxStarts_eq]
  simp only [List.mem_map, List.mem_range]
  constructor
  · rintro ⟨q, hq, rfl⟩; exact ⟨q, hq, rfl⟩
  · rintro ⟨q, hq, rfl⟩; exact ⟨q, hq, rfl⟩

theorem nakedScan_some {g : Grid} {n r c : Nat} {v : Int}
    (h : nakedScan g n = some (r, c, v)) :
    r < n ∧ c < n ∧ cell g r c = 0 ∧ candidates g r c n = [v] := by
  unfold nakedScan at h
  obtain ⟨i, hi, h1, _⟩ := (findSome_range_some _ n _).mp h
  obtain ⟨j, hj, h3, _⟩ := (findSome_range_some _ n _).mp h1
  by_cases e : cell g i j = 0
  · rw [if_pos e] at h3
    split at h3
    · rename_i w hw
      simp only [Option.some.injEq, Prod.mk.injEq] at h3
      obtain ⟨rfl, rfl, rfl⟩ := h3
      exact ⟨hi, hj, e, hw⟩
    · exact absurd h3 (by simp)
  · rw [if_neg e] at h3
    exact absurd h3 (by simp)

theorem hiddenRows_some {g : Grid} {n : Nat} {r c v : Int}
    (h : hiddenRows g n = some (r, c, v)) :
    ∃ r' c' : Nat, r = (r' : Int) ∧ c = (c' : Int) ∧ r' < n ∧ c' < n ∧ v ∈ nums n ∧
      cell g r' c' = 0 ∧ isSafe g r' c' v n = true ∧
      ∀ q, q < n → cell g r' q = 0 → isSafe g r' q v n = true → q = c' := by
  unfold hiddenRows at h
  obtain ⟨i, hi, h1, _⟩ := (findSome_range_some _ n _).mp h
  obtain ⟨num, hnum, h2⟩ := List.exists_of_findSome?_eq_some h1
  simp only at h2
  split at h2
  · rename_i hone
    simp only [Option.some.injEq, Prod.mk.injEq] at h2
    obtain ⟨rfl, rfl, rfl⟩ := h2
    obtain ⟨p, hp, ht, hu, hpos⟩ := countPos_one hone
    simp only [Bool.and_eq_true, beq_iff_eq] at ht hu
    exact ⟨i, p, rfl, hpos, hi, hp, hnum, ht.1, ht.2,
      fun q hq h0 hs => hu q hq ⟨h0, hs⟩⟩
  · exact absurd h2 (by simp)

theorem hiddenCols_some {g : Grid} {n : Nat} {r c v : Int}
    (h : hiddenCols g n = some (r, c, v)) :
    ∃ r' c' : Nat, r = (r' : Int) ∧ c = (c' : Int) ∧ r' < n ∧ c' < n ∧ v ∈ nums n ∧
      cell g r' c' = 0 ∧ isSafe g r' c' v n = true ∧
      ∀ q, q < n → cell g q c' = 0 → isSafe g q c' v n = true → q = r' := by
  unfold hiddenCols at h
  obtain ⟨j, hj, h1, _⟩ := (findSome_range_some _ n _).mp h
  obtain ⟨num, hnum, h2⟩ := List.exists_of_findSome?_eq_some h1
  simp only at h2
  split at h2
  · rename_i hone
    simp only [Option.some.injEq, Prod.mk.injEq] at h2
    obtain ⟨rfl, rfl, rfl⟩ := h2
    obtain ⟨p, hp, ht, hu, hpos⟩ := countPos_one hone
    simp only [Bool.and_eq_true, beq_iff_eq] at ht hu
    exact ⟨p, j, hpos, rfl, hp, hj, hnum, ht.1, ht.2,
      fun q hq h0 hs => hu q hq ⟨h0, hs⟩⟩
  · exact absurd h2 (by simp)

theorem hiddenBoxes_some {g : Grid} {k : Nat} (hk : 1 ≤ k) {r c v : Int}
    (h : hiddenBoxes g (k * k) = some (r, c, v)) :
    ∃ r' c' : Nat, r = (r' : Int) ∧ c = (c' : Int) ∧ r' < k * k ∧ c' < k * k ∧
      v ∈ nums (k * k) ∧ cell g r' c' = 0 ∧ isSafe g r' c' v (k * k) = true ∧
      ∀ i, i < k * k → ∀ j, j < k * k → i / k = r' / k → j / k = c' / k →
        cell g i j = 0 → isSafe g i j v (k * k) = true → i = r' ∧ j = c' := by
  unfold hiddenBoxes at h
  rw [intSqrt_sq] at h
  simp only at h
  obtain ⟨br, hbr, h1⟩ := List.exists_of_findSome?_eq_some h
  obtain ⟨bc, hbc, h2⟩ := List.exists_of_findSome?_eq_some h1
  obtain ⟨num, hnum, h3⟩ := List.exists_of_findSome?_eq_some h2
  obtain ⟨bi, hbi, rfl⟩ := mem_boxStarts.mp hbr
  obtain ⟨bj, hbj, rfl⟩ := mem_boxStarts.mp hbc
  split at h3
  · rename_i hone
    simp only [Option.some.injEq, Prod.mk.injEq] at h3
    obtain ⟨e1, e2, rfl⟩ := h3
    obtain ⟨p, hp, ht, hu, hpos⟩ := countBox_one hone
    obtain ⟨a, ha, b, hb, rfl⟩ := mem_boxCells.mp hp
    rw [hpos] at e1 e2
    simp only at e1 e2 ht
    refine ⟨bi * k + a, bj * k + b, e1.symm, e2.symm, box_bound hbi ha, box_bound hbj hb,
      hnum, ht.1, ht.2, ?_⟩
    intro i hi j hj hi' hj' h0 hs
    rw [box_div ha] at hi'
    rw [box_div hb] at hj'
    have hm : (i, j) ∈ boxCells k bi bj :=
      mem_boxCells.mpr ⟨i % k, Nat.mod_lt _ (by omega), j % k, Nat.mod_lt _ (by omega),
        by rw [← hi', ← hj', ← box_decomp, ← box_decomp]⟩
    have := hu (i, j) hm h0 hs
    simp only [Prod.mk.injEq] at this
    exact this
  · exact absurd h3 (by simp)

theorem findNakedSingle_found {g : Grid} {k : Nat} {r c v : Int}
    (h : findNakedSingle g (k * k) = (r, c, v, true)) :
    ∃ r' c' : Nat, r = (r' : Int) ∧ c = (c' : Int) ∧ HumanMove k g r' c' v := by
  unfold findNakedSingle at h
  cases hs : nakedScan g (k * k) with
  | none => rw [hs] at h; simp at h
  | some t =>
    obtain ⟨r', c', w⟩ := t
    rw [hs] at h
    simp only [Prod.mk.injEq, and_true] at h
    obtain ⟨rfl, rfl, rfl⟩ := h
    obtain ⟨h1, h2, h3, h4⟩ := nakedScan_some hs
    have hm : w ∈ candidates g r' c' (k * k) := by rw [h4]; simp
    unfold candidates at hm
    rw [List.mem_filter] at hm
    exact ⟨r', c', rfl, rfl, h1, h2, h3, hm.1, hm.2, Or.inl h4⟩

theorem findHiddenSingle_found {g : Grid} {k : Nat} (hk : 1 ≤ k) {r c v : Int}
    (h : findHiddenSingle g (k * k) = (r, c, v, true)) :
    ∃ r' c' : Nat, r = (r' : Int) ∧ c = (c' : Int) ∧ HumanMove k g r' c' v := by
  unfold findHiddenSingle at h
  cases h1 : hiddenRows g (k * k) with
  | some t =>
    obtain ⟨a, b, w⟩ := t
    rw [h1] at h
    simp only [Prod.mk.injEq, and_true] at h
    obtain ⟨rfl, rfl, rfl⟩ := h
    obtain ⟨r', c', e1, e2, b1, b2, hv, h0, hs, hu⟩ := hiddenRows_some h1
    exact ⟨r', c', e1, e2, b1, b2, h0, hv, hs, Or.inr (Or.inl hu)⟩
  | none =>
    rw [h1] at h
    simp only at h
    cases h2 : hiddenCols g (k * k) with
    | some t =>
      obtain ⟨a, b, w⟩ := t
      rw [h2] at h
      simp only [Prod.mk.injEq, and_true] at h
      obtain ⟨rfl, rfl, rfl⟩ := h
      obtain ⟨r', c', e1, e2, b1, b2, hv, h0, hs, hu⟩ := hiddenCols_some h2
      exact ⟨r', c', e1, e2, b1, b2, h0, hv, hs, Or.inr (Or.inr (Or.inl hu))⟩
    | none =>
      rw [h2] at h
      simp only at h
      cases h3 : hiddenBoxes g (k * k) with
      | some t =>
        obtain ⟨a, b, w⟩ := t
        rw [h3] at h
        simp only [Prod.mk.injEq, and_true] at h
        obtain ⟨rfl, rfl, rfl⟩ := h
        obtain ⟨r', c', e1, e2, b1, b2, hv, h0, hs, hu⟩ := hiddenBoxes_some hk h3
        exact ⟨r', c', e1, e2, b1, b2, h0, hv, hs, Or.inr (Or.inr (Or.inr hu))⟩
      | none =>
        rw [h3] at h
        simp at h

theorem applySteps_cons (g : Grid) (s : HumanStep) (rest : List HumanStep) :
    applySteps g (s :: rest) = applySteps (setCell g s.row.toNat s.col.toNat s.val) rest := rfl

/-- The loop of `humanSolve` stops on every `n`-by-`n` grid; the steps it records form a
chain of deductions, the grid it stops on is the starting grid with the steps applied,
and on that grid neither search finds anything. -/
theorem humanLoop_spec {k : Nat} (hk : 1 ≤ k) : ∀ fuel g acc, WF (k * k) g →
    numEmpty g (k * k) < fuel →
    ∃ g' new, humanLoop (k * k) fuel g acc = some (g', acc ++ new) ∧ MoveChain k g new ∧
      g' = applySteps g new ∧ (findNakedSingle g' (k * k)).2.2.2 = false ∧
      (findHiddenSingle g' (k * k)).2.2.2 = false := by
  intro fuel
  induction fuel with
  | zero => intro g acc _ h; omega
  | succ f ih =>
    intro g acc hg hlt
    unfold humanLoop
    cases hn : findNakedSingle g (k * k) with
    | mk r t =>
      obtain ⟨c, v, b⟩ := t
      cases b with
      | true =>
        simp only
        obtain ⟨r', c', rfl, rfl, hm⟩ := findNakedSingle_found hn
        obtain ⟨b1, b2, h0, hv, _⟩ := id hm
        have hne : v ≠ 0 := by have := (mem_nums.mp hv).1; omega
        have hcount := numEmpty_setCell hg b1 b2 h0 hne
        simp only [Int.toNat_ofNat]
        obtain ⟨g', new, e1, e2, e3, e4⟩ := ih (setCell g r' c' v)
          (acc ++ [⟨(r' : Int), (c' : Int), v, "Naked Single"⟩]) (WF_setCell hg _ _ _)
          (by omega)
        refine ⟨g', ⟨(r' : Int), (c' : Int), v, "Naked Single"⟩ :: new, ?_, ?_, ?_, e4⟩
        · rw [e1]; simp
        · exact ⟨r', c', rfl, rfl, hm, e2⟩
        · rw [applySteps_cons]; simpa using e3
      | false =>
        simp only
        cases hh : findHiddenSingle g (k * k) with
        | mk r2 t2 =>
          obtain ⟨c2, v2, b2⟩ := t2
          cases b2 with
          | true =>
            simp only
            obtain ⟨r', c', rfl, rfl, hm⟩ := findHiddenSingle_found hk hh
            obtain ⟨b1, b2, h0, hv, _⟩ := id hm
            have hne : v2 ≠ 0 := by have := (mem_nums.mp hv).1; omega
            have hcount := numEmpty_setCell hg b1 b2 h0 hne
            simp only [Int.toNat_ofNat]
            obtain ⟨g', new, e1, e2, e3, e4⟩ := ih (setCell g r' c' v2)
              (acc ++ [⟨(r' : Int), (c' : Int), v2, "Hidden Single"⟩]) (WF_setCell hg _ _ _)
              (by omega)
            refine ⟨g', ⟨(r' : Int), (c' : Int), v2, "Hidden Single"⟩ :: new, ?_, ?_, ?_, e4⟩
            · rw [e1]; simp
            · exact ⟨r', c', rfl, rfl, hm, e2⟩
            · rw [applySteps_cons]; simpa using e3
          | false =>
            simp only
            refine ⟨g, [], by simp, trivial, rfl, ?_, ?_⟩
            · rw [hn]
            · rw [hh]

theorem humanSolve_spec {k : Nat} (hk : 1 ≤ k) {g : Grid} (hg : WF (k * k) g) :
    ∃ g' steps, humanSolve g (k * k) = some (g', steps) ∧ MoveChain k g steps ∧
      g' = applySteps g steps ∧ (findNakedSingle g' (k * k)).2.2.2 = false ∧
      (findHiddenSingle g' (k * k)).2.2.2 = false := by
  obtain ⟨g', new, h1, h2⟩ := humanLoop_spec hk (k * k * (k * k) + 1) g [] hg
    (Nat.lt_succ_of_le (numEmpty_le g (k * k)))
  exact ⟨g', new, by simpa [humanSolve] using h1, h2⟩

theorem chain_fill {k : Nat} : ∀ (steps : List HumanStep) (g : Grid),
    MoveChain k g steps → StepsFillEmpty (k * k) g steps := by
  intro steps
  induction steps with
  | nil => intro g _; trivial
  | cons s rest ih =>
    intro g h
    obtain ⟨r, c, e1, e2, hm, hrest⟩ := h
    obtain ⟨b1, b2, h0, hv, _⟩ := hm
    have hv' := mem_nums.mp hv
    unfold StepsFillEmpty
    rw [e1, e2]
    simp only [Int.toNat_ofNat]
    exact ⟨by omega, by omega, by omega, by omega, hv'.1, hv'.2, h0, ih _ hrest⟩

theorem chain_WF {k : Nat} : ∀ (steps : List HumanStep) (g : Grid), WF (k * k) g →
    WF (k * k) (applySteps g steps) := by
  intro steps
  induction steps with
  | nil => intro g h; exact h
  | cons s rest ih =>
    intro g h
    rw [applySteps_cons]
    exact ih _ (WF_setCell h _ _ _)

theorem chain_count {k : Nat} : ∀ (steps : List HumanStep) (g : Grid), WF (k * k) g →
    MoveChain k g steps →
    numEmpty (applySteps g steps) (k * k) + steps.length = numEmpty g (k * k) := by
  intro steps
  induction steps with
  | nil => intro g _ _; rfl
  | cons s rest ih =>
    intro g hg h
    obtain ⟨r, c, e1, e2, hm, hrest⟩ := h
    obtain ⟨b1, b2, h0, hv, _⟩ := hm
    have hne : s.val ≠ 0 := by have := (mem_nums.mp hv).1; omega
    have hcount := numEmpty_setCell hg b1 b2 h0 hne
    have := ih _ (WF_setCell hg r c s.val) hrest
    rw [applySteps_cons, e1, e2]
    simp only [Int.toNat_ofNat, List.length_cons]
    omega

theorem chain_zero_at {k : Nat} : ∀ (steps : List HumanStep) (g : Grid), WF (k * k) g →
    MoveChain k g steps → ∀ s ∈ steps,
      ∃ r c : Nat, s.row = (r : Int) ∧ s.col = (c : Int) ∧ r < k * k ∧ c < k * k ∧
        cell g r c = 0 := by
  intro steps
  induction steps with
  | nil => intro g _ _ s hs; exact absurd hs (by simp)
  | cons s0 rest ih =>
    intro g hg h s hs
    obtain ⟨r0, c0, e1, e2, hm, hrest⟩ := h
    obtain ⟨b1, b2, h0, hv, _⟩ := hm
    rcases List.mem_cons.mp hs with rfl | hs'
    · exact ⟨r0, c0, e1, e2, b1, b2, h0⟩
    · obtain ⟨r, c, f1, f2, d1, d2, hz⟩ := ih _ (WF_setCell hg r0 c0 s0.val) hrest s hs'
      rw [cell_setCell hg b1 b2] at hz
      by_cases hrc : r = r0 ∧ c = c0
      · rw [if_pos hrc] at hz
        have := (mem_nums.mp hv).1
        omega
      · rw [if_neg hrc] at hz
        exact ⟨r, c, f1, f2, d1, d2, hz⟩

theorem chain_nodup {k : Nat} : ∀ (steps : List HumanStep) (g : Grid), WF (k * k) g →
    MoveChain k g steps → (steps.map (fun s => (s.row, s.col))).Nodup := by
  intro steps
  induction steps with
  | nil => intro g _ _; simp
  | cons s0 rest ih =>
    intro g hg h
    have h' := h
    obtain ⟨r0, c0, e1, e2, hm, hrest⟩ := h'
    obtain ⟨b1, b2, h0, hv, _⟩ := hm
    rw [List.map_cons, List.nodup_cons]
    refine ⟨?_, ih _ (WF_setCell hg r0 c0 s0.val) hrest⟩
    intro hmem
    obtain ⟨s, hs, hse⟩ := List.mem_map.mp hmem
    simp only [Prod.mk.injEq] at hse
    obtain ⟨r, c, f1, f2, d1, d2, hz⟩ :=
      chain_zero_at rest _ (WF_setCell hg r0 c0 s0.val) hrest s hs
    have er : r = r0 := by omega
    have ec : c = c0 := by omega
    rw [cell_setCell hg b1 b2, if_pos ⟨er, ec⟩] at hz
    have := (mem_nums.mp hv).1
    omega

theorem exists_of_countP_one {α : Type} {p : α → Bool} {l : List α} (h : l.countP p = 1) :
    ∃ x ∈ l, p x = true :=
  List.countP_pos_iff.mp (by omega)

/-- A deduction of the human-style loop is forced: every grid that completes the puzzle
and is right in every cell holds the deduced value at the deduced cell. -/
theorem humanMove_forced {k : Nat} (hk : 1 ≤ k) {g S : Grid} (hS : Completion k g S)
    (hall : AllOk k S) {r c : Nat} {v : Int} (hm : HumanMove k g r c v) :
    cell S r c = v := by
  obtain ⟨hr, hc, h0, hv, hsafe, hcase⟩ := hm
  have key : ∀ i, i < k * k → ∀ j, j < k * k →
      (cell g i j ≠ 0 → cell S i j = cell g i j) ∧ (cell g i j = 0 → FilledOk k S i j) := hS.2
  have hv' := mem_nums.mp hv
  have hpeer := (isSafe_iff_peer g hk hr hc v).mp hsafe
  -- a cell of `S` holding `v` among the peers of `(r, c)` is empty in `g` and safe for `v`
  have hfree : ∀ i, i < k * k → ∀ j, j < k * k → peer k r c i j → cell S i j = v →
      cell g i j = 0 ∧ isSafe g i j v (k * k) = true := by
    intro i hi j hj hp e
    have hz : cell g i j = 0 := by
      by_contra hne
      exact hpeer i hi j hj hp (by rw [← (key i hi j hj).1 hne, e])
    refine ⟨hz, ?_⟩
    have := completion_safe hk hS hi hj hz
    rwa [e] at this
  have hone := eachOnce_of_allOk hall
  rcases hcase with hnaked | hrow | hcol | hbox
  · have hs := completion_safe hk hS hr hc h0
    have hf := hall r hr c hc
    have : cell S r c ∈ candidates g r c (k * k) := by
      unfold candidates
      rw [List.mem_filter]
      exact ⟨mem_nums.mpr ⟨hf.1, hf.2.1⟩, hs⟩
    rw [hnaked] at this
    simpa using this
  · obtain ⟨q, hq, hqv⟩ := exists_of_countP_one (hone.1 r hr v hv)
    have hq' := List.mem_range.mp hq
    have e : cell S r q = v := by simpa using hqv
    obtain ⟨z, s⟩ := hfree r hr q hq' (Or.inl rfl) e
    rw [← hrow q hq' z s]; exact e
  · obtain ⟨q, hq, hqv⟩ := exists_of_countP_one (hone.2.1 c hc v hv)
    have hq' := List.mem_range.mp hq
    have e : cell S q c = v := by simpa using hqv
    obtain ⟨z, s⟩ := hfree q hq' c hc (Or.inr (Or.inl rfl)) e
    rw [← hcol q hq' z s]; exact e
  · obtain ⟨p, hp, hpv⟩ := exists_of_countP_one
      (hone.2.2 (r / k) (div_lt_of_lt_sq hr) (c / k) (div_lt_of_lt_sq hc) v hv)
    obtain ⟨a, ha, b, hb, rfl⟩ := mem_boxCells.mp hp
    have e : cell S (r / k * k + a) (c / k * k + b) = v := by simpa using hpv
    have bi := box_bound (div_lt_of_lt_sq hr) ha
    have bj := box_bound (div_lt_of_lt_sq hc) hb
    have d1 : (r / k * k + a) / k = r / k := box_div ha
    have d2 : (c / k * k + b) / k = c / k := box_div hb
    obtain ⟨z, s⟩ := hfree _ bi _ bj (Or.inr (Or.inr ⟨d1, d2⟩)) e
    obtain ⟨e1, e2⟩ := hbox _ bi _ bj d1 d2 z s
    rw [← e1, ← e2]; exact e

/-- Every solution of the puzzle is a solution of the grid left by a chain of
deductions. -/
theorem chain_forced {k : Nat} (hk : 1 ≤ k) {S : Grid} (hall : AllOk k S) :
    ∀ (steps : List HumanStep) (g : Grid), WF (k * k) g → MoveChain k g steps →
      Completion k g S → Completion k (applySteps g steps) S := by
  intro steps
  induction steps with
  | nil => intro g _ _ h; exact h
  | cons s rest ih =>
    intro g hg h hS
    obtain ⟨r, c, e1, e2, hm, hrest⟩ := h
    have hv := humanMove_forced hk hS hall hm
    rw [applySteps_cons, e1, e2]
    simp only [Int.toNat_ofNat]
    apply ih _ (WF_setCell hg _ _ _) hrest
    have := completion_setCell hg hS hm.1 hm.2.1
    rwa [hv] at this

/-- A completion of the grid left by a chain of deductions is a completion of the
puzzle. -/
theorem chain_back {k : Nat} (hk : 1 ≤ k) {S : Grid} :
    ∀ (steps : List HumanStep) (g : Grid), WF (k * k) g → MoveChain k g steps →
      Completion k (applySteps g steps) S → Completion k g S := by
  intro steps
  induction steps with
  | nil => intro g _ _ h; exact h
  | cons s rest ih =>
    intro g hg h hS
    obtain ⟨r, c, e1, e2, hm, hrest⟩ := h
    rw [applySteps_cons, e1, e2] at hS
    simp only [Int.toNat_ofNat] at hS
    have := ih _ (WF_setCell hg _ _ _) hrest hS
    exact completion_of_setCell hk hg hm.1 hm.2.1 hm.2.2.1 hm.2.2.2.1 hm.2.2.2.2.1 this

theorem completion_full_eq {k : Nat} {g S : Grid} (hg : WF (k * k) g)
    (hfull : Full (k * k) g) (hS : Completion k g S) : S = g :=
  grid_ext hS.1 hg (fun i hi j hj => (hS.2 i hi j hj).1 (hfull i hi j hj))

/-- On an `n`-by-`n` grid that has a completion `solve` returns true, and the grid it
leaves is a completion. -/
theorem solve_true_of_completion {k : Nat} (hk : 1 ≤ k) {g S : Grid} (hg : WF (k * k) g)
    (hS : Completion k g S) :
    ∃ g' ev, solve g (k * k) = some (true, g', ev) ∧ Completion k g g' := by
  obtain ⟨out, ho⟩ := solveRun_total hk false hg
  have hsp := solveRun_spec hk false hg ho
  obtain ⟨b, g', ev⟩ := out
  cases b with
  | true => exact ⟨g', ev, ho, hsp.1 rfl⟩
  | false => exact absurd hS ((hsp.2 rfl).2 S)

theorem startsWith_iff (s sub : List Char) :
    startsWith s sub = true ↔ ∃ post, s = sub ++ post := by
  induction sub generalizing s with
  | nil => simp [startsWith]
  | cons d sub ih =>
    cases s with
    | nil => simp [startsWith]
    | cons c s =>
      simp only [startsWith, Bool.and_eq_true, beq_iff_eq, ih, List.cons_append,
        List.cons.injEq]
      constructor
      · rintro ⟨rfl, post, rfl⟩; exact ⟨post, rfl, rfl⟩
      · rintro ⟨post, rfl, rfl⟩; exact ⟨rfl, post, rfl⟩

theorem containsList_iff (s sub : List Char) :
    containsList s sub = true ↔ ∃ pre post, s = pre ++ sub ++ post := by
  induction s with
  | nil =>
    simp only [containsList, startsWith_iff]
    constructor
    · rintro ⟨post, h⟩; exact ⟨[], post, by simpa using h⟩
    · rintro ⟨pre, post, h⟩
      have h1 : pre = [] := by
        cases pre with
        | nil => rfl
        | cons a t => simp at h
      subst h1
      exact ⟨post, by simpa using h⟩
  | cons c s ih =>
    simp only [containsList, Bool.or_eq_true, startsWith_iff, ih]
    constructor
    · rintro (⟨post, h⟩ | ⟨pre, post, h⟩)
      · exact ⟨[], post, by simpa using h⟩
      · exact ⟨c :: pre, post, by simp [h]⟩
    · rintro ⟨pre, post, h⟩
      cases pre with
      | nil => exact Or.inl ⟨post, by simpa using h⟩
      | cons a t =>
        simp only [List.cons_append, List.cons.injEq] at h
        exact Or.inr ⟨t, post, by simpa using h.2⟩

theorem byteSize_le_of_contains {host sub : String}
    (h : ∃ pre post, host.data = pre ++ sub.data ++ post) :
    host.utf8ByteSize ≥ sub.utf8ByteSize := by
  obtain ⟨pre, post, e⟩ := h
  have h1 : host.utf8ByteSize = String.utf8Len host.data := rfl
  have h2 : sub.utf8ByteSize = String.utf8Len sub.data := rfl
  rw [h1, h2, e, String.utf8Len_append, String.utf8Len_append]
  omega

theorem decodeDomain_dixon :
    decodeDomain [100, 105, 120, 111, 110, 46, 114, 115] = "dixon.rs" := by decide

theorem decodeDomain_andydixon :
    decodeDomain [97, 110, 100, 121, 100, 105, 120, 111, 110, 46, 99, 111, 109] =
      "andydixon.com" := by decide

theorem checkAllowedHost_iff (host : String) :
    checkAllowedHost host = true ↔
      ((∃ pre post, host.data = pre ++ "dixon.rs".data ++ post) ∨
        (∃ pre post, host.data = pre ++ "andydixon.com".data ++ post)) := by
  unfold checkAllowedHost allowedCodes
  simp only [List.any_cons, List.any_nil, Bool.or_false, Bool.or_eq_true, Bool.and_eq_true,
    decide_eq_true_eq, decodeDomain_dixon, decodeDomain_andydixon, containsList_iff]
  constructor
  · rintro (⟨_, h⟩ | ⟨_, h⟩)
    · exact Or.inl h
    · exact Or.inr h
  · rintro (h | h)
    · exact Or.inl ⟨byteSize_le_of_contains h, h⟩
    · exact Or.inr ⟨byteSize_le_of_contains h, h⟩

theorem findNakedSingle_not_found {g : Grid} {n : Nat}
    (h : (findNakedSingle g n).2.2.2 = false) : findNakedSingle g n = (-1, -1, -1, false) := by
  unfold findNakedSingle at h ⊢
  cases hs : nakedScan g n with
  | none => rfl
  | some t =>
    obtain ⟨r, c, v⟩ := t
    rw [hs] at h
    simp at h

theorem findHiddenSingle_not_found {g : Grid} {n : Nat}
    (h : (findHiddenSingle g n).2.2.2 = false) :
    findHiddenSingle g n = (-1, -1, -1, false) := by
  unfold findHiddenSingle at h ⊢
  cases h1 : hiddenRows g n with
  | some t => obtain ⟨r, c, v⟩ := t; rw [h1] at h; simp at h
  | none =>
    rw [h1] at h
    simp only at h ⊢
    cases h2 : hiddenCols g n with
    | some t => obtain ⟨r, c, v⟩ := t; rw [h2] at h; simp at h
    | none =>
      rw [h2] at h
      simp only at h ⊢
      cases h3 : hiddenBoxes g n with
      | some t => obtain ⟨r, c, v⟩ := t; rw [h3] at h; simp at h
      | none => rfl

/-- On a grid where neither search finds anything the loop stops at once. -/
theorem humanLoop_stalled {g : Grid} {n : Nat}
    (h1 : findNakedSingle g n = (-1, -1, -1, false))
    (h2 : findHiddenSingle g n = (-1, -1, -1, false)) (fuel : Nat)
    (acc : List HumanStep) : humanLoop n (fuel + 1) g acc = some (g, acc) := by
  unfold humanLoop
  rw [h1]
  simp only
  rw [h2]

theorem noDup_setCell {k : Nat} (hk : 1 ≤ k) {g : Grid} (hg : WF (k * k) g)
    (hnd : NoDup k g) {r c : Nat} (hr : r < k * k) (hc : c < k * k) {v : Int}
    (hs : isSafe g r c v (k * k) = true) : NoDup k (setCell g r c v) := by
  have hp := (isSafe_iff_peer g hk hr hc v).mp hs
  intro i hi j hj hne i' hi' j' hj' hpeer hdiff
  rw [cell_setCell hg hr hc] at hne ⊢
  rw [cell_setCell hg hr hc]
  by_cases h1 : i = r ∧ j = c
  · obtain ⟨rfl, rfl⟩ := h1
    have h2 : ¬ (i' = i ∧ j' = j) := fun h => hdiff (by rw [h.1, h.2])
    rw [if_neg h2, if_pos ⟨rfl, rfl⟩]
    exact hp i' hi' j' hj' hpeer
  · rw [if_neg h1] at hne ⊢
    by_cases h2 : i' = r ∧ j' = c
    · obtain ⟨rfl, rfl⟩ := h2
      rw [if_pos ⟨rfl, rfl⟩]
      exact fun e => hp i hi j hj (peer_symm hpeer) e.symm
    · rw [if_neg h2]
      exact hnd i hi j hj hne i' hi' j' hj' hpeer hdiff

theorem chain_take {k : Nat} : ∀ (steps : List HumanStep) (g : Grid) (t : Nat),
    MoveChain k g steps → MoveChain k g (steps.take t) := by
  intro steps
  induction steps with
  | nil => intro g t h; simpa using h
  | cons s rest ih =>
    intro g t h
    cases t with
    | zero => exact trivial
    | succ t =>
      obtain ⟨r, c, e1, e2, hm, hrest⟩ := h
      exact ⟨r, c, e1, e2, hm, ih _ t hrest⟩

theorem chain_noDup {k : Nat} (hk : 1 ≤ k) : ∀ (steps : List HumanStep) (g : Grid),
    WF (k * k) g → NoDup k g → MoveChain k g steps → NoDup k (applySteps g steps) := by
  intro steps
  induction steps with
  | nil => intro g _ h _; exact h
  | cons s rest ih =>
    intro g hg hnd h
    obtain ⟨r, c, e1, e2, hm, hrest⟩ := h
    rw [applySteps_cons, e1, e2]
    simp only [Int.toNat_ofNat]
    exact ih _ (WF_setCell hg _ _ _)
      (noDup_setCell hk hg hnd hm.1 hm.2.1 hm.2.2.2.2.1) hrest

theorem chain_agree {k : Nat} (hk : 1 ≤ k) {S : Grid} (hall : AllOk k S) :
    ∀ (steps : List HumanStep) (g : Grid), WF (k * k) g → MoveChain k g steps →
      Completion k g S → ∀ s ∈ steps, cell S s.row.toNat s.col.toNat = s.val := by
  intro steps
  induction steps with
  | nil => intro g _ _ _ s hs; exact absurd hs (by simp)
  | cons s0 rest ih =>
    intro g hg h hS s hs
    obtain ⟨r, c, e1, e2, hm, hrest⟩ := h
    have hv := humanMove_forced hk hS hall hm
    rcases List.mem_cons.mp hs with rfl | hs'
    · rw [e1, e2]; simpa using hv
    · apply ih _ (WF_setCell hg r c s0.val) hrest _ s hs'
      have := completion_setCell hg hS hm.1 hm.2.1
      rwa [hv] at this

theorem foldl_range_append {α : Type} (h : Nat → List α) (m : Nat) (acc : List α) :
    (List.range m).foldl (fun acc j => acc ++ h j) acc = acc ++ (List.range m).flatMap h := by
  induction m with
  | zero => simp
  | succ m ih =>
    rw [List.range_succ, List.foldl_append, ih, List.flatMap_append]
    simp

theorem flatMap_single {α β : Type} (f : α → β) (l : List α) :
    l.flatMap (fun j => [f j]) = l.map f := by
  induction l with
  | nil => rfl
  | cons a t ih => rw [List.flatMap_cons, ih]; rfl

theorem map_getD_range (l : List Int) : (List.range l.length).map (fun j => l.getD j 0) = l := by
  apply List.ext_getElem (by simp)
  intro i h1 h2
  simp [List.getD_eq_getElem?_getD, h2]

theorem gridToFlat_eq (grid : Grid) : gridToFlat grid = grid.flatten := by
  unfold gridToFlat
  have inner : ∀ (i : Nat) (flat : List Int),
      (List.range (grid.getD i []).length).foldl (fun flat j => flat ++ [cell grid i j]) flat =
        flat ++ grid.getD i [] := by
    intro i flat
    rw [foldl_range_append (fun j => [cell grid i j])]
    congr 1
    have : (List.range (grid.getD i []).length).flatMap (fun j => [cell grid i j]) =
        (List.range (grid.getD i []).length).map (fun j => (grid.getD i []).getD j 0) :=
      flatMap_single _ _
    rw [this, map_getD_range]
  simp only [inner]
  rw [foldl_range_append (fun i => grid.getD i [])]
  simp only [List.nil_append]
  have : (List.range grid.length).map (fun i => grid.getD i []) = grid := by
    apply List.ext_getElem (by simp)
    intro i h1 h2
    simp [List.getD_eq_getElem?_getD, h2]
  conv_rhs => rw [← this]
  rw [List.flatten_eq_flatMap, List.flatMap_map]
  simp

theorem argsToGrid_inner (ovf : Int → Int) (flat : List Int) (size i idx : Nat) (G : Grid)
    (hi : i < G.length) :
    ∀ m, m ≤ size →
      (List.range m).foldl (fun (s : Grid × Nat) j =>
        (setCell s.1 i j (jsInt ovf (flat.getD s.2 0)), s.2 + 1))
        (G.set i (List.replicate size 0), idx) =
      (G.set i ((List.range m).map (fun j => jsInt ovf (flat.getD (idx + j) 0)) ++
        List.replicate (size - m) 0), idx + m) := by
  intro m
  induction m with
  | zero => intro _; simp
  | succ m ih =>
    intro hm
    rw [List.range_succ, List.foldl_append, ih (by omega)]
    simp only [List.foldl_cons, List.foldl_nil, Prod.mk.injEq]
    refine ⟨?_, by omega⟩
    unfold setCell
    have hg : (G.set i ((List.range m).map (fun j => jsInt ovf (flat.getD (idx + j) 0)) ++
        List.replicate (size - m) 0)).getD i [] =
        (List.range m).map (fun j => jsInt ovf (flat.getD (idx + j) 0)) ++
          List.replicate (size - m) 0 := by
      rw [List.getD_eq_getElem?_getD, List.getElem?_set_self hi]; rfl
    rw [hg, List.set_set, List.set_append]
    have e : size - m = (size - (m + 1)) + 1 := by omega
    simp only [List.length_map, List.length_range, Nat.lt_irrefl, if_false, Nat.sub_self]
    rw [e, List.replicate_succ, List.set_cons_zero, List.map_append]
    simp

theorem argsToGrid_eq (ovf : Int → Int) (flat : List Int) (size : Nat) :
    argsToGrid ovf flat size = (List.range size).map (flatRow ovf flat size) := by
  unfold argsToGrid
  have key : ∀ m, m ≤ size →
      (List.range m).foldl (fun (s : Grid × Nat) i =>
        (List.range size).foldl (fun (s : Grid × Nat) j =>
          (setCell s.1 i j (jsInt ovf (flat.getD s.2 0)), s.2 + 1))
          (s.1.set i (List.replicate size 0), s.2))
        (List.replicate size [], 0) =
      ((List.range m).map (flatRow ovf flat size) ++ List.replicate (size - m) [],
        m * size) := by
    intro m
    induction m with
    | zero => intro _; simp
    | succ m ih =>
      intro hm
      rw [List.range_succ, List.foldl_append, ih (by omega)]
      simp only [List.foldl_cons, List.foldl_nil]
      rw [argsToGrid_inner ovf flat size m (m * size) _ (by simp; omega) size (le_refl _)]
      simp only [Nat.sub_self, List.replicate_zero, List.append_nil, Prod.mk.injEq]
      refine ⟨?_, by ring⟩
      rw [List.set_append]
      have e : size - m = (size - (m + 1)) + 1 := by omega
      simp only [List.length_map, List.length_range, Nat.lt_irrefl, if_false, Nat.sub_self]
      rw [e, List.replicate_succ, List.set_cons_zero, List.map_append]
      simp [flatRow]
  rw [key size (le_refl _)]
  simp

theorem flatMap_range_mul {α : Type} (f : Nat → α) (a b : Nat) :
    (List.range a).flatMap (fun i => (List.range b).map (fun j => f (i * b + j))) =
      (List.range (a * b)).map f := by
  induction a with
  | zero => simp
  | succ a ih =>
    rw [List.range_succ, List.flatMap_append, ih, Nat.succ_mul, List.range_add,
      List.map_append]
    simp

theorem cell_argsToGrid (ovf : Int → Int) (flat : List Int) {size i j : Nat} (hi : i < size)
    (hj : j < size) :
    cell (argsToGrid ovf flat size) i j = jsInt ovf (flat.getD (i * size + j) 0) := by
  rw [argsToGrid_eq]
  unfold cell flatRow
  simp [List.getD_eq_getElem?_getD, hi, hj]

/-- The round trip returns every element as `.Int()` read it. -/
theorem gridToFlat_argsToGrid (ovf : Int → Int) (flat : List Int) (size : Nat)
    (hlen : flat.length = size * size) :
    gridToFlat (argsToGrid ovf flat size) = flat.map (jsInt ovf) := by
  rw [gridToFlat_eq, argsToGrid_eq, List.flatten_eq_flatMap, List.flatMap_map]
  have : (List.range size).flatMap (fun i => id (flatRow ovf flat size i)) =
      (List.range size).flatMap (fun i =>
        (List.range size).map (fun j => (fun t => jsInt ovf (flat.getD t 0)) (i * size + j))) :=
    rfl
  rw [this, flatMap_range_mul (fun t => jsInt ovf (flat.getD t 0)), ← hlen]
  have e : (List.range flat.length).map (fun t => jsInt ovf (flat.getD t 0)) =
      ((List.range flat.length).map (fun t => flat.getD t 0)).map (jsInt ovf) := by
    rw [List.map_map]; rfl
  rw [e, map_getD_range]

theorem jsInt_of_range (ovf : Int → Int) {v : Int}
    (h : -9223372036854775808 ≤ v ∧ v < 9223372036854775808) : jsInt ovf v = v := by
  unfold jsInt
  rw [if_pos h]

theorem jsInt_range (ovf : Int → Int) (v : Int) :
    -9223372036854775808 ≤ jsInt ovf v ∧ jsInt ovf v < 9223372036854775808 := by
  unfold jsInt
  split
  · assumption
  · unfold toInt64
    omega

theorem map_jsInt_of_range (ovf : Int → Int) (flat : List Int)
    (h : ∀ v ∈ flat, -9223372036854775808 ≤ v ∧ v < 9223372036854775808) :
    flat.map (jsInt ovf) = flat := by
  induction flat with
  | nil => rfl
  | cons x xs ih =>
    rw [List.map_cons, jsInt_of_range ovf (h x (List.mem_cons_self _ _)),
      ih (fun v hv => h v (List.mem_cons_of_mem _ hv))]

theorem filter_eq_singleton {α : Type} [DecidableEq α] (p : α → Bool) (v : α) :
    ∀ l : List α, l.Nodup → v ∈ l → p v = true → (∀ w ∈ l, p w = true → w = v) →
      l.filter p = [v] := by
  intro l
  induction l with
  | nil => intro _ h; exact absurd h (by simp)
  | cons a t ih =>
    intro hnd hv hp hu
    rw [List.nodup_cons] at hnd
    by_cases ha : a = v
    · subst ha
      rw [List.filter_cons_of_pos hp]
      congr 1
      rw [List.filter_eq_nil_iff]
      intro w hw hpw
      have := hu w (List.mem_cons_of_mem _ hw) hpw
      exact hnd.1 (this ▸ hw)
    · have hpa : ¬ p a = true := fun h => ha (hu a (List.mem_cons_self _ _) h)
      rw [List.filter_cons_of_neg hpa]
      have hvt : v ∈ t := by
        rcases List.mem_cons.mp hv with h | h
        · exact absurd h.symm ha
        · exact h
      exact ih hnd.2 hvt hp (fun w hw => hu w (List.mem_cons_of_mem _ hw))

theorem candidates_single_iff {g : Grid} {n r c : Nat} {v : Int} :
    candidates g r c n = [v] ↔
      (v ∈ nums n ∧ isSafe g r c v n = true ∧
        ∀ w ∈ nums n, isSafe g r c w n = true → w = v) := by
  unfold candidates
  constructor
  · intro h
    have hm : ∀ w, w ∈ (nums n).filter (fun num => isSafe g r c num n) ↔ w = v := by
      intro w; rw [h]; simp
    have hv := (hm v).mpr rfl
    rw [List.mem_filter] at hv
    refine ⟨hv.1, hv.2, ?_⟩
    intro w hw hs
    exact (hm w).mp (List.mem_filter.mpr ⟨hw, hs⟩)
  · rintro ⟨h1, h2, h3⟩
    exact filter_eq_singleton _ v _ (nodup_nums n) h1 h2 h3

/-- The test of `findNakedSingle` at one cell. -/
theorem nakedCell_some {g : Grid} {n r c : Nat} {x : Nat × Nat × Int} :
    (if cell g r c = 0 then
      match candidates g r c n with
      | [v] => some (r, c, v)
      | _ => none
    else none) = some x ↔ ∃ v, x = (r, c, v) ∧ NakedAt g n r c v := by
  unfold NakedAt
  by_cases h0 : cell g r c = 0
  · rw [if_pos h0]
    constructor
    · intro h
      split at h
      · rename_i v hv
        simp only [Option.some.injEq] at h
        exact ⟨v, h.symm, h0, candidates_single_iff.mp hv⟩
      · exact absurd h (by simp)
    · rintro ⟨v, rfl, _, hc⟩
      rw [candidates_single_iff.mpr hc]
  · rw [if_neg h0]
    constructor
    · intro h; exact absurd h (by simp)
    · rintro ⟨v, _, h, _⟩; exact absurd h h0

theorem nakedCell_none {g : Grid} {n r c : Nat} :
    (if cell g r c = 0 then
      match candidates g r c n with
      | [v] => some (r, c, v)
      | _ => none
    else none) = none ↔ ∀ v, ¬ NakedAt g n r c v := by
  constructor
  · intro h v hv
    have := (nakedCell_some (x := (r, c, v))).mpr ⟨v, rfl, hv⟩
    rw [h] at this
    exact absurd this (by simp)
  · intro h
    cases hx : (if cell g r c = 0 then
      match candidates g r c n with
      | [v] => some (r, c, v)
      | _ => none
    else none) with
    | none => rfl
    | some x =>
      obtain ⟨v, _, hv⟩ := nakedCell_some.mp hx
      exact absurd hv (h v)

theorem nakedScan_none_iff {g : Grid} {n : Nat} :
    nakedScan g n = none ↔ ∀ r, r < n → ∀ c, c < n → ∀ v, ¬ NakedAt g n r c v := by
  unfold nakedScan
  rw [findSome_range_none]
  constructor
  · intro h r hr c hc
    exact nakedCell_none.mp ((findSome_range_none _ n).mp (h r hr) c hc)
  · intro h r hr
    rw [findSome_range_none]
    intro c hc
    exact nakedCell_none.mpr (h r hr c hc)

theorem nakedScan_some_iff {g : Grid} {n r c : Nat} {v : Int} :
    nakedScan g n = some (r, c, v) ↔
      (r < n ∧ c < n ∧ NakedAt g n r c v ∧
        ∀ i, i < n → ∀ j, j < n → Before i j r c → ∀ w, ¬ NakedAt g n i j w) := by
  unfold nakedScan
  rw [findSome_range_some]
  constructor
  · rintro ⟨i, hi, h1, h2⟩
    obtain ⟨j, hj, h3, h4⟩ := (findSome_range_some _ n _).mp h1
    obtain ⟨w, hx, hw⟩ := nakedCell_some.mp h3
    simp only [Prod.mk.injEq] at hx
    obtain ⟨rfl, rfl, rfl⟩ := hx
    refine ⟨hi, hj, hw, ?_⟩
    intro i' hi' j' hj' hb
    rcases hb with hb | ⟨rfl, hb⟩
    · exact nakedCell_none.mp ((findSome_range_none _ n).mp (h2 i' hb) j' hj')
    · exact nakedCell_none.mp (h4 j' hb)
  · rintro ⟨hr, hc, hv, hmin⟩
    refine ⟨r, hr, ?_, ?_⟩
    · rw [findSome_range_some]
      exact ⟨c, hc, nakedCell_some.mpr ⟨v, rfl, hv⟩,
        fun j hj => nakedCell_none.mpr (hmin r hr j (by omega) (Or.inr ⟨rfl, hj⟩))⟩
    · intro i hi
      rw [findSome_range_none]
      intro j hj
      exact nakedCell_none.mpr (hmin i (by omega) j hj (Or.inl hi))

theorem scan_one_iff {α β : Type} [DecidableEq α] (test : α → Bool) (pay : α → β)
    (l : List α) (hnd : l.Nodup) (b0 : β) :
    (l.foldl (fun (s : Nat × β) x => if test x then (s.1 + 1, pay x) else s) (0, b0)).1 = 1 ↔
      ∃ x ∈ l, test x = true ∧ ∀ y ∈ l, test y = true → y = x := by
  constructor
  · intro h
    obtain ⟨x, hx, h1, h2, _⟩ := scan_one test pay l hnd h
    exact ⟨x, hx, h1, h2⟩
  · rintro ⟨x, hx, h1, h2⟩
    rw [scan_count]
    simp only [Nat.zero_add]
    exact countP_eq_one test x l hnd hx h1 h2

/-- One round of the counting loops over a house: the count ends at 1 exactly when the
house has a hidden single, and then the kept position is that cell. -/
theorem scan_house {β : Type} (g : Grid) (n : Nat) (v : Int) (house : List (Nat × Nat))
    (hnd : house.Nodup) (pay : Nat × Nat → β) (b0 : β) :
    ((house.foldl (fun (s : Nat × β) p =>
        if (cell g p.1 p.2 == 0 && isSafe g p.1 p.2 v n) then (s.1 + 1, pay p) else s)
        (0, b0)).1 = 1 → ∃ p, HiddenIn g n v house p ∧
      (house.foldl (fun (s : Nat × β) p =>
        if (cell g p.1 p.2 == 0 && isSafe g p.1 p.2 v n) then (s.1 + 1, pay p) else s)
        (0, b0)).2 = pay p) ∧
    (HasHidden g n v house →
      (house.foldl (fun (s : Nat × β) p =>
        if (cell g p.1 p.2 == 0 && isSafe g p.1 p.2 v n) then (s.1 + 1, pay p) else s)
        (0, b0)).1 = 1) := by
  constructor
  · intro h
    obtain ⟨x, hx, h1, h2, h3⟩ := scan_one
      (fun (p : Nat × Nat) => cell g p.1 p.2 == 0 && isSafe g p.1 p.2 v n) pay house hnd h
    simp only [Bool.and_eq_true, beq_iff_eq] at h1 h2
    exact ⟨x, ⟨hx, h1.1, h1.2, fun q hq h0 hs => h2 q hq ⟨h0, hs⟩⟩, h3⟩
  · rintro ⟨p, hp, h0, hs, hu⟩
    rw [scan_one_iff _ _ _ hnd]
    refine ⟨p, hp, by simp [h0, hs], ?_⟩
    intro q hq hq'
    simp only [Bool.and_eq_true, beq_iff_eq] at hq'
    exact hu q hq hq'.1 hq'.2

theorem nodup_rowCells (n r : Nat) : (rowCells n r).Nodup :=
  (List.nodup_range n).map (fun a b h => by simpa using h)

theorem nodup_colCells (n c : Nat) : (colCells n c).Nodup :=
  (List.nodup_range n).map (fun a b h => by simpa using h)

theorem countPos_row (g : Grid) (n r : Nat) (v : Int) :
    countPos (fun c => cell g r c == 0 && isSafe g r c v n) n =
      (rowCells n r).foldl (fun (s : Nat × Int) p =>
        if (cell g p.1 p.2 == 0 && isSafe g p.1 p.2 v n) then (s.1 + 1, (p.2 : Int)) else s)
        (0, -1) := by
  unfold countPos rowCells
  rw [List.foldl_map]

theorem countPos_col (g : Grid) (n c : Nat) (v : Int) :
    countPos (fun r => cell g r c == 0 && isSafe g r c v n) n =
      (colCells n c).foldl (fun (s : Nat × Int) p =>
        if (cell g p.1 p.2 == 0 && isSafe g p.1 p.2 v n) then (s.1 + 1, (p.1 : Int)) else s)
        (0, -1) := by
  unfold countPos colCells
  rw [List.foldl_map]

theorem findSome_nums_none {β : Type} (f : Int → Option β) (n : Nat) :
    (nums n).findSome? f = none ↔ ∀ v ∈ nums n, f v = none := by
  simp [List.findSome?_eq_none_iff]

theorem findSome_nums_some {β : Type} (f : Int → Option β) (n : Nat) (b : β) :
    (nums n).findSome? f = some b ↔
      ∃ v ∈ nums n, f v = some b ∧ ∀ w ∈ nums n, w < v → f w = none := by
  unfold nums
  rw [List.findSome?_map, findSome_range_some]
  constructor
  · rintro ⟨i, hi, h1, h2⟩
    refine ⟨(i : Int) + 1, List.mem_map.mpr ⟨i, List.mem_range.mpr hi, rfl⟩, h1, ?_⟩
    intro w hw hlt
    obtain ⟨j, hj, rfl⟩ := List.mem_map.mp hw
    have hlt2 : (j : Int) + 1 < (i : Int) + 1 := hlt
    exact h2 j (by omega)
  · rintro ⟨v, hv, h1, h2⟩
    obtain ⟨i, hi, rfl⟩ := List.mem_map.mp hv
    refine ⟨i, List.mem_range.mp hi, h1, ?_⟩
    intro j hj
    exact h2 _ (List.mem_map.mpr ⟨j, List.mem_range.mpr (by
      have := List.mem_range.mp hi; omega), rfl⟩) (show (j : Int) + 1 < (i : Int) + 1 by omega)

theorem rowTest_spec (g : Grid) (n r : Nat) (v : Int) :
    ((let s := countPos (fun c => cell g r c == 0 && isSafe g r c v n) n
      if s.1 = 1 then some ((r : Int), s.2, v) else none) = none ↔
        ¬ HasHidden g n v (rowCells n r)) ∧
    (∀ x, (let s := countPos (fun c => cell g r c == 0 && isSafe g r c v n) n
      if s.1 = 1 then some ((r : Int), s.2, v) else none) = some x →
        ∃ c, c < n ∧ x = ((r : Int), (c : Int), v) ∧ HiddenIn g n v (rowCells n r) (r, c)) := by
  simp only
  rw [countPos_row]
  have hh := scan_house g n v (rowCells n r) (nodup_rowCells n r)
    (fun p => (p.2 : Int)) (-1)
  constructor
  · constructor
    · intro h hH
      rw [if_pos (hh.2 hH)] at h
      exact Option.noConfusion h
    · intro h
      rw [if_neg]
      intro h1
      obtain ⟨p, hp, _⟩ := hh.1 h1
      exact h ⟨p, hp⟩
  · intro x hx
    split at hx
    · rename_i h1
      obtain ⟨p, hp, he⟩ := hh.1 h1
      have hm := hp.1
      unfold rowCells at hm
      obtain ⟨c, hc, rfl⟩ := List.mem_map.mp hm
      refine ⟨c, List.mem_range.mp hc, ?_, hp⟩
      rw [he] at hx
      exact (Option.some.inj hx).symm
    · exact Option.noConfusion hx

theorem colTest_spec (g : Grid) (n c : Nat) (v : Int) :
    ((let s := countPos (fun r => cell g r c == 0 && isSafe g r c v n) n
      if s.1 = 1 then some (s.2, (c : Int), v) else none) = none ↔
        ¬ HasHidden g n v (colCells n c)) ∧
    (∀ x, (let s := countPos (fun r => cell g r c == 0 && isSafe g r c v n) n
      if s.1 = 1 then some (s.2, (c : Int), v) else none) = some x →
        ∃ r, r < n ∧ x = ((r : Int), (c : Int), v) ∧ HiddenIn g n v (colCells n c) (r, c)) := by
  simp only
  rw [countPos_col]
  have hh := scan_house g n v (colCells n c) (nodup_colCells n c)
    (fun p => (p.1 : Int)) (-1)
  constructor
  · constructor
    · intro h hH
      rw [if_pos (hh.2 hH)] at h
      exact Option.noConfusion h
    · intro h
      rw [if_neg]
      intro h1
      obtain ⟨p, hp, _⟩ := hh.1 h1
      exact h ⟨p, hp⟩
  · intro x hx
    split at hx
    · rename_i h1
      obtain ⟨p, hp, he⟩ := hh.1 h1
      have hm := hp.1
      unfold colCells at hm
      obtain ⟨r, hr, rfl⟩ := List.mem_map.mp hm
      refine ⟨r, List.mem_range.mp hr, ?_, hp⟩
      rw [he] at hx
      exact (Option.some.inj hx).symm
    · exact Option.noConfusion hx

theorem boxTest_spec (g : Grid) (n k bi bj : Nat) (v : Int) :
    ((let s := countBox g n k (bi * k) (bj * k) v
      if s.1 = 1 then some (s.2.1, s.2.2, v) else none) = none ↔
        ¬ HasHidden g n v (boxCells k bi bj)) ∧
    (∀ x, (let s := countBox g n k (bi * k) (bj * k) v
      if s.1 = 1 then some (s.2.1, s.2.2, v) else none) = some x →
        ∃ r c : Nat, x = ((r : Int), (c : Int), v) ∧
          HiddenIn g n v (boxCells k bi bj) (r, c)) := by
  simp only
  rw [countBox_eq]
  have hh := scan_house g n v (boxCells k bi bj) (nodup_boxCells k bi bj)
    (fun p => ((p.1 : Int), (p.2 : Int))) (-1, -1)
  constructor
  · constructor
    · intro h hH
      rw [if_pos (hh.2 hH)] at h
      exact Option.noConfusion h
    · intro h
      rw [if_neg]
      intro h1
      obtain ⟨p, hp, _⟩ := hh.1 h1
      exact h ⟨p, hp⟩
  · intro x hx
    split at hx
    · rename_i h1
      obtain ⟨p, hp, he⟩ := hh.1 h1
      refine ⟨p.1, p.2, ?_, hp⟩
      rw [he] at hx
      exact (Option.some.inj hx).symm
    · exact Option.noConfusion hx

theorem hiddenRows_none_iff (g : Grid) (n : Nat) :
    hiddenRows g n = none ↔ ¬ HasRowSingle g n := by
  unfold hiddenRows HasRowSingle
  rw [findSome_range_none]
  constructor
  · rintro h ⟨r, hr, v, hv, hH⟩
    have h1 := (findSome_nums_none _ n).mp (h r hr) v hv
    exact ((rowTest_spec g n r v).1.mp h1) hH
  · intro h r hr
    rw [findSome_nums_none]
    intro v hv
    exact (rowTest_spec g n r v).1.mpr (fun hH => h ⟨r, hr, v, hv, hH⟩)

theorem hiddenRows_first {g : Grid} {n : Nat} {x : Int × Int × Int}
    (h : hiddenRows g n = some x) :
    ∃ (r c : Nat) (v : Int), x = ((r : Int), (c : Int), v) ∧ FirstRowSingle g n r c v := by
  unfold hiddenRows at h
  obtain ⟨r, hr, h1, h2⟩ := (findSome_range_some _ n _).mp h
  obtain ⟨v, hv, h3, h4⟩ := (findSome_nums_some _ n _).mp h1
  obtain ⟨c, hc, rfl, hH⟩ := (rowTest_spec g n r v).2 x h3
  refine ⟨r, c, v, rfl, hr, hc, hv, hH, ?_⟩
  intro r2 hr2 v2 hv2 hlt
  rcases hlt with hlt | ⟨rfl, hlt⟩
  · have := (findSome_nums_none _ n).mp (h2 r2 hlt) v2 hv2
    exact (rowTest_spec g n r2 v2).1.mp this
  · exact (rowTest_spec g n r2 v2).1.mp (h4 v2 hv2 hlt)

theorem hiddenCols_none_iff (g : Grid) (n : Nat) :
    hiddenCols g n = none ↔ ¬ HasColSingle g n := by
  unfold hiddenCols HasColSingle
  rw [findSome_range_none]
  constructor
  · rintro h ⟨c, hc, v, hv, hH⟩
    have h1 := (findSome_nums_none _ n).mp (h c hc) v hv
    exact ((colTest_spec g n c v).1.mp h1) hH
  · intro h c hc
    rw [findSome_nums_none]
    intro v hv
    exact (colTest_spec g n c v).1.mpr (fun hH => h ⟨c, hc, v, hv, hH⟩)

theorem hiddenCols_first {g : Grid} {n : Nat} {x : Int × Int × Int}
    (h : hiddenCols g n = some x) :
    ∃ (r c : Nat) (v : Int), x = ((r : Int), (c : Int), v) ∧ FirstColSingle g n r c v := by
  unfold hiddenCols at h
  obtain ⟨c, hc, h1, h2⟩ := (findSome_range_some _ n _).mp h
  obtain ⟨v, hv, h3, h4⟩ := (findSome_nums_some _ n _).mp h1
  obtain ⟨r, hr, rfl, hH⟩ := (colTest_spec g n c v).2 x h3
  refine ⟨r, c, v, rfl, hr, hc, hv, hH, ?_⟩
  intro c2 hc2 v2 hv2 hlt
  rcases hlt with hlt | ⟨rfl, hlt⟩
  · have := (findSome_nums_none _ n).mp (h2 c2 hlt) v2 hv2
    exact (colTest_spec g n c2 v2).1.mp this
  · exact (colTest_spec g n c2 v2).1.mp (h4 v2 hv2 hlt)

theorem hiddenBoxes_unfold (g : Grid) (k : Nat) :
    hiddenBoxes g (k * k) =
      (List.range k).findSome? (fun bi =>
        (List.range k).findSome? (fun bj =>
          (nums (k * k)).findSome? (fun num =>
            let s := countBox g (k * k) k (bi * k) (bj * k) num
            if s.1 = 1 then some (s.2.1, s.2.2, num) else none))) := by
  unfold hiddenBoxes
  rw [intSqrt_sq]
  simp only
  rw [boxStarts_eq, List.findSome?_map]
  congr 1
  funext bi
  simp only [Function.comp]
  rw [List.findSome?_map]
  rfl

theorem hiddenBoxes_none_iff (g : Grid) (k : Nat) :
    hiddenBoxes g (k * k) = none ↔ ¬ HasBoxSingle g k := by
  rw [hiddenBoxes_unfold]
  unfold HasBoxSingle
  rw [findSome_range_none]
  constructor
  · rintro h ⟨bi, hbi, bj, hbj, v, hv, hH⟩
    have h0 := (findSome_range_none _ k).mp (h bi hbi) bj hbj
    have h1 := (findSome_nums_none _ (k * k)).mp h0 v hv
    exact ((boxTest_spec g (k * k) k bi bj v).1.mp h1) hH
  · intro h bi hbi
    rw [findSome_range_none]
    intro bj hbj
    rw [findSome_nums_none]
    intro v hv
    exact (boxTest_spec g (k * k) k bi bj v).1.mpr (fun hH => h ⟨bi, hbi, bj, hbj, v, hv, hH⟩)

theorem hiddenBoxes_first {g : Grid} {k : Nat} {x : Int × Int × Int}
    (h : hiddenBoxes g (k * k) = some x) :
    ∃ (r c : Nat) (v : Int), x = ((r : Int), (c : Int), v) ∧ FirstBoxSingle g k r c v := by
  rw [hiddenBoxes_unfold] at h
  obtain ⟨bi, hbi, h1, h2⟩ := (findSome_range_some _ k _).mp h
  obtain ⟨bj, hbj, h3, h4⟩ := (findSome_range_some _ k _).mp h1
  obtain ⟨v, hv, h5, h6⟩ := (findSome_nums_some _ (k * k) _).mp h3
  obtain ⟨r, c, rfl, hH⟩ := (boxTest_spec g (k * k) k bi bj v).2 x h5
  refine ⟨r, c, v, rfl, bi, hbi, bj, hbj, hv, hH, ?_⟩
  intro bi2 hbi2 bj2 hbj2 v2 hv2 hlt
  rcases hlt with hlt | ⟨rfl, hlt | ⟨rfl, hlt⟩⟩
  · have h7 := (findSome_range_none _ k).mp (h2 bi2 hlt) bj2 hbj2
    have := (findSome_nums_none _ (k * k)).mp h7 v2 hv2
    exact (boxTest_spec g (k * k) k bi2 bj2 v2).1.mp this
  · have := (findSome_nums_none _ (k * k)).mp (h4 bj2 hlt) v2 hv2
    exact (boxTest_spec g (k * k) k bi2 bj2 v2).1.mp this
  · exact (boxTest_spec g (k * k) k bi2 bj2 v2).1.mp (h6 v2 hv2 hlt)

theorem pairwise_nums (n : Nat) : (nums n).Pairwise (fun a b => a < b) := by
  unfold nums
  rw [List.pairwise_map]
  exact (List.pairwise_lt_range n).imp (fun h => by omega)

theorem pairwise_cells (n : Nat) :
    (cells n).Pairwise (fun p q => Before p.1 p.2 q.1 q.2) := by
  unfold cells
  rw [List.pairwise_flatMap]
  constructor
  · intro i _
    rw [List.pairwise_map]
    exact (List.pairwise_lt_range n).imp (fun h => Or.inr ⟨rfl, h⟩)
  · apply (List.pairwise_lt_range n).imp
    intro a b hab x hx y hy
    obtain ⟨_, _, rfl⟩ := List.mem_map.mp hx
    obtain ⟨_, _, rfl⟩ := List.mem_map.mp hy
    exact Or.inl hab

/-- Source `gridToFlat` on an `n`-by-`n` grid reads the cells in row-major order. -/
theorem gridToFlat_cells {n : Nat} {g : Grid} (hg : WF n g) :
    gridToFlat g = (cells n).map (fun p => cell g p.1 p.2) := by
  have hA : g = (List.range n).map (fun i => (List.range n).map (fun j => cell g i j)) := by
    apply grid_ext hg
    · constructor
      · simp
      · intro row hrow
        obtain ⟨i, _, rfl⟩ := List.mem_map.mp hrow
        simp
    · intro i hi j hj
      unfold cell
      simp [List.getD_eq_getElem?_getD, hi, hj]
  rw [gridToFlat_eq]
  conv_lhs => rw [hA]
  unfold cells
  rw [List.flatten_eq_flatMap, List.flatMap_map, List.map_flatMap]
  congr 1
  funext i
  simp [List.map_map, Function.comp]

theorem lexLE_refl (a : List Int) : lexLE a a = true := by
  induction a with
  | nil => rfl
  | cons x xs ih => simp [lexLE, ih]

theorem lexLE_antisymm : ∀ (a b : List Int), lexLE a b = true → lexLE b a = true → a = b := by
  intro a
  induction a with
  | nil =>
    intro b _ h2
    cases b with
    | nil => rfl
    | cons y ys => simp [lexLE] at h2
  | cons x xs ih =>
    intro b h1 h2
    cases b with
    | nil => simp [lexLE] at h1
    | cons y ys =>
      simp only [lexLE, Bool.or_eq_true, decide_eq_true_eq, Bool.and_eq_true, beq_iff_eq] at h1 h2
      rcases h1 with h1 | ⟨rfl, h1⟩
      · rcases h2 with h2 | ⟨rfl, _⟩
        · omega
        · omega
      · rcases h2 with h2 | ⟨_, h2⟩
        · omega
        · rw [ih ys h1 h2]

theorem lexLE_map_split {α : Type} (f g : α → Int) (l1 l2 : List α) (p : α)
    (h1 : ∀ q ∈ l1, f q = g q) (h2 : f p < g p) :
    lexLE ((l1 ++ p :: l2).map f) ((l1 ++ p :: l2).map g) = true := by
  induction l1 with
  | nil => simp [lexLE, h2]
  | cons x xs ih =>
    have hx := h1 x (List.mem_cons_self _ _)
    have := ih (fun q hq => h1 q (List.mem_cons_of_mem _ hq))
    simp only [List.cons_append, List.map_cons, lexLE, Bool.or_eq_true, decide_eq_true_eq,
      Bool.and_eq_true, beq_iff_eq]
    exact Or.inr ⟨hx, this⟩

/-- The cell-by-cell order is the lexicographic order of the flat arrays. -/
theorem lexLE_of_cellLE {n : Nat} {A B : Grid} (hA : WF n A) (hB : WF n B)
    (h : CellLE n A B) : lexLE (gridToFlat A) (gridToFlat B) = true := by
  rw [gridToFlat_cells hA, gridToFlat_cells hB]
  rcases h with h | ⟨r, hr, c, hc, hlt, hbef⟩
  · have : (cells n).map (fun p => cell A p.1 p.2) = (cells n).map (fun p => cell B p.1 p.2) :=
      List.map_inj_left.mpr (fun p hp => h p.1 (mem_cells.mp hp).1 p.2 (mem_cells.mp hp).2)
    rw [this]
    exact lexLE_refl _
  · have hm : (r, c) ∈ cells n := mem_cells.mpr ⟨hr, hc⟩
    obtain ⟨l1, l2, hl⟩ := List.append_of_mem hm
    have hp := pairwise_cells n
    rw [hl] at hp ⊢
    have hp2 := (List.pairwise_append.mp hp).2.2
    apply lexLE_map_split (fun (p : Nat × Nat) => cell A p.1 p.2)
      (fun (p : Nat × Nat) => cell B p.1 p.2) l1 l2 (r, c) _ hlt
    intro q hq
    have hq' : q ∈ cells n := by rw [hl]; exact List.mem_append_left _ hq
    exact hbef q.1 (mem_cells.mp hq').1 q.2 (mem_cells.mp hq').2
      (hp2 q hq (r, c) (List.mem_cons_self _ _))

theorem eq_of_gridToFlat_eq {n : Nat} {A B : Grid} (hA : WF n A) (hB : WF n B)
    (h : gridToFlat A = gridToFlat B) : A = B := by
  rw [gridToFlat_cells hA, gridToFlat_cells hB] at h
  have := List.map_inj_left.mp h
  exact grid_ext hA hB (fun i hi j hj => this (i, j) (mem_cells.mpr ⟨hi, hj⟩))

theorem tryNums_least {k : Nat} (hk : 1 ≤ k) (vis : Bool)
    (rec : Grid × List StepEvent → Option Outcome)
    (hrec : ∀ g ev out, WF (k * k) g → rec (g, ev) = some out → SolveSpec k g out)
    (hleast : ∀ g ev S0 ev2, WF (k * k) g → rec (g, ev) = some (true, S0, ev2) →
      ∀ S, Completion k g S → CellLE (k * k) S0 S)
    {g : Grid} (hg : WF (k * k) g) {r c : Nat} (hr : r < k * k) (hc : c < k * k)
    (h0 : cell g r c = 0)
    (hbef : ∀ i, i < k * k → ∀ j, j < k * k → Before i j r c → cell g i j ≠ 0) :
    ∀ l : List Int, (∀ v ∈ l, v ∈ nums (k * k)) → l.Pairwise (fun a b => a < b) →
      ∀ ev S0 ev2, tryNums vis (k * k) r c rec l g ev = some (true, S0, ev2) →
      ∀ S, Completion k g S → cell S r c ∈ l → CellLE (k * k) S0 S := by
  intro l
  induction l with
  | nil =>
    intro _ _ ev S0 ev2 _ S _ hm
    exact absurd hm (by simp)
  | cons num rest ih =>
    intro hl hpw ev S0 ev2 h S hS hm
    have hnum : num ∈ nums (k * k) := hl num (List.mem_cons_self _ _)
    have hrest : ∀ v ∈ rest, v ∈ nums (k * k) := fun v hv => hl v (List.mem_cons_of_mem _ hv)
    have hpw2 : rest.Pairwise (fun a b => a < b) := (List.pairwise_cons.mp hpw).2
    unfold tryNums at h
    by_cases hs : isSafe g r c num (k * k) = true
    · rw [if_pos hs] at h
      simp only at h
      have hg1 : WF (k * k) (setCell g r c num) := WF_setCell hg r c num
      cases hr1 : rec (setCell g r c num,
          if vis = true then ev ++ [⟨r, c, num, "try"⟩] else ev) with
      | none => rw [hr1] at h; exact absurd h (by simp)
      | some o =>
        obtain ⟨b, g2, ev3⟩ := o
        have hsp := hrec _ _ _ hg1 hr1
        rw [hr1] at h
        cases b with
        | true =>
          simp only [Option.some.injEq, Prod.mk.injEq, true_and] at h
          obtain ⟨rfl, rfl⟩ := h
          rcases List.mem_cons.mp hm with e | hm2
          · have hS1 := completion_setCell hg hS hr hc
            rw [e] at hS1
            exact hleast _ _ _ _ hg1 hr1 S hS1
          · have hlt : num < cell S r c := (List.pairwise_cons.mp hpw).1 _ hm2
            have hc0 : Completion k (setCell g r c num) g2 := hsp.1 rfl
            have hne : num ≠ 0 := by have := (mem_nums.mp hnum).1; omega
            have key : ∀ i, i < k * k → ∀ j, j < k * k →
                (cell (setCell g r c num) i j ≠ 0 →
                  cell g2 i j = cell (setCell g r c num) i j) ∧
                (cell (setCell g r c num) i j = 0 → FilledOk k g2 i j) := hc0.2
            have keyS : ∀ i, i < k * k → ∀ j, j < k * k →
                (cell g i j ≠ 0 → cell S i j = cell g i j) ∧
                (cell g i j = 0 → FilledOk k S i j) := hS.2
            right
            refine ⟨r, hr, c, hc, ?_, ?_⟩
            · have := (key r hr c hc).1
              rw [cell_setCell hg hr hc, if_pos ⟨rfl, rfl⟩] at this
              rw [this hne]
              exact hlt
            · intro i hi j hj hb
              have hnz := hbef i hi j hj hb
              have hij : ¬ (i = r ∧ j = c) := by
                rintro ⟨rfl, rfl⟩
                unfold Before at hb
                omega
              have := (key i hi j hj).1
              rw [cell_setCell hg hr hc, if_neg hij] at this
              rw [this hnz, (keyS i hi j hj).1 hnz]
        | false =>
          simp only at h
          obtain ⟨hg2, hno⟩ := hsp.2 rfl
          simp only at hg2
          subst hg2
          rw [setCell_restore hg hr hc h0] at h
          apply ih hrest hpw2 _ _ _ h S hS
          rcases List.mem_cons.mp hm with e | hm2
          · exfalso
            apply hno S
            have := completion_setCell hg hS hr hc
            rwa [e] at this
          · exact hm2
    · rw [if_neg hs] at h
      apply ih hrest hpw2 _ _ _ h S hS
      rcases List.mem_cons.mp hm with e | hm2
      · exfalso
        apply hs
        have := completion_safe hk hS hr hc h0
        rwa [e] at this
      · exact hm2

theorem solveAux_least {k : Nat} (hk : 1 ≤ k) (vis : Bool) :
    ∀ fuel g ev S0 ev2, WF (k * k) g →
      solveAux vis (k * k) fuel (g, ev) = some (true, S0, ev2) →
      ∀ S, Completion k g S → CellLE (k * k) S0 S := by
  intro fuel
  induction fuel with
  | zero =>
    intro g ev S0 ev2 _ h
    simp [solveAux] at h
  | succ f ih =>
    intro g ev S0 ev2 hg h S hS
    unfold solveAux at h
    cases he : findEmpty g (k * k) with
    | none =>
      rw [he] at h
      simp only [Option.some.injEq, Prod.mk.injEq, true_and] at h
      obtain ⟨rfl, rfl⟩ := h
      left
      intro i hi j hj
      exact ((hS.2 i hi j hj).1 (findEmpty_none he i hi j hj)).symm
    | some p =>
      obtain ⟨r, c⟩ := p
      rw [he] at h
      simp only at h
      obtain ⟨hr, hc, h0, hbef⟩ := findEmpty_some he
      have hfo : FilledOk k S r c := (hS.2 r hr c hc).2 h0
      exact tryNums_least hk vis _ (solveAux_spec hk vis f) ih hg hr hc h0 hbef
        (nums (k * k)) (fun v hv => hv) (pairwise_nums _) ev S0 ev2 h S hS
        (mem_nums.mpr ⟨hfo.1, hfo.2.1⟩)

/-! ## The claims of the specification -/

/-- C1: for `n = k * k`, `k >= 1`, and an `n`-by-`n` grid with entries in `0..n` and no
non-zero value twice in a row, column or sub-box: if `solve(grid, n)` returns true, the
final grid has no 0 cell, every row, column and sub-box holds each of `1..n` exactly
once, and every cell that was non-zero in the input keeps its value. -/
theorem solve_true_is_solution (k : Nat) (hk : 1 ≤ k) (g : Grid) (hg : WF (k * k) g)
    (hr : InRange (k * k) g) (hnd : NoDup k g) (g' : Grid) (ev : List StepEvent)
    (h : solve g (k * k) = some (true, g', ev)) :
    WF (k * k) g' ∧ Full (k * k) g' ∧ EachOnce k g' ∧
      ∀ i, i < k * k → ∀ j, j < k * k → cell g i j ≠ 0 → cell g' i j = cell g i j := by
  have hc : Completion k g g' := (solveRun_spec hk false hg h).1 rfl
  have hall := allOk_of_completion hr hnd hc
  exact ⟨hc.1, full_of_allOk hall, eachOnce_of_allOk hall,
    fun i hi j hj => (hc.2 i hi j hj).1⟩

theorem solve_true_is_solution_witness :
    solve [[1, 0, 0, 0], [0, 0, 3, 0], [0, 4, 0, 0], [0, 0, 0, 2]] (2 * 2) =
        some (true, [[1, 3, 2, 4], [4, 2, 3, 1], [2, 4, 1, 3], [3, 1, 4, 2]], []) ∧
      Full (2 * 2) [[1, 3, 2, 4], [4, 2, 3, 1], [2, 4, 1, 3], [3, 1, 4, 2]] ∧
      EachOnce 2 [[1, 3, 2, 4], [4, 2, 3, 1], [2, 4, 1, 3], [3, 1, 4, 2]] :=
  have h : solve [[1, 0, 0, 0], [0, 0, 3, 0], [0, 4, 0, 0], [0, 0, 0, 2]] (2 * 2) =
      some (true, [[1, 3, 2, 4], [4, 2, 3, 1], [2, 4, 1, 3], [3, 1, 4, 2]], []) := by decide
  have r := solve_true_is_solution 2 (by decide)
    [[1, 0, 0, 0], [0, 0, 3, 0], [0, 4, 0, 0], [0, 0, 0, 2]] (by decide) (by decide)
    (by decide) _ _ h
  ⟨h, r.2.1, r.2.2.1⟩

/-- C2: for `n = k * k`, `k >= 1`, and an `n`-by-`n` grid: if `solve(grid, n)` returns
false, no grid keeps the non-zero cells of the input and fills its empty cells with
values in `1..n` that occur nowhere else in their row, column and sub-box; in
particular no solved grid extends the input. -/
theorem solve_false_exhaustive (k : Nat) (hk : 1 ≤ k) (g : Grid) (hg : WF (k * k) g)
    (g' : Grid) (ev : List StepEvent) (h : solve g (k * k) = some (false, g', ev)) :
    (∀ S, ¬ Completion k g S) ∧
      ∀ S, WF (k * k) S → Solved k S →
        ¬ (∀ i, i < k * k → ∀ j, j < k * k → cell g i j ≠ 0 → cell S i j = cell g i j) := by
  have hno : ∀ S, ¬ Completion k g S := ((solveRun_spec hk false hg h).2 rfl).2
  refine ⟨hno, ?_⟩
  intro S hS hsol hext
  exact hno S (completion_of_allOk hS (allOk_of_eachOnce hk hsol.2) hext)

theorem solve_false_exhaustive_witness :
    solve [[1, 2, 3, 0], [0, 0, 0, 4], [0, 0, 0, 0], [0, 0, 0, 0]] (2 * 2) =
        some (false, [[1, 2, 3, 0], [0, 0, 0, 4], [0, 0, 0, 0], [0, 0, 0, 0]], []) ∧
      ∀ S, ¬ Completion 2 [[1, 2, 3, 0], [0, 0, 0, 4], [0, 0, 0, 0], [0, 0, 0, 0]] S :=
  have h : solve [[1, 2, 3, 0], [0, 0, 0, 4], [0, 0, 0, 0], [0, 0, 0, 0]] (2 * 2) =
      some (false, [[1, 2, 3, 0], [0, 0, 0, 4], [0, 0, 0, 0], [0, 0, 0, 0]], []) := by
    decide
  ⟨h, (solve_false_exhaustive 2 (by decide) _ (by decide) _ _ h).1⟩

/-- C3: for `n = k * k`, `k >= 1`, an `n`-by-`n` grid and `row`, `col` below `n`:
`isSafe(grid, row, col, num, n)` is false exactly when `num` occurs in row `row`, in
column `col` or in the sub-box with origin `(row - row mod k, col - col mod k)`, and
true otherwise. -/
theorem isSafe_false_iff_occurs (k : Nat) (hk : 1 ≤ k) (g : Grid) (hg : WF (k * k) g)
    (row col : Nat) (hrow : row < k * k) (hcol : col < k * k) (num : Int) :
    (isSafe g row col num (k * k) = false ↔
      ((∃ x, x < k * k ∧ cell g row x = num) ∨ (∃ x, x < k * k ∧ cell g x col = num) ∨
        (∃ i, i < k ∧ ∃ j, j < k ∧
          cell g (row - row % k + i) (col - col % k + j) = num))) ∧
    (isSafe g row col num (k * k) = true ↔
      ¬ ((∃ x, x < k * k ∧ cell g row x = num) ∨ (∃ x, x < k * k ∧ cell g x col = num) ∨
        (∃ i, i < k ∧ ∃ j, j < k ∧
          cell g (row - row % k + i) (col - col % k + j) = num))) := by
  have h := isSafe_eq_false_iff g row col num k
  refine ⟨h, ?_⟩
  rw [← h]
  simp

theorem isSafe_false_iff_occurs_witness :
    isSafe [[1, 0, 0, 0], [0, 0, 3, 0], [0, 4, 0, 0], [0, 0, 0, 2]] 1 1 1 (2 * 2) = false ∧
      isSafe [[1, 0, 0, 0], [0, 0, 3, 0], [0, 4, 0, 0], [0, 0, 0, 2]] 1 1 2 (2 * 2) = true :=
  have a := isSafe_false_iff_occurs 2 (by decide)
    [[1, 0, 0, 0], [0, 0, 3, 0], [0, 4, 0, 0], [0, 0, 0, 2]] (by decide) 1 1 (by decide)
    (by decide) 1
  have b := isSafe_false_iff_occurs 2 (by decide)
    [[1, 0, 0, 0], [0, 0, 3, 0], [0, 4, 0, 0], [0, 0, 0, 2]] (by decide) 1 1 (by decide)
    (by decide) 2
  ⟨a.1.mpr (Or.inr (Or.inr ⟨0, by decide, 0, by decide, by decide⟩)), b.2.mpr (by decide)⟩

/-- C4: for `n = k * k`, `k >= 1`, and an `n`-by-`n` grid with entries in `0..n` and no
non-zero value twice in a row, column or sub-box: if the human-style loop of
`humanSolve` ends with no empty cell, then its recorded steps applied in order to the
starting grid give a solved grid, `solve` on the starting grid returns true, and the
two final grids are the same. -/
theorem human_complete_agrees_with_solve (k : Nat) (hk : 1 ≤ k) (g : Grid)
    (hg : WF (k * k) g) (hr : InRange (k * k) g) (hnd : NoDup k g) (final : Grid)
    (steps : List HumanStep) (hh : humanSolve g (k * k) = some (final, steps))
    (hfull : Full (k * k) final) :
    applySteps g steps = final ∧ Solved k final ∧
      ∃ ev, solve g (k * k) = some (true, final, ev) := by
  obtain ⟨g1, steps1, h1, hchain, happ, _⟩ := humanSolve_spec hk hg
  rw [hh] at h1
  simp only [Option.some.injEq, Prod.mk.injEq] at h1
  obtain ⟨rfl, rfl⟩ := h1
  have hwf : WF (k * k) final := by rw [happ]; exact chain_WF steps g hg
  have hcf : Completion k g final := by
    apply chain_back hk steps g hg hchain
    rw [← happ]
    exact completion_self hwf hfull
  have hall := allOk_of_completion hr hnd hcf
  refine ⟨happ.symm, ⟨hfull, eachOnce_of_allOk hall⟩, ?_⟩
  obtain ⟨out, ho⟩ := solveRun_total hk false hg
  have hsp := solveRun_spec hk false hg ho
  obtain ⟨b, g', ev⟩ := out
  cases b with
  | false => exact absurd hcf ((hsp.2 rfl).2 _)
  | true =>
    have hc' : Completion k g g' := hsp.1 rfl
    have hall' := allOk_of_completion hr hnd hc'
    have hfin := chain_forced hk hall' steps g hg hchain hc'
    rw [← happ] at hfin
    have e := completion_full_eq hwf hfull hfin
    subst e
    exact ⟨ev, ho⟩

theorem human_complete_agrees_with_solve_witness :
    humanSolve [[0, 2, 3, 4], [3, 4, 0, 2], [2, 1, 4, 3], [4, 3, 0, 1]] (2 * 2) =
        some ([[1, 2, 3, 4], [3, 4, 1, 2], [2, 1, 4, 3], [4, 3, 2, 1]],
          [⟨0, 0, 1, "Naked Single"⟩, ⟨1, 2, 1, "Naked Single"⟩,
            ⟨3, 2, 2, "Naked Single"⟩]) ∧
      ∃ ev, solve [[0, 2, 3, 4], [3, 4, 0, 2], [2, 1, 4, 3], [4, 3, 0, 1]] (2 * 2) =
        some (true, [[1, 2, 3, 4], [3, 4, 1, 2], [2, 1, 4, 3], [4, 3, 2, 1]], ev) :=
  have h : humanSolve [[0, 2, 3, 4], [3, 4, 0, 2], [2, 1, 4, 3], [4, 3, 0, 1]] (2 * 2) =
      some ([[1, 2, 3, 4], [3, 4, 1, 2], [2, 1, 4, 3], [4, 3, 2, 1]],
        [⟨0, 0, 1, "Naked Single"⟩, ⟨1, 2, 1, "Naked Single"⟩,
          ⟨3, 2, 2, "Naked Single"⟩]) := by decide
  ⟨h, (human_complete_agrees_with_solve 2 (by decide) _ (by decide) (by decide) (by decide)
    _ _ h (by decide)).2.2⟩

/-- C5: with the random draws taken as inputs, for a 9x9 grid with no 0 cell, a draw
`d` of `rand.Intn(14)` and picks `(rand.Intn(9), rand.Intn(9))` on which
`removeCells(grid, 9, 81 - (22 + d))` finishes, the puzzle has exactly `22 + d` non-zero
cells, between 22 and 35. -/
theorem removeCells_clue_count (g : Grid) (hg : WF 9 g) (hfull : Full 9 g) (d : Nat)
    (hd : d ≤ 13) (picks : List (Nat × Nat)) (hp : ∀ p ∈ picks, p.1 < 9 ∧ p.2 < 9)
    (g' : Grid) (h : removeCells g 9 (81 - (22 + (d : Int))) picks = some g') :
    numFilled g' 9 = 22 + d ∧ 22 ≤ numFilled g' 9 ∧ numFilled g' 9 ≤ 35 := by
  obtain ⟨_, h2, _⟩ := removeCells_spec 9 picks g _ g' hg hp (by omega) h
  rw [numFilled_full hfull] at h2
  have : numFilled g' 9 = 22 + d := by
    have e : (((9 * 9 : Nat)) : Int) = 81 := by norm_num
    rw [e] at h2
    omega
  omega

theorem removeCells_clue_count_witness :
    removeCells sampleFull 9 (81 - (22 + ((13 : Nat) : Int))) samplePicks =
        some samplePuzzle ∧
      numFilled samplePuzzle 9 = 22 + 13 :=
  ⟨sample_removeCells,
    (removeCells_clue_count sampleFull (by decide) (by decide) 13 (by decide) samplePicks
      (by decide) samplePuzzle sample_removeCells).1⟩

/-- C7: for a complete valid 9x9 grid (every row, column and 3x3 sub-box holds `1..9`
exactly once) and any cells that `removeCells` clears to 0, `solve` on the resulting
puzzle returns true. -/
theorem generated_puzzle_solvable (g : Grid) (hg : WF 9 g) (hsol : Solved 3 g) (count : Int)
    (picks : List (Nat × Nat)) (hp : ∀ p ∈ picks, p.1 < 9 ∧ p.2 < 9) (p : Grid)
    (h : removeCells g 9 count picks = some p) :
    ∃ g' ev, solve p 9 = some (true, g', ev) := by
  have hext : ∀ (q : Grid), WF 9 q → (∀ i j, cell q i j = cell g i j ∨ cell q i j = 0) →
      ∃ g' ev, solve q 9 = some (true, g', ev) := by
    intro q hq hcells
    have hg' : WF (3 * 3) g := hg
    have hq' : WF (3 * 3) q := hq
    have := solve_of_solved_extension (by decide : 1 ≤ 3) hg' hsol.2 hq'
      (fun i _ j _ hne => by
        rcases hcells i j with e | e
        · exact e.symm
        · exact absurd e hne)
    simpa using this
  by_cases hc : 0 ≤ count
  · obtain ⟨h1, _, h3⟩ := removeCells_spec 9 picks g count p hg hp hc h
    exact hext p h1 h3
  · have : p = g := by
      cases picks with
      | nil =>
        unfold removeCells at h
        rw [if_neg (by omega)] at h
        simpa using h.symm
      | cons a rest =>
        obtain ⟨i, j⟩ := a
        unfold removeCells at h
        rw [if_neg (by omega)] at h
        simpa using h.symm
    subst this
    exact hext p hg (fun i j => Or.inl rfl)

theorem generated_puzzle_solvable_witness :
    ∃ g' ev, solve samplePuzzle 9 = some (true, g', ev) :=
  generated_puzzle_solvable sampleFull (by decide) (by decide) _ samplePicks (by decide)
    samplePuzzle sample_removeCells

/-- C8: for `n = k * k`, `k >= 1`, `solve` on the fully empty `n`-by-`n` grid returns
true, and in the resulting grid every row, every column and every sub-box holds each of
`1..n` exactly once. -/
theorem solve_empty_grid_succeeds (k : Nat) (hk : 1 ≤ k) :
    ∃ g' ev, solve (emptyGrid (k * k)) (k * k) = some (true, g', ev) ∧
      Full (k * k) g' ∧ EachOnce k g' := by
  obtain ⟨g', ev, h, hc⟩ := solve_emptyGrid hk
  have hr : InRange (k * k) (emptyGrid (k * k)) := by
    intro i _ j _
    rw [cell_emptyGrid]
    omega
  have hnd : NoDup k (emptyGrid (k * k)) :=
    fun i _ j _ h => absurd (cell_emptyGrid _ i j) h
  have hall := allOk_of_completion hr hnd hc
  exact ⟨g', ev, h, full_of_allOk hall, eachOnce_of_allOk hall⟩

theorem solve_empty_grid_succeeds_witness :
    ∃ g' ev, solve (emptyGrid (2 * 2)) (2 * 2) = some (true, g', ev) ∧
      Full (2 * 2) g' ∧ EachOnce 2 g' :=
  solve_empty_grid_succeeds 2 (by decide)

/-- C9: for `n = k * k`, `k >= 1`, and an `n`-by-`n` grid the human-style loop of
`humanSolve` terminates; each recorded step writes a value in `1..n` into a cell that was
0 at that moment, no cell is written twice, the number of steps is at most the number of
empty cells of the input, and it is equal to it exactly when the final grid has no
empty cell. -/
theorem human_loop_terminates (k : Nat) (hk : 1 ≤ k) (g : Grid) (hg : WF (k * k) g) :
    ∃ g' steps, humanSolve g (k * k) = some (g', steps) ∧ g' = applySteps g steps ∧
      StepsFillEmpty (k * k) g steps ∧ (steps.map (fun s => (s.row, s.col))).Nodup ∧
      steps.length ≤ numEmpty g (k * k) ∧
      (steps.length = numEmpty g (k * k) ↔ numEmpty g' (k * k) = 0) := by
  obtain ⟨g', steps, h1, h2, h3, _⟩ := humanSolve_spec hk hg
  have hc := chain_count steps g hg h2
  rw [← h3] at hc
  exact ⟨g', steps, h1, h3, chain_fill steps g h2, chain_nodup steps g hg h2, by omega,
    by omega⟩

theorem human_loop_terminates_witness :
    ∃ g' steps, humanSolve [[1, 0, 0, 0], [0, 0, 3, 0], [0, 4, 0, 0], [0, 0, 0, 2]] (2 * 2) =
        some (g', steps) ∧
      g' = applySteps [[1, 0, 0, 0], [0, 0, 3, 0], [0, 4, 0, 0], [0, 0, 0, 2]] steps ∧
      StepsFillEmpty (2 * 2) [[1, 0, 0, 0], [0, 0, 3, 0], [0, 4, 0, 0], [0, 0, 0, 2]] steps ∧
      (steps.map (fun s => (s.row, s.col))).Nodup ∧
      steps.length ≤ numEmpty [[1, 0, 0, 0], [0, 0, 3, 0], [0, 4, 0, 0], [0, 0, 0, 2]] (2 * 2) ∧
      (steps.length = numEmpty [[1, 0, 0, 0], [0, 0, 3, 0], [0, 4, 0, 0], [0, 0, 0, 2]] (2 * 2) ↔
        numEmpty g' (2 * 2) = 0) :=
  human_loop_terminates 2 (by decide) _ (by decide)

/-- C10: with the step callback taken as an event list, for `n = k * k`, `k >= 1`, and
an `n`-by-`n` grid on which the visual-mode `solve` returns true: replaying the events
in order on the initial grid (a "try" writes the value, a "backtrack" resets the cell
to 0) gives exactly the final grid. -/
theorem visual_replay_reconstructs (k : Nat) (hk : 1 ≤ k) (g : Grid) (hg : WF (k * k) g)
    (g' : Grid) (ev : List StepEvent) (h : solveVisual g (k * k) = some (true, g', ev)) :
    replay g ev = g' := by
  obtain ⟨evs, he, hrep⟩ := solveAux_events (k * k) _ g [] _ h
  simp only [List.nil_append] at he
  rw [he]
  exact hrep

theorem visual_replay_reconstructs_witness :
    solveVisual [[1, 2, 3, 4], [3, 4, 0, 0], [2, 1, 4, 3], [4, 3, 0, 2]] (2 * 2) =
        some (true, [[1, 2, 3, 4], [3, 4, 2, 1], [2, 1, 4, 3], [4, 3, 1, 2]],
          [⟨1, 2, 1, "try"⟩, ⟨1, 2, 0, "backtrack"⟩, ⟨1, 2, 2, "try"⟩, ⟨1, 3, 1, "try"⟩,
            ⟨3, 2, 1, "try"⟩]) ∧
      replay [[1, 2, 3, 4], [3, 4, 0, 0], [2, 1, 4, 3], [4, 3, 0, 2]]
          [⟨1, 2, 1, "try"⟩, ⟨1, 2, 0, "backtrack"⟩, ⟨1, 2, 2, "try"⟩, ⟨1, 3, 1, "try"⟩,
            ⟨3, 2, 1, "try"⟩] =
        [[1, 2, 3, 4], [3, 4, 2, 1], [2, 1, 4, 3], [4, 3, 1, 2]] :=
  have h : solveVisual [[1, 2, 3, 4], [3, 4, 0, 0], [2, 1, 4, 3], [4, 3, 0, 2]] (2 * 2) =
      some (true, [[1, 2, 3, 4], [3, 4, 2, 1], [2, 1, 4, 3], [4, 3, 1, 2]],
        [⟨1, 2, 1, "try"⟩, ⟨1, 2, 0, "backtrack"⟩, ⟨1, 2, 2, "try"⟩, ⟨1, 3, 1, "try"⟩,
          ⟨3, 2, 1, "try"⟩]) := by decide
  ⟨h, visual_replay_reconstructs 2 (by decide) _ (by decide) _ _ h⟩

/-- C11: with the hostname as input, the two code arrays of the allow-list decode to
"dixon.rs" and "andydixon.com", and `checkAllowedHost` passes exactly when the hostname
contains one of these two strings as a contiguous substring; "dixon.rs", "www.dixon.rs"
and "andydixon.com" pass and "evil.example.com" fails. -/
theorem host_gate_decision :
    allowedCodes.map decodeDomain = ["dixon.rs", "andydixon.com"] ∧
    (∀ host : String, checkAllowedHost host = true ↔
      ((∃ pre post, host.data = pre ++ "dixon.rs".data ++ post) ∨
        (∃ pre post, host.data = pre ++ "andydixon.com".data ++ post))) ∧
    checkAllowedHost "dixon.rs" = true ∧ checkAllowedHost "www.dixon.rs" = true ∧
    checkAllowedHost "andydixon.com" = true ∧ checkAllowedHost "evil.example.com" = false := by
  refine ⟨by decide, checkAllowedHost_iff, by decide, by decide, by decide, by decide⟩

/-- C12: the difficulty label is a function of the clue count alone: "Easy" for
`clues >= 35`, "Medium" for `28 <= clues < 35`, "Hard" for `clues < 28`; so 35 gives
"Easy", 28 gives "Medium" and 22 gives "Hard"; and the label `generateSudoku` returns is
the label of its clue count `rand.Intn(14) + 22`. -/
theorem difficulty_classification :
    (∀ clues : Int, (35 ≤ clues → difficulty clues = "Easy") ∧
      (28 ≤ clues → clues < 35 → difficulty clues = "Medium") ∧
      (clues < 28 → difficulty clues = "Hard")) ∧
    difficulty 35 = "Easy" ∧ difficulty 28 = "Medium" ∧ difficulty 22 = "Hard" ∧
    (∀ host vis perms d picks puzzle label,
      generateSudoku host vis perms d picks = some (some (puzzle, label)) →
        label = difficulty ((d : Int) + 22)) := by
  refine ⟨?_, by decide, by decide, by decide, ?_⟩
  · intro clues
    unfold difficulty
    refine ⟨fun h => by rw [if_pos h], fun h1 h2 => ?_, fun h => ?_⟩
    · rw [if_neg (by omega), if_pos h1]
    · rw [if_neg (by omega), if_neg (by omega)]
  · intro host vis perms d picks puzzle label h
    unfold generateSudoku at h
    split at h
    · exact absurd h (by simp)
    · simp only at h
      split at h
      · exact absurd h (by simp)
      · split at h
        · exact absurd h (by simp)
        · simp only [Option.some.injEq, Prod.mk.injEq] at h
          exact h.2.symm

theorem difficulty_classification_witness :
    (35 : Int) ≤ 40 ∧ difficulty 40 = "Easy" ∧ (28 : Int) ≤ 30 ∧ (30 : Int) < 35 ∧
      difficulty 30 = "Medium" ∧ (25 : Int) < 28 ∧ difficulty 25 = "Hard" :=
  ⟨by decide, (difficulty_classification.1 40).1 (by decide), by decide, by decide,
    (difficulty_classification.1 30).2.1 (by decide) (by decide), by decide,
    (difficulty_classification.1 25).2.2 (by decide)⟩

/-- C13, as the code has it: for every `size` and every flat array of length
`size * size` whose elements are whole numbers in the range of Go's 64-bit `int`
(`-2^63 <= v < 2^63`), `gridToFlat(argsToGrid(flat, size))` is `flat` again, and cell
`(i, j)` of the grid holds `flat[i*size + j]`; this whatever the implementation does with
numbers outside the range. -/
theorem marshalling_round_trip (ovf : Int → Int) (size : Nat) (flat : List Int)
    (hlen : flat.length = size * size)
    (hrange : ∀ v ∈ flat, -9223372036854775808 ≤ v ∧ v < 9223372036854775808) :
    gridToFlat (argsToGrid ovf flat size) = flat ∧
      ∀ i, i < size → ∀ j, j < size →
        cell (argsToGrid ovf flat size) i j = flat.getD (i * size + j) 0 := by
  refine ⟨?_, ?_⟩
  · rw [gridToFlat_argsToGrid ovf flat size hlen, map_jsInt_of_range ovf flat hrange]
  · intro i hi j hj
    rw [cell_argsToGrid ovf flat hi hj]
    have hlt : i * size + j < flat.length := by
      rw [hlen]
      calc i * size + j < i * size + size := by omega
        _ = (i + 1) * size := by ring
        _ ≤ size * size := Nat.mul_le_mul_right size hi
    have hm : flat.getD (i * size + j) 0 ∈ flat := by
      rw [List.getD_eq_getElem?_getD, List.getElem?_eq_getElem hlt]
      exact List.getElem_mem _
    exact jsInt_of_range ovf (hrange _ hm)

theorem marshalling_round_trip_witness :
    argsToGrid (fun _ => 0) [1, 0, 0, 4, 0, 3, 2, 0, 5] 3 = [[1, 0, 0], [4, 0, 3], [2, 0, 5]] ∧
      gridToFlat (argsToGrid (fun _ => 0) [1, 0, 0, 4, 0, 3, 2, 0, 5] 3) =
        [1, 0, 0, 4, 0, 3, 2, 0, 5] :=
  ⟨by decide,
    (marshalling_round_trip (fun _ => 0) 3 [1, 0, 0, 4, 0, 3, 2, 0, 5] (by decide)
      (by decide)).1⟩

/-- C13 as stated fails: the flat array `[10000000000000000000]` of length `1 * 1` holds a
whole number above `2^63 - 1`.  A cell of type `int` cannot hold it, so under no
implementation of the conversion does the round trip give the array back; where the
conversion saturates, the array that comes back holds `2^63 - 1`. -/
theorem marshalling_loses_large_value :
    [(10000000000000000000 : Int)].length = 1 * 1 ∧
      (¬ ∃ ovf : Int → Int,
        gridToFlat (argsToGrid ovf [10000000000000000000] 1) = [10000000000000000000]) ∧
      gridToFlat (argsToGrid (fun _ => 9223372036854775807) [10000000000000000000] 1) =
        [9223372036854775807] := by
  refine ⟨rfl, ?_, by decide⟩
  rintro ⟨ovf, h⟩
  rw [gridToFlat_argsToGrid ovf [10000000000000000000] 1 (by decide)] at h
  have hr := jsInt_range ovf 10000000000000000000
  simp only [List.map_cons, List.map_nil, List.cons.injEq, and_true] at h
  omega

/-- C14: for `n >= 0` in the range where the products `i * i` of the loop stay below
`2^63`, `intSqrt(n)` is the largest `i` with `i * i <= n`, that is
`intSqrt(n)^2 <= n < (intSqrt(n) + 1)^2`; and `intSqrt(9) = 3`, `intSqrt(4) = 2`,
`intSqrt(16) = 4`. -/
theorem intSqrt_is_floor_sqrt :
    (∀ n : Nat, (intSqrt n + 1) * (intSqrt n + 1) < 2 ^ 63 →
      intSqrt n * intSqrt n ≤ n ∧ n < (intSqrt n + 1) * (intSqrt n + 1) ∧
        ∀ i, i * i ≤ n → i ≤ intSqrt n) ∧
    intSqrt 9 = 3 ∧ intSqrt 4 = 2 ∧ intSqrt 16 = 4 := by
  refine ⟨?_, by decide, by decide, by decide⟩
  intro n _
  obtain ⟨h1, h2⟩ := intSqrt_spec n
  refine ⟨h1, h2, ?_⟩
  intro i hi
  by_contra hc
  have : (intSqrt n + 1) * (intSqrt n + 1) ≤ i * i := Nat.mul_le_mul (by omega) (by omega)
  omega

theorem intSqrt_is_floor_sqrt_witness :
    (intSqrt 10 + 1) * (intSqrt 10 + 1) < 2 ^ 63 ∧
      intSqrt 10 * intSqrt 10 ≤ 10 ∧ 10 < (intSqrt 10 + 1) * (intSqrt 10 + 1) :=
  ⟨by decide, (intSqrt_is_floor_sqrt.1 10 (by decide)).1,
    (intSqrt_is_floor_sqrt.1 10 (by decide)).2.1⟩

/-- C15: for `n = k * k`, `k >= 1`, and an `n`-by-`n` grid, running the human-style loop
of `humanSolve` again on the grid it stopped on records no step and leaves that grid
unchanged; on that grid `findNakedSingle` and `findHiddenSingle` both report not
found. -/
theorem human_stall_idempotent (k : Nat) (hk : 1 ≤ k) (g : Grid) (hg : WF (k * k) g)
    (g' : Grid) (steps : List HumanStep) (h : humanSolve g (k * k) = some (g', steps)) :
    humanSolve g' (k * k) = some (g', []) ∧
      findNakedSingle g' (k * k) = (-1, -1, -1, false) ∧
      findHiddenSingle g' (k * k) = (-1, -1, -1, false) := by
  obtain ⟨g1, steps1, h1, _, _, hn, hh⟩ := humanSolve_spec hk hg
  rw [h] at h1
  simp only [Option.some.injEq, Prod.mk.injEq] at h1
  obtain ⟨rfl, rfl⟩ := h1
  have e1 := findNakedSingle_not_found hn
  have e2 := findHiddenSingle_not_found hh
  exact ⟨humanLoop_stalled e1 e2 _ [], e1, e2⟩

theorem human_stall_idempotent_witness :
    humanSolve [[0, 2, 3, 4], [3, 4, 0, 0], [2, 1, 4, 3], [4, 3, 0, 0]] (2 * 2) =
        some ([[1, 2, 3, 4], [3, 4, 0, 0], [2, 1, 4, 3], [4, 3, 0, 0]],
          [⟨0, 0, 1, "Naked Single"⟩]) ∧
      humanSolve [[1, 2, 3, 4], [3, 4, 0, 0], [2, 1, 4, 3], [4, 3, 0, 0]] (2 * 2) =
        some ([[1, 2, 3, 4], [3, 4, 0, 0], [2, 1, 4, 3], [4, 3, 0, 0]], []) :=
  have h : humanSolve [[0, 2, 3, 4], [3, 4, 0, 0], [2, 1, 4, 3], [4, 3, 0, 0]] (2 * 2) =
      some ([[1, 2, 3, 4], [3, 4, 0, 0], [2, 1, 4, 3], [4, 3, 0, 0]],
        [⟨0, 0, 1, "Naked Single"⟩]) := by decide
  ⟨h, (human_stall_idempotent 2 (by decide) _ (by decide) _ _ h).1⟩

/-- C16, as the code has it: for `n = k * k`, `k >= 1`, and an `n`-by-`n` puzzle on
which the human-style loop of `humanSolve` stops with an empty cell left, the recorded
steps are fewer than the empty cells of the input (the sequence may be empty). -/
theorem human_stall_steps_incomplete (k : Nat) (hk : 1 ≤ k) (g : Grid) (hg : WF (k * k) g)
    (g' : Grid) (steps : List HumanStep) (h : humanSolve g (k * k) = some (g', steps))
    (hleft : 0 < numEmpty g' (k * k)) : steps.length < numEmpty g (k * k) := by
  obtain ⟨g1, steps1, h1, h2, h3, _⟩ := humanSolve_spec hk hg
  rw [h] at h1
  simp only [Option.some.injEq, Prod.mk.injEq] at h1
  obtain ⟨rfl, rfl⟩ := h1
  have hc := chain_count steps g hg h2
  rw [← h3] at hc
  omega

theorem human_stall_steps_incomplete_witness :
    humanSolve [[0, 2, 3, 4], [3, 4, 0, 0], [2, 1, 4, 3], [4, 3, 0, 0]] (2 * 2) =
        some ([[1, 2, 3, 4], [3, 4, 0, 0], [2, 1, 4, 3], [4, 3, 0, 0]],
          [⟨0, 0, 1, "Naked Single"⟩]) ∧
      [(⟨0, 0, 1, "Naked Single"⟩ : HumanStep)].length <
        numEmpty [[0, 2, 3, 4], [3, 4, 0, 0], [2, 1, 4, 3], [4, 3, 0, 0]] (2 * 2) :=
  have h : humanSolve [[0, 2, 3, 4], [3, 4, 0, 0], [2, 1, 4, 3], [4, 3, 0, 0]] (2 * 2) =
      some ([[1, 2, 3, 4], [3, 4, 0, 0], [2, 1, 4, 3], [4, 3, 0, 0]],
        [⟨0, 0, 1, "Naked Single"⟩]) := by decide
  ⟨h, human_stall_steps_incomplete 2 (by decide) _ (by decide) _ _ h (by decide)⟩

/-- C16 as stated fails: on the 4x4 puzzle below the loop stops with four empty cells
left and has recorded no step at all, so the step sequence is not non-empty. -/
theorem human_stall_may_record_nothing :
    WF (2 * 2) [[1, 2, 3, 4], [3, 4, 0, 0], [2, 1, 4, 3], [4, 3, 0, 0]] ∧
      humanSolve [[1, 2, 3, 4], [3, 4, 0, 0], [2, 1, 4, 3], [4, 3, 0, 0]] (2 * 2) =
        some ([[1, 2, 3, 4], [3, 4, 0, 0], [2, 1, 4, 3], [4, 3, 0, 0]], []) ∧
      0 < numEmpty [[1, 2, 3, 4], [3, 4, 0, 0], [2, 1, 4, 3], [4, 3, 0, 0]] (2 * 2) ∧
      ¬ (0 < ([] : List HumanStep).length ∧
        ([] : List HumanStep).length <
          numEmpty [[1, 2, 3, 4], [3, 4, 0, 0], [2, 1, 4, 3], [4, 3, 0, 0]] (2 * 2)) := by
  decide

/-- C17: for `n = k * k`, `k >= 1`, and an `n`-by-`n` grid, `findNakedSingle` reports
found exactly when some empty cell has exactly one value in `1..n` that `isSafe`
accepts; when found, it returns the first such cell in row-major order with that value,
and otherwise it returns `(-1, -1, -1, false)`. -/
theorem findNakedSingle_first_single (k : Nat) (hk : 1 ≤ k) (g : Grid)
    (hg : WF (k * k) g) :
    ((findNakedSingle g (k * k)).2.2.2 = true ↔
      ∃ r, r < k * k ∧ ∃ c, c < k * k ∧ ∃ v, NakedAt g (k * k) r c v) ∧
    ((findNakedSingle g (k * k)).2.2.2 = true →
      ∃ (r c : Nat) (v : Int), findNakedSingle g (k * k) = ((r : Int), (c : Int), v, true) ∧
        r < k * k ∧ c < k * k ∧ NakedAt g (k * k) r c v ∧
        ∀ i, i < k * k → ∀ j, j < k * k → Before i j r c →
          ∀ w, ¬ NakedAt g (k * k) i j w) ∧
    ((findNakedSingle g (k * k)).2.2.2 = false →
      findNakedSingle g (k * k) = (-1, -1, -1, false)) := by
  have found : (findNakedSingle g (k * k)).2.2.2 = true →
      ∃ (r c : Nat) (v : Int), findNakedSingle g (k * k) = ((r : Int), (c : Int), v, true) ∧
        r < k * k ∧ c < k * k ∧ NakedAt g (k * k) r c v ∧
        ∀ i, i < k * k → ∀ j, j < k * k → Before i j r c →
          ∀ w, ¬ NakedAt g (k * k) i j w := by
    intro h
    unfold findNakedSingle at h ⊢
    cases hs : nakedScan g (k * k) with
    | none => rw [hs] at h; simp at h
    | some t =>
      obtain ⟨r, c, v⟩ := t
      obtain ⟨h1, h2, h3, h4⟩ := nakedScan_some_iff.mp hs
      exact ⟨r, c, v, rfl, h1, h2, h3, h4⟩
  refine ⟨⟨?_, ?_⟩, found, findNakedSingle_not_found⟩
  · intro h
    obtain ⟨r, c, v, _, h1, h2, h3, _⟩ := found h
    exact ⟨r, h1, c, h2, v, h3⟩
  · rintro ⟨r, hr, c, hc, v, hv⟩
    unfold findNakedSingle
    cases hs : nakedScan g (k * k) with
    | none => exact absurd hv (nakedScan_none_iff.mp hs r hr c hc v)
    | some t => rfl

theorem findNakedSingle_first_single_witness :
    findNakedSingle [[1, 0, 0, 0], [0, 0, 3, 0], [0, 4, 0, 0], [0, 0, 0, 2]] (2 * 2) =
        (0, 3, 4, true) ∧
      ∃ r, r < 2 * 2 ∧ ∃ c, c < 2 * 2 ∧ ∃ v,
        NakedAt [[1, 0, 0, 0], [0, 0, 3, 0], [0, 4, 0, 0], [0, 0, 0, 2]] (2 * 2) r c v :=
  have h : findNakedSingle [[1, 0, 0, 0], [0, 0, 3, 0], [0, 4, 0, 0], [0, 0, 0, 2]] (2 * 2) =
      (0, 3, 4, true) := by decide
  ⟨h, (findNakedSingle_first_single 2 (by decide) _ (by decide)).1.mp (by rw [h])⟩

/-- C18: for `n = k * k`, `k >= 1`, and an `n`-by-`n` grid, `findHiddenSingle` applies the
priority rows, then columns, then boxes.  If some row has a hidden single, it returns the
cell of the first (row, value) pair, rows ascending then values ascending, whatever the
columns and boxes hold; otherwise the cell of the first such (column, value) pair;
otherwise that of the first such (sub-box, value) pair, boxes in row-major order of their
origins; otherwise `(-1, -1, -1, false)`.  A returned cell is inside the grid and empty,
and the returned value is safe there. -/
theorem findHiddenSingle_priority (k : Nat) (hk : 1 ≤ k) (g : Grid) (hg : WF (k * k) g) :
    (HasRowSingle g (k * k) →
      ∃ (r c : Nat) (v : Int), findHiddenSingle g (k * k) = ((r : Int), (c : Int), v, true) ∧
        FirstRowSingle g (k * k) r c v) ∧
    (¬ HasRowSingle g (k * k) → HasColSingle g (k * k) →
      ∃ (r c : Nat) (v : Int), findHiddenSingle g (k * k) = ((r : Int), (c : Int), v, true) ∧
        FirstColSingle g (k * k) r c v) ∧
    (¬ HasRowSingle g (k * k) → ¬ HasColSingle g (k * k) → HasBoxSingle g k →
      ∃ (r c : Nat) (v : Int), findHiddenSingle g (k * k) = ((r : Int), (c : Int), v, true) ∧
        FirstBoxSingle g k r c v) ∧
    (¬ HasRowSingle g (k * k) → ¬ HasColSingle g (k * k) → ¬ HasBoxSingle g k →
      findHiddenSingle g (k * k) = (-1, -1, -1, false)) ∧
    (∀ (r c v : Int), findHiddenSingle g (k * k) = (r, c, v, true) →
      ∃ r2 c2 : Nat, r = (r2 : Int) ∧ c = (c2 : Int) ∧ r2 < k * k ∧ c2 < k * k ∧
        cell g r2 c2 = 0 ∧ isSafe g r2 c2 v (k * k) = true) := by
  refine ⟨?_, ?_, ?_, ?_, ?_⟩
  · intro hR
    cases h1 : hiddenRows g (k * k) with
    | none => exact absurd hR ((hiddenRows_none_iff g (k * k)).mp h1)
    | some x =>
      obtain ⟨r, c, v, rfl, hF⟩ := hiddenRows_first h1
      refine ⟨r, c, v, ?_, hF⟩
      unfold findHiddenSingle
      rw [h1]
  · intro hR hC
    have h1 := (hiddenRows_none_iff g (k * k)).mpr hR
    cases h2 : hiddenCols g (k * k) with
    | none => exact absurd hC ((hiddenCols_none_iff g (k * k)).mp h2)
    | some x =>
      obtain ⟨r, c, v, rfl, hF⟩ := hiddenCols_first h2
      refine ⟨r, c, v, ?_, hF⟩
      unfold findHiddenSingle
      rw [h1, h2]
  · intro hR hC hB
    have h1 := (hiddenRows_none_iff g (k * k)).mpr hR
    have h2 := (hiddenCols_none_iff g (k * k)).mpr hC
    cases h3 : hiddenBoxes g (k * k) with
    | none => exact absurd hB ((hiddenBoxes_none_iff g k).mp h3)
    | some x =>
      obtain ⟨r, c, v, rfl, hF⟩ := hiddenBoxes_first h3
      refine ⟨r, c, v, ?_, hF⟩
      unfold findHiddenSingle
      rw [h1, h2, h3]
  · intro hR hC hB
    have h1 := (hiddenRows_none_iff g (k * k)).mpr hR
    have h2 := (hiddenCols_none_iff g (k * k)).mpr hC
    have h3 := (hiddenBoxes_none_iff g k).mpr hB
    unfold findHiddenSingle
    rw [h1, h2, h3]
  · intro r c v h
    obtain ⟨r2, c2, e1, e2, hm⟩ := findHiddenSingle_found hk h
    exact ⟨r2, c2, e1, e2, hm.1, hm.2.1, hm.2.2.1, hm.2.2.2.2.1⟩

theorem findHiddenSingle_priority_witness :
    WF (2 * 2) [[1, 0, 0, 0], [0, 0, 3, 0], [0, 4, 0, 0], [0, 0, 0, 2]] ∧
      findHiddenSingle [[1, 0, 0, 0], [0, 0, 3, 0], [0, 4, 0, 0], [0, 0, 0, 2]] (2 * 2) =
        (0, 1, 3, true) ∧
      ∃ (r c : Nat) (v : Int),
        findHiddenSingle [[1, 0, 0, 0], [0, 0, 3, 0], [0, 4, 0, 0], [0, 0, 0, 2]] (2 * 2) =
          ((r : Int), (c : Int), v, true) ∧
        FirstRowSingle [[1, 0, 0, 0], [0, 0, 3, 0], [0, 4, 0, 0], [0, 0, 0, 2]] (2 * 2) r c v :=
  ⟨by decide, by decide,
    (findHiddenSingle_priority 2 (by decide) _ (by decide)).1
      ⟨0, by decide, 3, by decide, (0, 1), by decide⟩⟩

/-- C19: for `n = k * k`, `k >= 1`, an `n`-by-`n` grid with entries in `0..n` and no
non-zero value twice in a row, column or sub-box, and a solved grid `S` that extends it:
every step `(row, col, val)` recorded by the human-style loop of `humanSolve` has
`S[row][col] = val`; the grid is free of duplicates after every step, and the grid the
loop stops on agrees with `S` in every filled cell. -/
theorem human_steps_sound (k : Nat) (hk : 1 ≤ k) (g : Grid) (hg : WF (k * k) g)
    (hr : InRange (k * k) g) (hnd : NoDup k g) (S : Grid) (hS : WF (k * k) S)
    (hsol : Solved k S)
    (hext : ∀ i, i < k * k → ∀ j, j < k * k → cell g i j ≠ 0 → cell S i j = cell g i j)
    (g' : Grid) (steps : List HumanStep) (h : humanSolve g (k * k) = some (g', steps)) :
    (∀ s ∈ steps, cell S s.row.toNat s.col.toNat = s.val) ∧
      (∀ t, NoDup k (applySteps g (steps.take t))) ∧
      (∀ i, i < k * k → ∀ j, j < k * k → cell g' i j ≠ 0 → cell S i j = cell g' i j) := by
  obtain ⟨g1, steps1, h1, hchain, happ, _⟩ := humanSolve_spec hk hg
  rw [h] at h1
  simp only [Option.some.injEq, Prod.mk.injEq] at h1
  obtain ⟨rfl, rfl⟩ := h1
  have hall : AllOk k S := allOk_of_eachOnce hk hsol.2
  have hc : Completion k g S := completion_of_allOk hS hall hext
  refine ⟨chain_agree hk hall steps g hg hchain hc, ?_, ?_⟩
  · intro t
    exact chain_noDup hk _ g hg hnd (chain_take steps g t hchain)
  · have hfin := chain_forced hk hall steps g hg hchain hc
    rw [← happ] at hfin
    exact fun i hi j hj => (hfin.2 i hi j hj).1

theorem human_steps_sound_witness :
    humanSolve [[0, 2, 3, 4], [3, 4, 0, 2], [2, 1, 4, 3], [4, 3, 0, 1]] (2 * 2) =
        some ([[1, 2, 3, 4], [3, 4, 1, 2], [2, 1, 4, 3], [4, 3, 2, 1]],
          [⟨0, 0, 1, "Naked Single"⟩, ⟨1, 2, 1, "Naked Single"⟩,
            ⟨3, 2, 2, "Naked Single"⟩]) ∧
      ∀ s ∈ [(⟨0, 0, 1, "Naked Single"⟩ : HumanStep), ⟨1, 2, 1, "Naked Single"⟩,
          ⟨3, 2, 2, "Naked Single"⟩],
        cell [[1, 2, 3, 4], [3, 4, 1, 2], [2, 1, 4, 3], [4, 3, 2, 1]] s.row.toNat
          s.col.toNat = s.val :=
  have h : humanSolve [[0, 2, 3, 4], [3, 4, 0, 2], [2, 1, 4, 3], [4, 3, 0, 1]] (2 * 2) =
      some ([[1, 2, 3, 4], [3, 4, 1, 2], [2, 1, 4, 3], [4, 3, 2, 1]],
        [⟨0, 0, 1, "Naked Single"⟩, ⟨1, 2, 1, "Naked Single"⟩,
          ⟨3, 2, 2, "Naked Single"⟩]) := by decide
  ⟨h, (human_steps_sound 2 (by decide) _ (by decide) (by decide) (by decide)
    [[1, 2, 3, 4], [3, 4, 1, 2], [2, 1, 4, 3], [4, 3, 2, 1]] (by decide) (by decide)
    (by decide) _ _ h).1⟩

/-- C20: for `n = k * k`, `k >= 1`, and an `n`-by-`n` grid with entries in `0..n` and no
non-zero value twice in a row, column or sub-box: if `solve(grid, n)` returns true, the
final grid is a solved grid that keeps the given cells, and its flat array (the cells in
row-major order, as `gridToFlat` writes them) is lexicographically no greater than that
of every solved grid that keeps the given cells: at the first cell where the two differ
the final grid holds the smaller value.  Hence the final grid is the only such grid that
is least, however many solutions the puzzle has. -/
theorem solve_returns_least (k : Nat) (hk : 1 ≤ k) (g : Grid) (hg : WF (k * k) g)
    (hr : InRange (k * k) g) (hnd : NoDup k g) (S0 : Grid) (ev : List StepEvent)
    (h : solve g (k * k) = some (true, S0, ev)) :
    (WF (k * k) S0 ∧ Solved k S0 ∧
      ∀ i, i < k * k → ∀ j, j < k * k → cell g i j ≠ 0 → cell S0 i j = cell g i j) ∧
    (∀ S, WF (k * k) S → Solved k S →
      (∀ i, i < k * k → ∀ j, j < k * k → cell g i j ≠ 0 → cell S i j = cell g i j) →
        lexLE (gridToFlat S0) (gridToFlat S) = true ∧ CellLE (k * k) S0 S) ∧
    (∀ S, WF (k * k) S → Solved k S →
      (∀ i, i < k * k → ∀ j, j < k * k → cell g i j ≠ 0 → cell S i j = cell g i j) →
      (∀ T, WF (k * k) T → Solved k T →
        (∀ i, i < k * k → ∀ j, j < k * k → cell g i j ≠ 0 → cell T i j = cell g i j) →
          lexLE (gridToFlat S) (gridToFlat T) = true) →
      S = S0) := by
  have hc : Completion k g S0 := (solveRun_spec hk false hg h).1 rfl
  have hall := allOk_of_completion hr hnd hc
  have hsol : Solved k S0 := ⟨full_of_allOk hall, eachOnce_of_allOk hall⟩
  have hext : ∀ i, i < k * k → ∀ j, j < k * k → cell g i j ≠ 0 → cell S0 i j = cell g i j :=
    fun i hi j hj => (hc.2 i hi j hj).1
  have hle : ∀ S, WF (k * k) S → Solved k S →
      (∀ i, i < k * k → ∀ j, j < k * k → cell g i j ≠ 0 → cell S i j = cell g i j) →
        lexLE (gridToFlat S0) (gridToFlat S) = true ∧ CellLE (k * k) S0 S := by
    intro S hS hsS hextS
    have hcS : Completion k g S := completion_of_allOk hS (allOk_of_eachOnce hk hsS.2) hextS
    have hcl : CellLE (k * k) S0 S :=
      solveAux_least hk false _ g [] S0 ev hg h S hcS
    exact ⟨lexLE_of_cellLE hc.1 hS hcl, hcl⟩
  refine ⟨⟨hc.1, hsol, hext⟩, hle, ?_⟩
  intro S hS hsS hextS hmin
  exact eq_of_gridToFlat_eq hS hc.1
    (lexLE_antisymm _ _ (hmin S0 hc.1 hsol hext) (hle S hS hsS hextS).1)

theorem solve_returns_least_witness :
    solve [[1, 0, 0, 0], [0, 0, 0, 0], [0, 0, 0, 0], [0, 0, 0, 0]] (2 * 2) =
        some (true, [[1, 2, 3, 4], [3, 4, 1, 2], [2, 1, 4, 3], [4, 3, 2, 1]], []) ∧
      Solved 2 [[1, 3, 2, 4], [4, 2, 3, 1], [2, 4, 1, 3], [3, 1, 4, 2]] ∧
      lexLE (gridToFlat [[1, 2, 3, 4], [3, 4, 1, 2], [2, 1, 4, 3], [4, 3, 2, 1]])
        (gridToFlat [[1, 3, 2, 4], [4, 2, 3, 1], [2, 4, 1, 3], [3, 1, 4, 2]]) = true :=
  have h : solve [[1, 0, 0, 0], [0, 0, 0, 0], [0, 0, 0, 0], [0, 0, 0, 0]] (2 * 2) =
      some (true, [[1, 2, 3, 4], [3, 4, 1, 2], [2, 1, 4, 3], [4, 3, 2, 1]], []) := by decide
  ⟨h, by decide,
    ((solve_returns_least 2 (by decide) _ (by decide) (by decide) (by decide) _ _ h).2.1
      [[1, 3, 2, 4], [4, 2, 3, 1], [2, 4, 1, 3], [3, 1, 4, 2]] (by decide) (by decide)
      (by decide)).1⟩

end Sudoku
